import Mathlib

/-!
Verification of the koofr/go-webdav-redis-ls lock system.

The repository implements a WebDAV lock manager on top of Redis.  All state
lives in the Redis key space and every logical operation runs as one atomic
Lua script (`lock_lua.go`); the Go facade (`lock.go`) cleans path arguments,
converts durations to whole seconds and decodes script replies.

This file shallowly embeds that code:

* strings are modelled as their character lists (`List Char`);
* the Redis key space is modelled structurally: the node hashes `n:<path>`,
  the token keys `t:<token>` and the expiry sorted set `e` become three
  association lists, and the `nt` counter becomes a natural number.  The
  caller-supplied key prefix only namespaces keys and is dropped;
* Lua runtime errors (which abort a script) are modelled with `Except`;
* tokens are decimal numerals produced by `INCR`; the model identifies a
  numeral with its numeric value (`Nat`).  A token string that is not a
  numeral of an issued token behaves exactly like an unissued numeral (its
  key never exists), so no behaviour is lost by the identification.
-/

set_option maxHeartbeats 1600000
set_option linter.unusedVariables false
set_option linter.unusedSectionVars false

namespace WebdavRedisLS

/-- Paths (and raw name arguments) are strings, modelled as character lists. -/
abbrev Path := List Char

/-! ## Path utilities

`get_parent_path` is the Lua helper in `lock_lua.go`: scan the path backwards
for the last slash byte (1-based index, 0 when there is none); if the index
is 0 or 1 the parent is `"/"`, otherwise the prefix up to just before the
slash. -/

/-- one-based index of the last `'/'` of a string, `0` if there is none.
Models the backwards byte scan of the Lua `get_parent_path`. -/
def lastSlashIdx : Path → Nat
  | [] => 0
  | c :: rest =>
    let r := lastSlashIdx rest
    if r ≠ 0 then r + 1
    else if c = '/' then 1 else 0

/-- the Lua `get_parent_path` from `lock_lua.go`. -/
def get_parent_path (path : Path) : Path :=
  let last_slash_idx := lastSlashIdx path
  if last_slash_idx = 0 ∨ last_slash_idx = 1 then ['/']
  else path.take (last_slash_idx - 1)

theorem lastSlashIdx_le (l : Path) : lastSlashIdx l ≤ l.length := by
  induction l with
  | nil => simp [lastSlashIdx]
  | cons c rest ih =>
    simp only [lastSlashIdx, List.length_cons]
    split
    · omega
    · split <;> omega

/-- measure for the walk-to-root recursion. -/
def chainMeasure (p : Path) : Nat := if p = ['/'] then 0 else p.length + 2

theorem get_parent_path_measure (p : Path) (h : p ≠ ['/']) :
    chainMeasure (get_parent_path p) < chainMeasure p := by
  have hle := lastSlashIdx_le p
  unfold chainMeasure get_parent_path
  simp only [h, if_false]
  split
  · simp
  · split
    · omega
    · rename_i hidx hne
      have h2 : 2 ≤ lastSlashIdx p := by omega
      have hlen : (p.take (lastSlashIdx p - 1)).length = lastSlashIdx p - 1 := by
        rw [List.length_take]
        omega
      omega

/-- the list of paths visited when walking from `p` up to the root, i.e.
`[p, parent p, …, "/"]`.  Every Lua walk loop (`create_token`, `can_create`,
`remove`) visits exactly this list of paths, since the parent computation
does not depend on the store. -/
def pathChain (p : Path) : List Path :=
  if h : p = ['/'] then [['/']]
  else p :: pathChain (get_parent_path p)
termination_by chainMeasure p
decreasing_by exact get_parent_path_measure p h

theorem pathChain_root : pathChain ['/'] = [['/']] := by
  rw [pathChain]
  simp

theorem pathChain_ne {p : Path} (h : p ≠ ['/']) :
    pathChain p = p :: pathChain (get_parent_path p) := by
  rw [pathChain]
  simp [h]

/-! ## Canonical paths via segment lists

A canonical (clean, rooted) path is `"/"` followed by slash-separated
nonempty segments.  `segsToPath`/`splitSegs` convert between the segment
list and the string form; all combinatorial facts about the walk
(`pathChain`) and the descendant relation are proved through segments. -/

/-- join segments with `'/'` separators (no leading slash). -/
def segJoin : List (List Char) → List Char
  | [] => []
  | [s] => s
  | s :: rest => s ++ '/' :: segJoin rest

/-- the rooted path of a segment list: `segsToPath [a, b] = "/a/b"`,
`segsToPath [] = "/"`. -/
def segsToPath (segs : List (List Char)) : Path := '/' :: segJoin segs

/-- split a string at every `'/'` (like Go `strings.Split`); the result is
always nonempty and a string with no slash splits to itself. -/
def splitSegs : List Char → List (List Char)
  | [] => [[]]
  | c :: rest =>
    if c = '/' then [] :: splitSegs rest
    else
      match splitSegs rest with
      | s :: ss => (c :: s) :: ss
      | [] => [[c]]

/-- segment lists denoting canonical paths: nonempty, slash-free segments. -/
def goodSegs (segs : List (List Char)) : Prop := ∀ s ∈ segs, s ≠ [] ∧ '/' ∉ s

theorem goodSegs_nil : goodSegs [] := by intro s hs; cases hs

theorem goodSegs_sub {a b : List (List Char)} (h : goodSegs b) (hsub : ∀ s ∈ a, s ∈ b) :
    goodSegs a := fun s hs => h s (hsub s hs)

theorem segJoin_cons_cons (s t : List Char) (rest : List (List Char)) :
    segJoin (s :: t :: rest) = s ++ '/' :: segJoin (t :: rest) := rfl

theorem segJoin_append_single {segs : List (List Char)} (hne : segs ≠ []) (s : List Char) :
    segJoin (segs ++ [s]) = segJoin segs ++ '/' :: s := by
  induction segs with
  | nil => exact absurd rfl hne
  | cons a rest ih =>
    cases rest with
    | nil => rfl
    | cons b rest' =>
      have ih' := ih (by simp)
      calc segJoin ((a :: b :: rest') ++ [s])
          = a ++ '/' :: segJoin ((b :: rest') ++ [s]) := by
            simp only [List.cons_append, segJoin_cons_cons]
        _ = a ++ '/' :: (segJoin (b :: rest') ++ '/' :: s) := by rw [ih']
        _ = (a ++ '/' :: segJoin (b :: rest')) ++ '/' :: s := by simp

theorem splitSegs_ne_nil (l : List Char) : splitSegs l ≠ [] := by
  cases l with
  | nil => simp [splitSegs]
  | cons c rest =>
    simp only [splitSegs]
    split
    · simp
    · split <;> simp

theorem splitSegs_noSlash {s : List Char} (h : '/' ∉ s) : splitSegs s = [s] := by
  induction s with
  | nil => rfl
  | cons c rest ih =>
    have hc : ¬ c = '/' := fun hc => h (hc ▸ List.mem_cons_self c rest)
    have hrest : '/' ∉ rest := fun hm => h (List.mem_cons_of_mem c hm)
    simp only [splitSegs, hc, if_false, ih hrest]

theorem splitSegs_append_slash {s : List Char} (t : List Char) (h : '/' ∉ s) :
    splitSegs (s ++ '/' :: t) = s :: splitSegs t := by
  induction s with
  | nil => simp [splitSegs]
  | cons c rest ih =>
    have hc : ¬ c = '/' := fun hc => h (hc ▸ List.mem_cons_self c rest)
    have hrest : '/' ∉ rest := fun hm => h (List.mem_cons_of_mem c hm)
    simp only [List.cons_append, splitSegs, hc, if_false]
    rw [show splitSegs (rest.append ('/' :: t)) = rest :: splitSegs t from ih hrest]

/-- `splitSegs` recovers the segments of a joined canonical segment list. -/
theorem splitSegs_segJoin {segs : List (List Char)} (hne : segs ≠ [])
    (h : ∀ s ∈ segs, '/' ∉ s) : splitSegs (segJoin segs) = segs := by
  induction segs with
  | nil => exact absurd rfl hne
  | cons a rest ih =>
    cases rest with
    | nil => exact splitSegs_noSlash (h a (by simp))
    | cons b rest' =>
      rw [segJoin_cons_cons, splitSegs_append_slash _ (h a (by simp))]
      rw [ih (by simp) (fun s hs => h s (List.mem_cons_of_mem a hs))]

/-- joining the chunks of a split gives back the string. -/
theorem segJoin_splitSegs (l : List Char) : segJoin (splitSegs l) = l := by
  induction l with
  | nil => rfl
  | cons c rest ih =>
    obtain ⟨s, ss, hss⟩ : ∃ s ss, splitSegs rest = s :: ss :=
      match hsp : splitSegs rest with
      | [] => absurd hsp (splitSegs_ne_nil rest)
      | s :: ss => ⟨s, ss, rfl⟩
    rw [hss] at ih
    by_cases hc : c = '/'
    · subst hc
      have hrw : splitSegs ('/' :: rest) = [] :: s :: ss := by
        simp [splitSegs, hss]
      rw [hrw, segJoin_cons_cons]
      exact congrArg (List.cons '/') ih
    · have hrw : splitSegs (c :: rest) = (c :: s) :: ss := by
        simp [splitSegs, hc, hss]
      rw [hrw]
      cases ss with
      | nil => exact congrArg (List.cons c) ih
      | cons t ts => exact congrArg (List.cons c) ih

/-- chunks produced by `splitSegs` never contain a slash. -/
theorem splitSegs_chunk_noSlash (l : List Char) : ∀ s ∈ splitSegs l, '/' ∉ s := by
  induction l with
  | nil =>
    intro s hs hmem
    simp only [splitSegs, List.mem_singleton] at hs
    subst hs
    cases hmem
  | cons c rest ih =>
    obtain ⟨t, ts, hts⟩ : ∃ t ts, splitSegs rest = t :: ts :=
      match hsp : splitSegs rest with
      | [] => absurd hsp (splitSegs_ne_nil rest)
      | t :: ts => ⟨t, ts, rfl⟩
    intro s hs
    by_cases hc : c = '/'
    · subst hc
      have hrw : splitSegs ('/' :: rest) = [] :: splitSegs rest := by
        simp [splitSegs]
      rw [hrw, List.mem_cons] at hs
      rcases hs with hs | hs
      · subst hs
        simp
      · exact ih s hs
    · have hrw : splitSegs (c :: rest) = (c :: t) :: ts := by
        simp [splitSegs, hc, hts]
      rw [hrw, List.mem_cons] at hs
      rcases hs with hs | hs
      · subst hs
        intro hmem
        rcases List.mem_cons.mp hmem with hh | hh
        · exact hc hh.symm
        · refine ih t ?_ hh
          rw [hts]
          exact List.mem_cons_self t ts
      · refine ih s ?_
        rw [hts]
        exact List.mem_cons_of_mem t hs

theorem segJoin_ne_nil {segs : List (List Char)} (hne : segs ≠ []) (hg : goodSegs segs) :
    segJoin segs ≠ [] := by
  cases segs with
  | nil => exact absurd rfl hne
  | cons a rest =>
    have ha := (hg a (by simp)).1
    cases rest with
    | nil => exact ha
    | cons b rest' =>
      rw [segJoin_cons_cons]
      intro h
      exact ha (List.append_eq_nil.mp h).1

/-- `segsToPath` is injective on canonical segment lists. -/
theorem segsToPath_injOn {a b : List (List Char)} (ha : goodSegs a) (hb : goodSegs b)
    (h : segsToPath a = segsToPath b) : a = b := by
  have hj : segJoin a = segJoin b := by
    simpa [segsToPath] using h
  by_cases hae : a = []
  · subst hae
    by_cases hbe : b = []
    · exact hbe.symm
    · exact absurd hj.symm (segJoin_ne_nil hbe hb)
  · by_cases hbe : b = []
    · subst hbe
      exact absurd hj (segJoin_ne_nil hae ha)
    · calc a = splitSegs (segJoin a) := (splitSegs_segJoin hae (fun s hs => (ha s hs).2)).symm
        _ = splitSegs (segJoin b) := by rw [hj]
        _ = b := splitSegs_segJoin hbe (fun s hs => (hb s hs).2)

theorem segsToPath_nil : segsToPath [] = ['/'] := rfl

theorem segsToPath_eq_root {segs : List (List Char)} (hg : goodSegs segs)
    (h : segsToPath segs = ['/']) : segs = [] :=
  segsToPath_injOn hg goodSegs_nil h

theorem segsToPath_length {segs : List (List Char)} (hg : goodSegs segs) (hne : segs ≠ []) :
    2 ≤ (segsToPath segs).length := by
  have := segJoin_ne_nil hne hg
  have : 1 ≤ (segJoin segs).length := by
    cases hj : segJoin segs with
    | nil => exact absurd hj this
    | cons x xs => simp
  simp only [segsToPath, List.length_cons]
  omega

theorem segsToPath_ne_root {segs : List (List Char)} (hg : goodSegs segs) (hne : segs ≠ []) :
    segsToPath segs ≠ ['/'] := by
  intro h
  exact hne (segsToPath_eq_root hg h)

/-! ## The parent function on canonical paths -/

theorem lastSlashIdx_append_noSlash {pre s : List Char} (h : '/' ∉ s) :
    lastSlashIdx (pre ++ '/' :: s) = pre.length + 1 := by
  induction pre with
  | nil =>
    simp only [List.nil_append, List.length_nil]
    have : lastSlashIdx s = 0 := by
      induction s with
      | nil => rfl
      | cons c rest ih =>
        have hc : ¬ c = '/' := fun hc => h (hc ▸ List.mem_cons_self c rest)
        have hrest : '/' ∉ rest := fun hm => h (List.mem_cons_of_mem c hm)
        simp only [lastSlashIdx, ih hrest]
        simp [hc]
    simp [lastSlashIdx, this]
  | cons c pre' ih =>
    have hstep : lastSlashIdx ((c :: pre') ++ '/' :: s) =
        if lastSlashIdx (pre' ++ '/' :: s) ≠ 0 then lastSlashIdx (pre' ++ '/' :: s) + 1
        else if c = '/' then 1 else 0 := rfl
    rw [hstep, ih]
    simp

/-- the parent of `"/a/…/y/z"` is `"/a/…/y"`. -/
theorem get_parent_path_segs {segs : List (List Char)} {s : List Char}
    (hg : goodSegs (segs ++ [s])) :
    get_parent_path (segsToPath (segs ++ [s])) = segsToPath segs := by
  have hs : '/' ∉ s := (hg s (by simp)).2
  cases segs with
  | nil =>
    have : segsToPath [s] = [] ++ '/' :: s := by simp [segsToPath, segJoin]
    rw [List.nil_append] at this
    unfold get_parent_path
    rw [show segsToPath ([] ++ [s]) = [] ++ '/' :: s from this]
    rw [lastSlashIdx_append_noSlash hs]
    simp [segsToPath, segJoin]
  | cons a rest =>
    have hne : a :: rest ≠ [] := by simp
    have hjoin : segsToPath ((a :: rest) ++ [s]) = segsToPath (a :: rest) ++ '/' :: s := by
      simp only [segsToPath]
      rw [segJoin_append_single hne]
      simp
    unfold get_parent_path
    rw [hjoin, lastSlashIdx_append_noSlash hs]
    have hlen : 2 ≤ (segsToPath (a :: rest)).length :=
      segsToPath_length (goodSegs_sub hg (fun x hx => List.mem_append_left _ hx)) hne
    have hcond : ¬ ((segsToPath (a :: rest)).length + 1 = 0 ∨
        (segsToPath (a :: rest)).length + 1 = 1) := by omega
    simp only [hcond, if_false]
    have : (segsToPath (a :: rest)).length + 1 - 1 = (segsToPath (a :: rest)).length := by omega
    rw [this, List.take_left]

/-! ## The walk chain of a canonical path -/

/-- the prefixes of a list in descending length order:
`descPrefixes [a,b] = [[a,b],[a],[]]`. -/
def descPrefixes (l : List α) : List (List α) :=
  ((List.range (l.length + 1)).reverse).map (fun k => l.take k)

theorem descPrefixes_nil : descPrefixes ([] : List α) = [[]] := rfl

theorem descPrefixes_append_single (l : List α) (x : α) :
    descPrefixes (l ++ [x]) = (l ++ [x]) :: descPrefixes l := by
  unfold descPrefixes
  have h1 : (l ++ [x]).length + 1 = (l.length + 1) + 1 := by simp
  rw [h1, List.range_succ, List.reverse_append]
  simp only [List.reverse_singleton, List.singleton_append, List.map_cons]
  congr 1
  · simp
  · apply List.map_congr_left
    intro k hk
    simp only [List.mem_reverse, List.mem_range] at hk
    rw [List.take_append_of_le_length (by omega)]

theorem mem_descPrefixes {l x : List α} : x ∈ descPrefixes l ↔ x <+: l := by
  unfold descPrefixes
  simp only [List.mem_map, List.mem_reverse, List.mem_range]
  constructor
  · rintro ⟨k, hk, rfl⟩
    exact List.take_prefix k l
  · intro h
    exact ⟨x.length, by have := h.length_le; omega, (List.prefix_iff_eq_take.mp h).symm⟩

theorem descPrefixes_nodup (l : List α) : (descPrefixes l).Nodup := by
  unfold descPrefixes
  refine List.Nodup.map_on ?_ (List.nodup_reverse.mpr (List.nodup_range _))
  intro a ha b hb hab
  simp only [List.mem_reverse, List.mem_range] at ha hb
  have la : (l.take a).length = a := by rw [List.length_take]; omega
  have lb : (l.take b).length = b := by rw [List.length_take]; omega
  rw [← la, ← lb, hab]

/-- prefixes of a canonical segment list are canonical. -/
theorem goodSegs_of_front {a b : List (List Char)} (hg : goodSegs b) (h : a <+: b) :
    goodSegs a := goodSegs_sub hg (fun s hs => h.subset hs)

/-- the walk chain of a canonical path visits exactly the paths of its
segment-list prefixes, in descending order. -/
theorem pathChain_segs {segs : List (List Char)} (hg : goodSegs segs) :
    pathChain (segsToPath segs) = (descPrefixes segs).map segsToPath := by
  induction segs using List.reverseRecOn with
  | nil => simp [segsToPath_nil, pathChain_root, descPrefixes_nil]
  | append_singleton l x ih =>
    have hgl : goodSegs l := goodSegs_of_front hg (List.prefix_append l [x])
    rw [pathChain_ne (segsToPath_ne_root hg (by simp))]
    rw [get_parent_path_segs hg, ih hgl, descPrefixes_append_single]
    simp

theorem root_mem_pathChain {segs : List (List Char)} (hg : goodSegs segs) :
    ['/'] ∈ pathChain (segsToPath segs) := by
  rw [pathChain_segs hg]
  refine List.mem_map.mpr ⟨[], ?_, segsToPath_nil⟩
  exact mem_descPrefixes.mpr List.nil_prefix

theorem pathChain_nodup {segs : List (List Char)} (hg : goodSegs segs) :
    (pathChain (segsToPath segs)).Nodup := by
  rw [pathChain_segs hg]
  refine List.Nodup.map_on ?_ (descPrefixes_nodup segs)
  intro a ha b hb hab
  exact segsToPath_injOn
    (goodSegs_of_front hg (mem_descPrefixes.mp ha))
    (goodSegs_of_front hg (mem_descPrefixes.mp hb)) hab

theorem segJoin_append_of_ne_nil {b t : List (List Char)} (hb : b ≠ []) (ht : t ≠ []) :
    segJoin (b ++ t) = segJoin b ++ '/' :: segJoin t := by
  induction b with
  | nil => exact absurd rfl hb
  | cons x b' ih =>
    cases b' with
    | nil =>
      cases t with
      | nil => exact absurd rfl ht
      | cons y ts => simp [segJoin_cons_cons, segJoin]
    | cons z b'' =>
      have : (z :: b'') ++ t = z :: (b'' ++ t) := by simp
      calc segJoin ((x :: z :: b'') ++ t)
          = x ++ '/' :: segJoin ((z :: b'') ++ t) := by
            simp only [List.cons_append, segJoin_cons_cons]
        _ = x ++ '/' :: (segJoin (z :: b'') ++ '/' :: segJoin t) := by
            rw [ih (by simp)]
        _ = (x ++ '/' :: segJoin (z :: b'')) ++ '/' :: segJoin t := by simp
        _ = segJoin (x :: z :: b'') ++ '/' :: segJoin t := by rw [segJoin_cons_cons]

/-- first-slash decomposition: a string prefix that runs past a slash pins
down the slash-free first chunk. -/
theorem firstSlash_split {s t u v : List Char} (hs : '/' ∉ s) (ht : '/' ∉ t)
    (h : (s ++ '/' :: u) <+: (t ++ '/' :: v)) : s = t ∧ u <+: v := by
  induction s generalizing t with
  | nil =>
    cases t with
    | nil =>
      simp only [List.nil_append] at h
      exact ⟨rfl, (List.cons_prefix_cons.mp h).2⟩
    | cons d t' =>
      simp only [List.nil_append, List.cons_append] at h
      have := (List.cons_prefix_cons.mp h).1
      exact absurd this.symm (fun hd => ht (hd ▸ List.mem_cons_self d t'))
  | cons c s' ih =>
    cases t with
    | nil =>
      simp only [List.cons_append, List.nil_append] at h
      have := (List.cons_prefix_cons.mp h).1
      exact absurd this (fun hc => hs (hc ▸ List.mem_cons_self c s'))
    | cons d t' =>
      simp only [List.cons_append] at h
      obtain ⟨hcd, htail⟩ := List.cons_prefix_cons.mp h
      have hs' : '/' ∉ s' := fun hm => hs (List.mem_cons_of_mem c hm)
      have ht' : '/' ∉ t' := fun hm => ht (List.mem_cons_of_mem d hm)
      obtain ⟨hst, huv⟩ := ih hs' ht' htail
      exact ⟨by rw [hcd, hst], huv⟩

/-- a joined segment list that is a string prefix (through a slash) of
another joined list is a segment-list prefix. -/
theorem segs_prefix_of_join_prefix : ∀ (b a : List (List Char)), goodSegs a →
    goodSegs b → b ≠ [] → (segJoin b ++ ['/']) <+: segJoin a → b <+: a := by
  intro b
  induction b with
  | nil =>
    intro a _ _ hbe _
    exact absurd rfl hbe
  | cons s b' ih =>
    intro a ha hb hbe h
    cases a with
    | nil =>
      exfalso
      rw [show segJoin ([] : List (List Char)) = [] from rfl] at h
      have := List.prefix_nil.mp h
      simp at this
    | cons t a' =>
      have hsns : '/' ∉ s := (hb s (by simp)).2
      have htns : '/' ∉ t := (ha t (by simp)).2
      cases b' with
      | nil =>
        -- b = [s]
        cases a' with
        | nil =>
          -- a = [t]: the prefix would put a slash inside t
          exfalso
          have hmem : '/' ∈ segJoin [t] := h.subset (by simp [segJoin])
          simp only [segJoin] at hmem
          exact htns hmem
        | cons z a₃ =>
          rw [show segJoin [s] = s from rfl, segJoin_cons_cons] at h
          obtain ⟨hst, _⟩ := firstSlash_split hsns htns h
          rw [hst]
          exact ⟨z :: a₃, rfl⟩
      | cons r b'' =>
        cases a' with
        | nil =>
          -- a = [t] is too short to contain b's slash structure
          exfalso
          have hmem : '/' ∈ segJoin [t] := by
            refine h.subset ?_
            rw [segJoin_cons_cons]
            simp
          simp only [segJoin] at hmem
          exact htns hmem
        | cons z a₃ =>
          rw [segJoin_cons_cons, segJoin_cons_cons] at h
          simp only [List.append_assoc, List.cons_append] at h
          obtain ⟨hst, htail⟩ := firstSlash_split hsns htns h
          have hb' : goodSegs (r :: b'') := fun x hx => hb x (List.mem_cons_of_mem s hx)
          have ha' : goodSegs (z :: a₃) := fun x hx => ha x (List.mem_cons_of_mem t hx)
          have hpre := ih (z :: a₃) ha' hb' (by simp) htail
          subst hst
          exact List.cons_prefix_cons.mpr ⟨rfl, hpre⟩

/-! ## The descendant relation -/

/-- `isBeneath q p` holds when the path `q` is at or beneath the path `p` in
the tree: `q = p`, or `p` is the root, or `q` extends `p` past a slash.  This
is the relation the Lua `lookup_token` tests
(`root == "/" or has_prefix(lookup_name, root .. "/")`). -/
def isBeneath (q p : Path) : Bool :=
  decide (q = p) || decide (p = ['/']) || (p ++ ['/']).isPrefixOf q

theorem isBeneath_iff {q p : Path} :
    isBeneath q p = true ↔ (q = p ∨ p = ['/'] ∨ (p ++ ['/']) <+: q) := by
  simp [isBeneath, List.isPrefixOf_iff_prefix, or_assoc]

theorem isBeneath_refl (p : Path) : isBeneath p p = true := by
  simp [isBeneath]

/-- on canonical paths, the descendant relation is exactly the segment-list
prefix relation. -/
theorem isBeneath_segs {a b : List (List Char)} (ha : goodSegs a) (hb : goodSegs b) :
    isBeneath (segsToPath a) (segsToPath b) = true ↔ b <+: a := by
  rw [isBeneath_iff]
  constructor
  · rintro (h | h | h)
    · rw [segsToPath_injOn ha hb h]
    · rw [segsToPath_eq_root hb h]
      exact List.nil_prefix
    · -- `segsToPath b ++ "/"` is a string prefix of `segsToPath a`
      by_cases hbe : b = []
      · subst hbe
        exact List.nil_prefix
      · -- b nonempty: peel the leading slash, then induct on segments
        have hb1 : segsToPath b ++ ['/'] = '/' :: (segJoin b ++ ['/']) := by
          simp [segsToPath]
        have ha1 : segsToPath a = '/' :: segJoin a := rfl
        rw [hb1, ha1] at h
        have h2 : (segJoin b ++ ['/']) <+: segJoin a := (List.cons_prefix_cons.mp h).2
        exact segs_prefix_of_join_prefix b a ha hb hbe h2
  · intro h
    obtain ⟨t, rfl⟩ := h
    by_cases hte : t = []
    · subst hte
      simp
    · by_cases hbe : b = []
      · subst hbe
        right; left; rfl
      · right; right
        have : segsToPath (b ++ t) = segsToPath b ++ '/' :: segJoin t := by
          simp only [segsToPath]
          rw [segJoin_append_of_ne_nil hbe hte]
          simp
        rw [this]
        exact ⟨segJoin t, by simp⟩

/-- a path that is `"/"` followed by slash-separated nonempty segments. -/
def GoodPath (p : Path) : Prop := ∃ segs, goodSegs segs ∧ p = segsToPath segs

theorem goodPath_root : GoodPath ['/'] := ⟨[], goodSegs_nil, rfl⟩

theorem mem_pathChain_iff {p r : Path} (hp : GoodPath p) (hr : GoodPath r) :
    p ∈ pathChain r ↔ isBeneath r p = true := by
  obtain ⟨ps, hps, rfl⟩ := hp
  obtain ⟨rs, hrs, rfl⟩ := hr
  rw [pathChain_segs hrs, isBeneath_segs hrs hps]
  constructor
  · intro h
    obtain ⟨ks, hks, hkp⟩ := List.mem_map.mp h
    have hkpre := mem_descPrefixes.mp hks
    have : ks = ps := segsToPath_injOn (goodSegs_of_front hrs hkpre) hps hkp
    exact this ▸ hkpre
  · intro h
    exact List.mem_map.mpr ⟨ps, mem_descPrefixes.mpr h, rfl⟩

theorem goodPath_of_mem_pathChain {a r : Path} (hr : GoodPath r) (h : a ∈ pathChain r) :
    GoodPath a := by
  obtain ⟨rs, hrs, rfl⟩ := hr
  rw [pathChain_segs hrs] at h
  obtain ⟨ks, hks, rfl⟩ := List.mem_map.mp h
  exact ⟨ks, goodSegs_of_front hrs (mem_descPrefixes.mp hks), rfl⟩

theorem self_mem_pathChain (p : Path) : p ∈ pathChain p := by
  by_cases h : p = ['/']
  · subst h
    rw [pathChain_root]
    simp
  · rw [pathChain_ne h]
    simp

theorem isBeneath_trans {a b c : Path} (ha : GoodPath a) (hb : GoodPath b) (hc : GoodPath c)
    (hab : isBeneath a b = true) (hbc : isBeneath b c = true) : isBeneath a c = true := by
  obtain ⟨as, has, rfl⟩ := ha
  obtain ⟨bs, hbs, rfl⟩ := hb
  obtain ⟨cs, hcs, rfl⟩ := hc
  rw [isBeneath_segs has hbs] at hab
  rw [isBeneath_segs hbs hcs] at hbc
  exact (isBeneath_segs has hcs).mpr (hbc.trans hab)

theorem isBeneath_root {p : Path} (hp : GoodPath p) : isBeneath p ['/'] = true := by
  obtain ⟨ps, hps, rfl⟩ := hp
  exact (isBeneath_segs hps goodSegs_nil).mpr List.nil_prefix

theorem pathChain_sub {a r : Path} (hr : GoodPath r) (h : a ∈ pathChain r) :
    ∀ x ∈ pathChain a, x ∈ pathChain r := by
  obtain ⟨rs, hrs, rfl⟩ := hr
  rw [pathChain_segs hrs] at h
  obtain ⟨ks, hks, rfl⟩ := List.mem_map.mp h
  have hkg : goodSegs ks := goodSegs_of_front hrs (mem_descPrefixes.mp hks)
  intro x hx
  rw [pathChain_segs hkg] at hx
  obtain ⟨ms, hms, rfl⟩ := List.mem_map.mp hx
  rw [pathChain_segs hrs]
  refine List.mem_map.mpr ⟨ms, ?_, rfl⟩
  exact mem_descPrefixes.mpr ((mem_descPrefixes.mp hms).trans (mem_descPrefixes.mp hks))

/-! ## Clean names

The Go facade canonicalises every path argument with
`slashClean(name) = path.Clean("/" + name)` (`lock.go`).  `path.Clean` is Go
standard-library code, embedded here by its documented semantics on rooted
paths: split on slashes, drop empty and `"."` segments, let `".."` pop the
previous segment, and rejoin rooted.  `CleanName` decides the fixed points
of this cleaning: rooted paths of regular segments. -/

/-- a segment contains no slash. -/
def noSlash (s : List Char) : Bool := s.all (fun c => decide (¬ c = '/'))

/-- a regular segment: nonempty, slash-free, neither `"."` nor `".."`. -/
def regSeg (s : List Char) : Bool :=
  (!s.isEmpty) && noSlash s && decide (s ≠ ['.']) && decide (s ≠ ['.', '.'])

/-- decides whether a string is a clean rooted path (a fixed point of
`slashClean`, equivalently of Go `path.Clean` among strings starting with
`"/"`). -/
def CleanName (p : Path) : Bool :=
  match p with
  | c :: rest => decide (c = '/') && (rest.isEmpty || (splitSegs rest).all regSeg)
  | [] => false

/-- one step of the segment-stack cleaning of Go `path.Clean` (rooted case):
skip empty and dot segments, make dot-dot pop, push the rest. -/
def cleanStep (acc : List (List Char)) (c : List Char) : List (List Char) :=
  if c = [] ∨ c = ['.'] then acc
  else if c = ['.', '.'] then acc.dropLast
  else acc ++ [c]

/-- Go `path.Clean` on a rooted input, by its documented segment semantics. -/
def cleanRooted (p : Path) : Path :=
  segsToPath ((splitSegs (p.drop 1)).foldl cleanStep [])

/-- the Go facade helper `slashClean` (`lock.go`): prepend `"/"` when absent,
then clean. -/
def slashClean (name : List Char) : Path :=
  if name.head? = some '/' then cleanRooted name else cleanRooted ('/' :: name)

theorem regSeg_good {s : List Char} (h : regSeg s = true) : s ≠ [] ∧ '/' ∉ s := by
  unfold regSeg noSlash at h
  simp only [Bool.and_eq_true, List.all_eq_true, decide_eq_true_eq, Bool.not_eq_true'] at h
  obtain ⟨⟨⟨h1, h2⟩, h3⟩, h4⟩ := h
  constructor
  · intro hs
    rw [hs] at h1
    simp at h1
  · intro hm
    exact (h2 '/' hm) rfl

theorem goodSegs_of_regSegs {segs : List (List Char)}
    (h : ∀ s ∈ segs, regSeg s = true) : goodSegs segs :=
  fun s hs => regSeg_good (h s hs)

theorem CleanName_segsToPath {segs : List (List Char)}
    (h : ∀ s ∈ segs, regSeg s = true) : CleanName (segsToPath segs) = true := by
  cases segs with
  | nil => rfl
  | cons a rest =>
    have hg : ∀ s ∈ a :: rest, '/' ∉ s := fun s hs => (regSeg_good (h s hs)).2
    have hsplit : splitSegs (segJoin (a :: rest)) = a :: rest := splitSegs_segJoin (by simp) hg
    show (decide ('/' = '/') &&
      ((segJoin (a :: rest)).isEmpty || (splitSegs (segJoin (a :: rest))).all regSeg)) = true
    rw [hsplit]
    simp only [decide_eq_true_eq, Bool.and_eq_true, Bool.or_eq_true, List.all_eq_true]
    exact ⟨trivial, Or.inr h⟩

theorem CleanName_decomp {p : Path} (h : CleanName p = true) :
    ∃ segs, (∀ s ∈ segs, regSeg s = true) ∧ p = segsToPath segs := by
  cases p with
  | nil => simp [CleanName] at h
  | cons c rest =>
    simp only [CleanName, Bool.and_eq_true, decide_eq_true_eq, Bool.or_eq_true,
      List.isEmpty_iff, List.all_eq_true] at h
    obtain ⟨rfl, h2⟩ := h
    rcases h2 with h2 | h2
    · subst h2
      exact ⟨[], by simp, rfl⟩
    · refine ⟨splitSegs rest, h2, ?_⟩
      simp only [segsToPath, segJoin_splitSegs]

theorem goodPath_of_clean {p : Path} (h : CleanName p = true) : GoodPath p := by
  obtain ⟨segs, hr, rfl⟩ := CleanName_decomp h
  exact ⟨segs, goodSegs_of_regSegs hr, rfl⟩

theorem CleanName_root : CleanName ['/'] = true := rfl

theorem CleanName_head {p : Path} (h : CleanName p = true) : p.head? = some '/' := by
  obtain ⟨segs, _, rfl⟩ := CleanName_decomp h
  rfl

theorem foldl_cleanStep_reg {chunks : List (List Char)} (hch : ∀ c ∈ chunks, '/' ∉ c) :
    ∀ acc, (∀ s ∈ acc, regSeg s = true) →
    ∀ s ∈ chunks.foldl cleanStep acc, regSeg s = true := by
  induction chunks with
  | nil => intro acc hacc s hs; exact hacc s hs
  | cons c rest ih =>
    intro acc hacc s hs
    have hcns : '/' ∉ c := hch c (by simp)
    have hrest : ∀ x ∈ rest, '/' ∉ x := fun x hx => hch x (List.mem_cons_of_mem c hx)
    simp only [List.foldl_cons] at hs
    refine ih hrest (cleanStep acc c) ?_ s hs
    intro x hx
    unfold cleanStep at hx
    split at hx
    · exact hacc x hx
    · split at hx
      · exact hacc x ((List.dropLast_prefix acc).subset hx)
      · rename_i hnd hndd
        rcases List.mem_append.mp hx with hx | hx
        · exact hacc x hx
        · have hxc : x = c := by simpa using hx
          subst hxc
          push_neg at hnd
          unfold regSeg noSlash
          simp only [Bool.and_eq_true, List.all_eq_true, decide_eq_true_eq, Bool.not_eq_true']
          refine ⟨⟨⟨?_, fun a ha hac => hcns (hac ▸ ha)⟩, hnd.2⟩, hndd⟩
          cases hxe : x with
          | nil => exact absurd hxe hnd.1
          | cons y ys => simp

theorem slashClean_clean (name : List Char) : CleanName (slashClean name) = true := by
  unfold slashClean cleanRooted
  split
  · exact CleanName_segsToPath
      (foldl_cleanStep_reg (fun c hc => splitSegs_chunk_noSlash _ c hc) [] (by simp))
  · exact CleanName_segsToPath
      (foldl_cleanStep_reg (fun c hc => splitSegs_chunk_noSlash _ c hc) [] (by simp))

theorem foldl_cleanStep_id {cs : List (List Char)} (h : ∀ c ∈ cs, regSeg c = true) :
    ∀ acc, cs.foldl cleanStep acc = acc ++ cs := by
  induction cs with
  | nil => intro acc; simp
  | cons c rest ih =>
    intro acc
    have hc := h c (by simp)
    have hcg := regSeg_good hc
    have hstep : cleanStep acc c = acc ++ [c] := by
      unfold cleanStep
      have h1 : ¬ (c = [] ∨ c = ['.']) := by
        push_neg
        refine ⟨hcg.1, fun hd => ?_⟩
        rw [hd] at hc
        simp [regSeg] at hc
      have h2 : ¬ c = ['.', '.'] := by
        intro hd
        rw [hd] at hc
        simp [regSeg] at hc
      simp [h1, h2]
    simp only [List.foldl_cons, hstep]
    rw [ih (fun x hx => h x (List.mem_cons_of_mem c hx))]
    simp

theorem slashClean_fixpoint {p : Path} (h : CleanName p = true) : slashClean p = p := by
  obtain ⟨segs, hreg, rfl⟩ := CleanName_decomp h
  have hhead : (segsToPath segs).head? = some '/' := rfl
  unfold slashClean
  rw [if_pos hhead]
  unfold cleanRooted
  cases hse : segs with
  | nil => rfl
  | cons a rest =>
    subst hse
    have hg : ∀ s ∈ a :: rest, '/' ∉ s := fun s hs => (regSeg_good (hreg s hs)).2
    have hsplit : splitSegs ((segsToPath (a :: rest)).drop 1) = a :: rest := by
      simp only [segsToPath, List.drop_succ_cons, List.drop_zero]
      exact splitSegs_segJoin (by simp) hg
    rw [hsplit, foldl_cleanStep_id hreg]
    simp

theorem CleanName_chain {p : Path} (h : CleanName p = true) :
    ∀ a ∈ pathChain p, CleanName a = true := by
  obtain ⟨segs, hreg, rfl⟩ := CleanName_decomp h
  intro a ha
  rw [pathChain_segs (goodSegs_of_regSegs hreg)] at ha
  obtain ⟨ks, hks, rfl⟩ := List.mem_map.mp ha
  exact CleanName_segsToPath (fun s hs => hreg s ((mem_descPrefixes.mp hks).subset hs))

/-! ## The store

The Redis key space under the configured prefix, modelled structurally:
`nextToken` is the `nt` counter, `nodes` the `n:<path>` hashes, `tokens` the
`t:<token>` string keys, `expiry` the `e` sorted set (member, score).
Hash fields that are absent are `none`; the boolean fields `h` and `z` are
stored as `"t"`/`"f"` and only ever compared against `"t"`, so they are
modelled as `Bool`. -/

/-- one `n:<path>` hash: fields `n`,`r`,`h`,`c`,`t`,`d`,`o`,`z`,`e`. -/
structure NodeHash where
  n : Option Path := none
  r : Option Path := none
  h : Option Bool := none
  c : Option Int := none
  t : Option Nat := none
  d : Option Int := none
  o : Option String := none
  z : Option Bool := none
  e : Option Int := none
deriving DecidableEq

/-- the whole key space. -/
structure Store where
  nextToken : Nat
  nodes : List (Path × NodeHash)
  tokens : List (Nat × Path)
  expiry : List (Path × Int)
deriving DecidableEq

def emptyStore : Store := ⟨0, [], [], []⟩

/-! ### Association-list primitives -/

def alGet [DecidableEq α] : List (α × β) → α → Option β
  | [], _ => none
  | en :: es, k => if en.1 = k then some en.2 else alGet es k

def alSet [DecidableEq α] : List (α × β) → α → β → List (α × β)
  | [], k, v => [(k, v)]
  | en :: es, k, v => if en.1 = k then (k, v) :: es else en :: alSet es k v

def alDel [DecidableEq α] (l : List (α × β)) (k : α) : List (α × β) :=
  l.filter (fun en => decide (¬ en.1 = k))

/-- keys of an association list are pairwise distinct. -/
def noDupKeys (l : List (α × β)) : Prop := (l.map Prod.fst).Nodup

/-- `HDEL <name> t` on the node hashes; Redis drops a hash whose last field
was removed. -/
def hdelToken (nodes : List (Path × NodeHash)) (name : Path) : List (Path × NodeHash) :=
  match alGet nodes name with
  | none => nodes
  | some hsh =>
    let hsh' := { hsh with t := none }
    if hsh' = ({} : NodeHash) then alDel nodes name else alSet nodes name hsh'

/-- `HSET <name> h …` creates the hash when it is missing. -/
def hsetHeld (nodes : List (Path × NodeHash)) (name : Path) (b : Bool) :
    List (Path × NodeHash) :=
  alSet nodes name { (alGet nodes name).getD {} with h := some b }

/-- byte-wise lexicographic order on strings, the order Redis uses for
same-score members of a sorted set. -/
def pathLe : Path → Path → Bool
  | [], _ => true
  | _ :: _, [] => false
  | a :: as, b :: bs => if a = b then pathLe as bs else decide (a < b)

/-- `ZRANGEBYSCORE e -inf <now> LIMIT 0 <lim>`: the members with score at
most `now`, ordered by score then member, at most `lim` of them. -/
def zrangebyscore (zset : List (Path × Int)) (now_sec : Int) (lim : Nat) : List Path :=
  ((((zset.filter (fun en => decide (en.2 ≤ now_sec))).mergeSort
      (fun a b => decide (a.2 < b.2) || (decide (a.2 = b.2) && pathLe a.1 b.1))).take lim).map
    Prod.fst)

/-! ## The Lua scripts (`lock_lua.go`)

Each script runs atomically; a Lua runtime error (using a nil value as a
string or number) aborts it, modelled by `Except String`. -/

inductive LockErr where
  | locked
  | noSuchLock
  | confirmationFailed
deriving DecidableEq

/-- evaluating a nil value where Lua needs a string or a number raises a
runtime error and aborts the script. -/
def expectVal : Option α → Except String α
  | some v => .ok v
  | none => .error "lua runtime error: nil value"

/-- one step of the `create_token` walk (CreateTokenFunc): `HINCRBY c 1`,
initialise `n`,`r`,`h` when the hash is new (refcount became 1), and on the
first visited path set the lock fields, write the token key, and add the
expiry entry when the duration is non-negative. -/
def createStep (now_sec duration_sec : Int) (is_zero_depth : Bool) (owner_xml : String)
    (token : Nat) (st : Store) (path : Path) (is_first : Bool) : Store :=
  let h0 := (alGet st.nodes path).getD {}
  let ref_count := h0.c.getD 0 + 1
  let h1 := { h0 with c := some ref_count }
  let h2 :=
    if ref_count = 1 then { h1 with n := some path, r := some path, h := some false } else h1
  let expiry_sec := if 0 ≤ duration_sec then now_sec + duration_sec else 0
  let h3 :=
    if is_first then
      { h2 with t := some token, d := some duration_sec, o := some owner_xml,
                z := some is_zero_depth, e := some expiry_sec }
    else h2
  let st1 := { st with nodes := alSet st.nodes path h3 }
  if is_first then
    { st1 with tokens := alSet st1.tokens token path,
               expiry :=
                 if 0 ≤ duration_sec then alSet st1.expiry path expiry_sec else st1.expiry }
  else st1

/-- the walk loop of `create_token`; `is_first` holds only for the head. -/
def createWalk (now_sec duration_sec : Int) (is_zero_depth : Bool) (owner_xml : String)
    (token : Nat) : Store → List Path → Bool → Store
  | st, [], _ => st
  | st, p :: rest, is_first =>
    createWalk now_sec duration_sec is_zero_depth owner_xml token
      (createStep now_sec duration_sec is_zero_depth owner_xml token st p is_first) rest false

/-- the Lua `create_token` (CreateTokenFunc): allocate a token by `INCR nt`,
walk from the root to `"/"`. -/
def create_token (st : Store) (now_sec : Int) (root : Path) (duration_sec : Int)
    (is_zero_depth : Bool) (owner_xml : String) : Nat × Store :=
  let token := st.nextToken + 1
  let st1 := { st with nextToken := token }
  (token,
    createWalk now_sec duration_sec is_zero_depth owner_xml token st1 (pathChain root) true)

/-- the walk loop of `can_create` (CanCreateFunc): a path with no `r` field
is skipped; the first step rejects a locked target or (for an infinite-depth
request) any existing target node; ancestor steps reject an infinite-depth
ancestor lock. -/
def canCreateWalk (st : Store) (is_zero_depth : Bool) : List Path → Bool → Bool
  | [], _ => true
  | path :: rest, is_first =>
    let node := alGet st.nodes path
    let ok :=
      match node.bind NodeHash.r with
      | none => true
      | some _ =>
        let token := node.bind NodeHash.t
        let node_is_zero_depth := node.bind NodeHash.z = some true
        if is_first then
          if token ≠ none then false
          else if ¬ is_zero_depth then false
          else true
        else if token ≠ none ∧ ¬ node_is_zero_depth then false
        else true
    if ok then canCreateWalk st is_zero_depth rest false else false

/-- the Lua `can_create` (CanCreateFunc, `lock_lua.go`). -/
def can_create (st : Store) (name : Path) (is_zero_depth : Bool) : Bool :=
  canCreateWalk st is_zero_depth (pathChain name) true

/-- the node hash after `HINCRBY c -1`. -/
def decHash (h0 : NodeHash) : NodeHash := { h0 with c := some (h0.c.getD 0 - 1) }

/-- one step of the refcount walk of `remove` (RemoveFunc): `HINCRBY c -1`,
deleting the hash when the refcount reaches zero. -/
def removeStep (st : Store) (path : Path) : Store :=
  if ((alGet st.nodes path).getD {}).c.getD 0 - 1 = 0 then
    { st with nodes := alDel st.nodes path }
  else
    { st with nodes := alSet st.nodes path (decHash ((alGet st.nodes path).getD {})) }

/-- the refcount walk of `remove` (RemoveFunc), from the root up. -/
def removeWalk : Store → List Path → Store
  | st, [] => st
  | st, path :: rest => removeWalk (removeStep st path) rest

/-- the Lua `remove` (RemoveFunc): delete the token key, `HDEL` the node's
token field, drop the expiry entry when the duration is non-negative, then
walk the refcounts down from `root`.  `root`, `token` and `duration_sec`
come from `HMGET` at the call sites and may be nil; a nil aborts the script
at exactly the point the Lua concatenation or comparison would raise. -/
def remove (st : Store) (name : Path) (root : Option Path) (token : Option Nat)
    (duration_sec : Option Int) : Except String Store := do
  let tok ← expectVal token
  let st1 := { st with tokens := alDel st.tokens tok }
  let st2 := { st1 with nodes := hdelToken st1.nodes name }
  let d ← expectVal duration_sec
  let st3 := if 0 ≤ d then { st2 with expiry := alDel st2.expiry name } else st2
  let r ← expectVal root
  pure (removeWalk st3 (pathChain r))

/-- the body of one sweep iteration: `HMGET r t d` for each returned name
and `remove` it. -/
def sweepBatch : Store → List Path → Except String Store
  | st, [] => pure st
  | st, name :: rest => do
    let node := alGet st.nodes name
    let st' ← remove st name (node.bind NodeHash.r) (node.bind NodeHash.t)
      (node.bind NodeHash.d)
    sweepBatch st' rest

/-- the `while true` loop of `collect_expired_nodes`, with explicit fuel. -/
def sweepLoop : Nat → Store → Int → Except String Store
  | 0, _, _ => .error "model fuel exhausted"
  | fuel + 1, st, now_sec =>
    let names := zrangebyscore st.expiry now_sec 100
    if names = [] then pure st
    else do
      let st' ← sweepBatch st names
      sweepLoop fuel st' now_sec

/-- the Lua `collect_expired_nodes` (CollectExpiredNodesFunc): repeatedly
query up to 100 expired members and remove them.  The unbounded Lua loop is
given `st.expiry.length + 1` iterations of fuel; in every consistent state
each nonempty batch strictly shrinks the expiry set, so the fuel is never
exhausted there (`collect_expired_nodes_ok`); running out of fuel is
reported as a model-only error. -/
def collect_expired_nodes (st : Store) (now_sec : Int) : Except String Store :=
  sweepLoop (st.expiry.length + 1) st now_sec

/-- the Lua `hold` (HoldFunc): refuse to pin twice, set `h`, remove the
expiry entry when the duration is non-negative. -/
def hold (st : Store) (name : Path) (duration_sec : Option Int) : Except String Store := do
  let held := (alGet st.nodes name).bind NodeHash.h = some true
  if held then throw "inconsistent held state"
  else do
    let st1 := { st with nodes := hsetHeld st.nodes name true }
    let d ← expectVal duration_sec
    if 0 ≤ d then pure { st1 with expiry := alDel st1.expiry name }
    else pure st1

/-- the Lua `unhold` (UnholdFunc): refuse to release a non-held node, clear
`h`, re-add the stored expiry when the duration is non-negative. -/
def unhold (st : Store) (name : Path) (duration_sec expiry_sec : Option Int) :
    Except String Store := do
  let held := (alGet st.nodes name).bind NodeHash.h = some true
  if ¬ held then throw "inconsistent held state"
  else do
    let st1 := { st with nodes := hsetHeld st.nodes name false }
    let d ← expectVal duration_sec
    if 0 ≤ d then do
      let e ← expectVal expiry_sec
      pure { st1 with expiry := alSet st1.expiry name e }
    else pure st1

/-- the Lua `create` script body (CreateFunc): sweep, reject on conflict,
create the lock. -/
def create (st : Store) (now_sec : Int) (root : Path) (duration_sec : Int)
    (is_zero_depth : Bool) (owner_xml : String) :
    Except String (Sum LockErr Nat × Store) := do
  let st1 ← collect_expired_nodes st now_sec
  if ¬ can_create st1 root is_zero_depth then
    pure (.inl .locked, st1)
  else
    let res := create_token st1 now_sec root duration_sec is_zero_depth owner_xml
    pure (.inr res.1, res.2)

/-- the reply array of the refresh script: `r`, `d`, `o`, `z` values. -/
structure RefreshReply where
  root : Option Path
  duration_sec : Int
  owner_xml : Option String
  zero_depth : Option Bool
deriving DecidableEq

/-- the Lua `refresh` script body (RefreshFunc): sweep, resolve the token,
refuse a held node, move the expiry entry (`ZREM` iff the old duration was
non-negative, `ZADD now+new` iff the new one is), store `d` and `e`. -/
def refresh (st : Store) (now_sec : Int) (token : Nat) (new_duration_sec : Int) :
    Except String (Sum LockErr RefreshReply × Store) := do
  let st1 ← collect_expired_nodes st now_sec
  match alGet st1.tokens token with
  | none => pure (.inl .noSuchLock, st1)
  | some name =>
    let node := alGet st1.nodes name
    let held := node.bind NodeHash.h = some true
    if held then pure (.inl .locked, st1)
    else do
      let od ← expectVal (node.bind NodeHash.d)
      let st2 := if 0 ≤ od then { st1 with expiry := alDel st1.expiry name } else st1
      let new_expiry_sec := if 0 ≤ new_duration_sec then now_sec + new_duration_sec else 0
      let st3 :=
        if 0 ≤ new_duration_sec then
          { st2 with expiry := alSet st2.expiry name new_expiry_sec }
        else st2
      let hsh4 : NodeHash := { (alGet st3.nodes name).getD {} with
          d := some new_duration_sec, e := some new_expiry_sec }
      let st4 := { st3 with nodes := alSet st3.nodes name hsh4 }
      pure (.inr ⟨node.bind NodeHash.r, new_duration_sec, node.bind NodeHash.o,
        node.bind NodeHash.z⟩, st4)

/-- the Lua `unlock` script body (UnlockFunc): sweep, resolve the token,
refuse a held node, remove the lock. -/
def unlock (st : Store) (now_sec : Int) (token : Nat) :
    Except String (Option LockErr × Store) := do
  let st1 ← collect_expired_nodes st now_sec
  match alGet st1.tokens token with
  | none => pure (some .noSuchLock, st1)
  | some name =>
    let node := alGet st1.nodes name
    let held := node.bind NodeHash.h = some true
    if held then pure (some .locked, st1)
    else do
      let st2 ← remove st1 name (node.bind NodeHash.r) (some token) (node.bind NodeHash.d)
      pure (none, st2)

/-- the Lua `lookup_token` (LookupFunc): resolve one candidate token; skip a
missing or held node; match when the node root equals the name, or the node
is infinite-depth and its root is `"/"` or the name extends the root past a
slash.  Returns the matched root and its duration. -/
def lookup_token (st : Store) (lookup_name : Path) (token : Nat) :
    Except String (Option (Path × Option Int)) :=
  match alGet st.tokens token with
  | none => pure none
  | some name =>
    let node := alGet st.nodes name
    let root := node.bind NodeHash.r
    let duration_sec := node.bind NodeHash.d
    let is_zero_depth := node.bind NodeHash.z = some true
    let held := node.bind NodeHash.h = some true
    if held then pure none
    else if root = some lookup_name then pure (some (lookup_name, duration_sec))
    else if is_zero_depth then pure none
    else
      match root with
      | none => throw "lua runtime error: nil value"
      | some r =>
        if r = ['/'] ∨ (r ++ ['/']).isPrefixOf lookup_name then
          pure (some (r, duration_sec))
        else pure none

/-- the Lua `lookup` (LookupFunc): first matching candidate token in order. -/
def lookup (st : Store) (lookup_name : Path) : List Nat →
    Except String (Option (Path × Option Int))
  | [] => pure none
  | token :: rest => do
    match ← lookup_token st lookup_name token with
    | some res => pure (some res)
    | none => lookup st lookup_name rest

/-- the hold phase of `confirm`: dedup two matches of the same root, pin the
matched nodes, return the pinned roots (`[]` for an absent slot). -/
def confirmHold (st : Store) (n0 n1 : Option (Path × Option Int)) :
    Except String (Sum LockErr (Path × Path) × Store) := do
  let n1d := if n0 ≠ none ∧ n1 ≠ none ∧ n0.map Prod.fst = n1.map Prod.fst then none else n1
  match n0 with
  | some nn0 => do
    let st1 ← hold st nn0.1 nn0.2
    match n1d with
    | some nn1 => do
      let st2 ← hold st1 nn1.1 nn1.2
      pure (.inr (nn0.1, nn1.1), st2)
    | none => pure (.inr (nn0.1, []), st1)
  | none =>
    match n1d with
    | some nn1 => do
      let st2 ← hold st nn1.1 nn1.2
      pure (.inr ([], nn1.1), st2)
    | none => pure (.inr ([], []), st)

/-- continuation of `confirm` after the first name was resolved. -/
def confirmAfter0 (st : Store) (name1 : Option Path) (condition_tokens : List Nat)
    (n0 : Option (Path × Option Int)) :
    Except String (Sum LockErr (Path × Path) × Store) := do
  match name1 with
  | some nm1 => do
    match ← lookup st nm1 condition_tokens with
    | none => pure (.inl .confirmationFailed, st)
    | some n1 => confirmHold st n0 (some n1)
  | none => confirmHold st n0 none

/-- the Lua `confirm` script body (ConfirmFunc): sweep, look each non-nil
name up against the candidate tokens (in order), fail when any misses, pin
the matches. -/
def confirm (st : Store) (now_sec : Int) (name0 name1 : Option Path)
    (condition_tokens : List Nat) :
    Except String (Sum LockErr (Path × Path) × Store) := do
  let st1 ← collect_expired_nodes st now_sec
  match name0 with
  | some nm0 => do
    match ← lookup st1 nm0 condition_tokens with
    | none => pure (.inl .confirmationFailed, st1)
    | some n0 => confirmAfter0 st1 name1 condition_tokens (some n0)
  | none => confirmAfter0 st1 name1 condition_tokens none

/-- the Lua `release` script body (ReleaseFunc): read `d`,`e` and unhold
each non-nil name.  The Release script does not run the expiry sweep. -/
def release (st : Store) (name0 name1 : Option Path) : Except String Store := do
  let st1 ← match name0 with
    | none => pure st
    | some nm0 =>
      let node := alGet st.nodes nm0
      unhold st nm0 (node.bind NodeHash.d) (node.bind NodeHash.e)
  match name1 with
  | none => pure st1
  | some nm1 =>
    let node := alGet st1.nodes nm1
    unhold st1 nm1 (node.bind NodeHash.d) (node.bind NodeHash.e)

/-! ## The Go facade (`lock.go`)

The facade passes `now.Unix()` (whole seconds, here the `now_sec : Int`
arguments), cleans path arguments with `slashClean`, converts `time.Duration`
nanosecond values to whole seconds with `durationToSec`, and decodes script
replies. -/

/-- `time.Second` in nanoseconds (`time.Duration` is an int64 of
nanoseconds). -/
def nsPerSec : Int := 1000000000

/-- the facade sentinel `infiniteTimeout = time.Duration(-1)`: minus one
nanosecond. -/
def infiniteTimeout : Int := -1

/-- the Go `durationToSec` (`lock.go`): the sentinel maps to `-1`; any other
duration is `d / time.Second` with Go integer division (truncation toward
zero). -/
def durationToSec (d : Int) : Int :=
  if d = infiniteTimeout then -1 else d.tdiv nsPerSec

/-- `webdav.LockDetails` as the facade consumes and produces it. -/
structure LockDetails where
  Root : Path
  Duration : Int
  OwnerXML : String
  ZeroDepth : Bool
deriving DecidableEq

/-- the facade `RedisLS.Create` (`lock.go`): clean the root, convert the
duration, run the create script. -/
def facadeCreate (st : Store) (now_sec : Int) (details : LockDetails) :
    Except String (Sum LockErr Nat × Store) :=
  create st now_sec (slashClean details.Root) (durationToSec details.Duration)
    details.ZeroDepth details.OwnerXML

/-- the facade `RedisLS.Refresh` (`lock.go`): run the refresh script, decode
the reply; the duration comes back in whole seconds and is scaled to
nanoseconds, missing reply fields decode as zero values. -/
def facadeRefresh (st : Store) (now_sec : Int) (token : Nat) (duration : Int) :
    Except String (Sum LockErr LockDetails × Store) := do
  let res ← refresh st now_sec token (durationToSec duration)
  match res.1 with
  | .inl e => pure (.inl e, res.2)
  | .inr rep =>
    pure (.inr ⟨rep.root.getD [], rep.duration_sec * nsPerSec,
      rep.owner_xml.getD "", rep.zero_depth = some true⟩, res.2)

/-- the facade `RedisLS.Unlock` (`lock.go`). -/
def facadeUnlock (st : Store) (now_sec : Int) (token : Nat) :
    Except String (Option LockErr × Store) :=
  unlock st now_sec token

/-- the facade `RedisLS.Confirm` (`lock.go`): clean each non-empty name; the
script treats empty names as nil. -/
def facadeConfirm (st : Store) (now_sec : Int) (name0 name1 : List Char)
    (condition_tokens : List Nat) :
    Except String (Sum LockErr (Path × Path) × Store) :=
  confirm st now_sec
    (if name0 = [] then none else some (slashClean name0))
    (if name1 = [] then none else some (slashClean name1))
    condition_tokens

/-- the release callback the facade `Confirm` returns: run the Release
script on the pinned roots, unless both are empty. -/
def facadeRelease (st : Store) (conditionName0 conditionName1 : Path) :
    Except String Store :=
  if conditionName0 = [] ∧ conditionName1 = [] then pure st
  else release st
    (if conditionName0 = [] then none else some conditionName0)
    (if conditionName1 = [] then none else some conditionName1)

/-- states reachable from the empty store by facade operations.  A Release
step with arbitrary root arguments over-approximates invoking a release
callback returned by an earlier Confirm (which passes exactly the pinned
roots), so every state of a real operation sequence is `Reachable`. -/
inductive Reachable : Store → Prop where
  | empty : Reachable emptyStore
  | create {st : Store} {now_sec : Int} {details : LockDetails}
      {res : Sum LockErr Nat} {st' : Store} : Reachable st →
      facadeCreate st now_sec details = .ok (res, st') → Reachable st'
  | refresh {st : Store} {now_sec : Int} {token : Nat} {d : Int}
      {res : Sum LockErr LockDetails} {st' : Store} : Reachable st →
      facadeRefresh st now_sec token d = .ok (res, st') → Reachable st'
  | unlock {st : Store} {now_sec : Int} {token : Nat}
      {res : Option LockErr} {st' : Store} : Reachable st →
      facadeUnlock st now_sec token = .ok (res, st') → Reachable st'
  | confirm {st : Store} {now_sec : Int} {name0 name1 : List Char} {toks : List Nat}
      {res : Sum LockErr (Path × Path)} {st' : Store} : Reachable st →
      facadeConfirm st now_sec name0 name1 toks = .ok (res, st') → Reachable st'
  | release {st : Store} {n0 n1 : Path} {st' : Store} : Reachable st →
      facadeRelease st n0 n1 = .ok st' → Reachable st'

/-! ## The invariant -/

/-- the number of locked nodes (nodes with a non-empty token) at or beneath
`p`. -/
def lockedCount (st : Store) (p : Path) : Nat :=
  st.nodes.countP (fun en => en.2.t.isSome && isBeneath en.1 p)

/-- the strengthened state invariant: everything that holds between
operations.  Items 1–7 of spec §3 are consequences (`Invariants`). -/
structure Inv (st : Store) : Prop where
  nodesNodup : noDupKeys st.nodes
  tokensNodup : noDupKeys st.tokens
  expiryNodup : noDupKeys st.expiry
  clean : ∀ q h, alGet st.nodes q = some h → CleanName q = true
  base : ∀ q h, alGet st.nodes q = some h → h.n = some q ∧ h.r = some q ∧
      (h.h = some true ∨ h.h = some false)
  count : ∀ q h, alGet st.nodes q = some h → h.c = some (lockedCount st q : Int)
  countPos : ∀ q h, alGet st.nodes q = some h → 0 < lockedCount st q
  closed : ∀ q h, alGet st.nodes q = some h → ∀ a ∈ pathChain q, (alGet st.nodes a).isSome
  lockedOk : ∀ q h tk, alGet st.nodes q = some h → h.t = some tk →
      (∃ dd, h.d = some dd ∧ (dd < 0 → h.e = some 0)) ∧
      h.e.isSome ∧ h.o.isSome ∧ h.z.isSome ∧
      alGet st.tokens tk = some q ∧ 1 ≤ tk ∧ tk ≤ st.nextToken
  heldLocked : ∀ q h, alGet st.nodes q = some h → h.h = some true → h.t.isSome
  tokensBack : ∀ tk p, alGet st.tokens tk = some p →
      ∃ hsh, alGet st.nodes p = some hsh ∧ hsh.t = some tk
  zsetSound : ∀ q sc, alGet st.expiry q = some sc →
      ∃ hsh, alGet st.nodes q = some hsh ∧ hsh.t.isSome ∧ hsh.h = some false ∧
      (∃ dd, hsh.d = some dd ∧ 0 ≤ dd) ∧ hsh.e = some sc
  zsetComplete : ∀ q h, alGet st.nodes q = some h → h.t.isSome → h.h = some false →
      ∀ dd, h.d = some dd → 0 ≤ dd → alGet st.expiry q = h.e

/-! ## Association-list lemmas -/

section AList
variable {α β : Type} [DecidableEq α]

theorem alGet_alSet_self (l : List (α × β)) (k : α) (v : β) :
    alGet (alSet l k v) k = some v := by
  induction l with
  | nil => simp [alSet, alGet]
  | cons en es ih =>
    by_cases h : en.1 = k
    · simp [alSet, h, alGet]
    · simp [alSet, h, alGet, ih]

theorem alGet_alSet_ne (l : List (α × β)) {k k' : α} (v : β) (h : k' ≠ k) :
    alGet (alSet l k v) k' = alGet l k' := by
  induction l with
  | nil =>
    show (if k = k' then some v else none) = none
    rw [if_neg (fun hh : k = k' => h hh.symm)]
  | cons en es ih =>
    by_cases he : en.1 = k
    · rw [show alSet (en :: es) k v = (k, v) :: es by simp [alSet, he]]
      have hne : ¬ en.1 = k' := fun hh => h (by rw [← hh, he])
      show (if k = k' then some v else alGet es k') = (if en.1 = k' then some en.2 else alGet es k')
      rw [if_neg (fun hh : k = k' => h hh.symm), if_neg hne]
    · rw [show alSet (en :: es) k v = en :: alSet es k v by simp [alSet, he]]
      show (if en.1 = k' then some en.2 else alGet (alSet es k v) k') =
        (if en.1 = k' then some en.2 else alGet es k')
      by_cases he' : en.1 = k'
      · rw [if_pos he', if_pos he']
      · rw [if_neg he', if_neg he', ih]

theorem alGet_alDel_self (l : List (α × β)) (k : α) : alGet (alDel l k) k = none := by
  induction l with
  | nil => rfl
  | cons en es ih =>
    by_cases h : en.1 = k
    · rw [show alDel (en :: es) k = alDel es k by simp [alDel, List.filter_cons, h]]
      exact ih
    · rw [show alDel (en :: es) k = en :: alDel es k by simp [alDel, List.filter_cons, h]]
      show (if en.1 = k then some en.2 else alGet (alDel es k) k) = none
      rw [if_neg h]
      exact ih

theorem alGet_alDel_ne (l : List (α × β)) {k k' : α} (h : k' ≠ k) :
    alGet (alDel l k) k' = alGet l k' := by
  induction l with
  | nil => rfl
  | cons en es ih =>
    by_cases he : en.1 = k
    · rw [show alDel (en :: es) k = alDel es k by simp [alDel, List.filter_cons, he]]
      have hne : ¬ en.1 = k' := fun hh => h (by rw [← hh, he])
      rw [ih]
      show alGet es k' = if en.1 = k' then some en.2 else alGet es k'
      rw [if_neg hne]
    · rw [show alDel (en :: es) k = en :: alDel es k by simp [alDel, List.filter_cons, he]]
      show (if en.1 = k' then some en.2 else alGet (alDel es k) k') =
        (if en.1 = k' then some en.2 else alGet es k')
      by_cases he' : en.1 = k'
      · rw [if_pos he', if_pos he']
      · rw [if_neg he', if_neg he', ih]

theorem mem_alDel {l : List (α × β)} {en : α × β} {k : α} :
    en ∈ alDel l k ↔ en ∈ l ∧ en.1 ≠ k := by
  simp [alDel, List.mem_filter]

theorem mem_alSet_aux {l : List (α × β)} {en : α × β} {k : α} {v : β}
    (h : en ∈ alSet l k v) : en.1 = k ∨ en ∈ l := by
  induction l with
  | nil =>
    simp [alSet] at h
    simp [h]
  | cons x es ih =>
    by_cases he : x.1 = k
    · rw [show alSet (x :: es) k v = (k, v) :: es by simp [alSet, he]] at h
      rcases List.mem_cons.mp h with h | h
      · simp [h]
      · exact Or.inr (List.mem_cons_of_mem x h)
    · rw [show alSet (x :: es) k v = x :: alSet es k v by simp [alSet, he]] at h
      rcases List.mem_cons.mp h with h | h
      · exact Or.inr (h ▸ List.mem_cons_self x es)
      · rcases ih h with h' | h'
        · exact Or.inl h'
        · exact Or.inr (List.mem_cons_of_mem x h')

theorem alDel_noDupKeys {l : List (α × β)} (h : noDupKeys l) (k : α) :
    noDupKeys (alDel l k) := by
  unfold noDupKeys at h ⊢
  unfold alDel
  induction l with
  | nil => simp
  | cons en es ih =>
    simp only [List.map_cons, List.nodup_cons] at h
    simp only [List.filter_cons]
    split
    · simp only [List.map_cons, List.nodup_cons]
      refine ⟨fun hm => h.1 ?_, ih h.2⟩
      simp only [List.mem_map] at hm ⊢
      obtain ⟨x, hx, hxe⟩ := hm
      exact ⟨x, (List.mem_filter.mp hx).1, hxe⟩
    · exact ih h.2

theorem alSet_noDupKeys {l : List (α × β)} (h : noDupKeys l) (k : α) (v : β) :
    noDupKeys (alSet l k v) := by
  unfold noDupKeys at h ⊢
  induction l with
  | nil => simp [alSet]
  | cons en es ih =>
    simp only [List.map_cons, List.nodup_cons] at h
    by_cases he : en.1 = k
    · rw [show alSet (en :: es) k v = (k, v) :: es by simp [alSet, he]]
      simp only [List.map_cons, List.nodup_cons]
      exact ⟨he ▸ h.1, h.2⟩
    · rw [show alSet (en :: es) k v = en :: alSet es k v by simp [alSet, he]]
      simp only [List.map_cons, List.nodup_cons]
      refine ⟨fun hm => ?_, ih h.2⟩
      simp only [List.mem_map] at hm
      obtain ⟨x, hx, hxe⟩ := hm
      rcases mem_alSet_aux hx with hx' | hx'
      · refine he ?_
        rw [← hxe]
        exact hx'
      · exact h.1 (List.mem_map.mpr ⟨x, hx', hxe⟩)

theorem mem_of_alGet {l : List (α × β)} {k : α} {v : β} (h : alGet l k = some v) :
    (k, v) ∈ l := by
  induction l with
  | nil => simp [alGet] at h
  | cons en es ih =>
    by_cases he : en.1 = k
    · simp only [alGet, if_pos he] at h
      obtain rfl := Option.some.inj h
      refine List.mem_cons.mpr (Or.inl ?_)
      rw [Prod.ext_iff]
      exact ⟨he.symm, rfl⟩
    · simp only [alGet, if_neg he] at h
      exact List.mem_cons_of_mem en (ih h)

theorem alGet_eq_some_of_mem {l : List (α × β)} (hnd : noDupKeys l) {k : α} {v : β}
    (hm : (k, v) ∈ l) : alGet l k = some v := by
  induction l with
  | nil => cases hm
  | cons en es ih =>
    unfold noDupKeys at hnd
    simp only [List.map_cons, List.nodup_cons] at hnd
    rcases List.mem_cons.mp hm with hm | hm
    · rw [← hm]
      simp [alGet]
    · have hne : en.1 ≠ k := by
        intro he
        exact hnd.1 (List.mem_map.mpr ⟨(k, v), hm, he.symm⟩)
      simp only [alGet, if_neg hne]
      exact ih hnd.2 hm

theorem alGet_eq_none_iff {l : List (α × β)} {k : α} :
    alGet l k = none ↔ ∀ v, (k, v) ∉ l := by
  induction l with
  | nil => simp [alGet]
  | cons en es ih =>
    by_cases he : en.1 = k
    · simp only [alGet, if_pos he]
      constructor
      · intro h
        cases h
      · intro h
        exfalso
        refine h en.2 (List.mem_cons.mpr (Or.inl ?_))
        rw [Prod.ext_iff]
        exact ⟨he.symm, rfl⟩
    · simp only [alGet, if_neg he]
      rw [ih]
      constructor
      · intro h v hm
        rcases List.mem_cons.mp hm with hm' | hm'
        · exact he (by rw [← hm'])
        · exact h v hm'
      · intro h v hm
        exact h v (List.mem_cons_of_mem en hm)

theorem alDel_of_alGet_none {l : List (α × β)} {k : α} (hget : alGet l k = none) :
    alDel l k = l := by
  unfold alDel
  refine List.filter_eq_self.mpr ?_
  intro x hx
  simp only [Bool.not_eq_true', decide_eq_true_eq, decide_eq_false_iff_not]
  intro hxk
  rw [alGet_eq_none_iff] at hget
  refine hget x.2 ?_
  have : x = (k, x.2) := by
    rw [Prod.ext_iff]
    exact ⟨hxk, rfl⟩
  rw [← this]
  exact hx

theorem mem_alSet {l : List (α × β)} (hnd : noDupKeys l) {en : α × β} {k : α} {v : β}
    (h : en ∈ alSet l k v) : en = (k, v) ∨ (en ∈ l ∧ en.1 ≠ k) := by
  induction l with
  | nil =>
    simp only [alSet, List.mem_singleton] at h
    exact Or.inl h
  | cons x es ih =>
    unfold noDupKeys at hnd
    simp only [List.map_cons, List.nodup_cons] at hnd
    by_cases hx : x.1 = k
    · rw [show alSet (x :: es) k v = (k, v) :: es by simp [alSet, hx]] at h
      rcases List.mem_cons.mp h with h' | h'
      · exact Or.inl h'
      · right
        refine ⟨List.mem_cons_of_mem x h', fun hek => ?_⟩
        exact hnd.1 (List.mem_map.mpr ⟨en, h', by rw [hek, hx]⟩)
    · rw [show alSet (x :: es) k v = x :: alSet es k v by simp [alSet, hx]] at h
      rcases List.mem_cons.mp h with h' | h'
      · right
        refine ⟨h' ▸ List.mem_cons_self x es, ?_⟩
        rw [h']
        exact hx
      · rcases ih hnd.2 h' with h'' | h''
        · exact Or.inl h''
        · exact Or.inr ⟨List.mem_cons_of_mem x h''.1, h''.2⟩

theorem mem_alSet_of_mem {l : List (α × β)} {en : α × β} {k : α} {v : β}
    (hm : en ∈ l) (hne : en.1 ≠ k) : en ∈ alSet l k v := by
  induction l with
  | nil => cases hm
  | cons x es ih =>
    by_cases hx : x.1 = k
    · rw [show alSet (x :: es) k v = (k, v) :: es by simp [alSet, hx]]
      rcases List.mem_cons.mp hm with hm' | hm'
      · exact absurd (hm' ▸ hx) hne
      · exact List.mem_cons_of_mem _ hm'
    · rw [show alSet (x :: es) k v = x :: alSet es k v by simp [alSet, hx]]
      rcases List.mem_cons.mp hm with hm' | hm'
      · exact hm' ▸ List.mem_cons_self x (alSet es k v)
      · exact List.mem_cons_of_mem x (ih hm')

theorem self_mem_alSet (l : List (α × β)) (k : α) (v : β) : (k, v) ∈ alSet l k v :=
  mem_of_alGet (alGet_alSet_self l k v)

theorem countP_alSet_present {l : List (α × β)} (hnd : noDupKeys l) {k : α} {v₀ : β}
    (hget : alGet l k = some v₀) (v : β) (P : α × β → Bool) :
    (alSet l k v).countP P + (if P (k, v₀) then 1 else 0) =
      l.countP P + (if P (k, v) then 1 else 0) := by
  induction l with
  | nil => simp [alGet] at hget
  | cons en es ih =>
    unfold noDupKeys at hnd
    simp only [List.map_cons, List.nodup_cons] at hnd
    obtain ⟨a, b⟩ := en
    by_cases he : a = k
    · subst he
      simp only [alGet, if_pos rfl] at hget
      obtain rfl := Option.some.inj hget
      rw [show alSet ((a, b) :: es) a v = (a, v) :: es by simp [alSet]]
      simp only [List.countP_cons]
      omega
    · simp only [alGet, if_neg he] at hget
      rw [show alSet ((a, b) :: es) k v = (a, b) :: alSet es k v by simp [alSet, he]]
      simp only [List.countP_cons]
      have := ih hnd.2 hget
      omega

theorem countP_alSet_absent {l : List (α × β)} {k : α} (hget : alGet l k = none) (v : β)
    (P : α × β → Bool) :
    (alSet l k v).countP P = l.countP P + (if P (k, v) then 1 else 0) := by
  induction l with
  | nil => simp [alSet, List.countP_cons]
  | cons en es ih =>
    by_cases he : en.1 = k
    · simp [alGet, he] at hget
    · simp only [alGet, if_neg he] at hget
      rw [show alSet (en :: es) k v = en :: alSet es k v by simp [alSet, he]]
      rw [List.countP_cons, List.countP_cons, ih hget]
      omega

theorem countP_alDel {l : List (α × β)} (hnd : noDupKeys l) {k : α} {v₀ : β}
    (hget : alGet l k = some v₀) (P : α × β → Bool) :
    (alDel l k).countP P + (if P (k, v₀) then 1 else 0) = l.countP P := by
  induction l with
  | nil => simp [alGet] at hget
  | cons en es ih =>
    unfold noDupKeys at hnd
    simp only [List.map_cons, List.nodup_cons] at hnd
    obtain ⟨a, b⟩ := en
    by_cases he : a = k
    · subst he
      simp only [alGet, if_pos rfl] at hget
      obtain rfl := Option.some.inj hget
      have hnone : alGet es a = none := by
        rw [alGet_eq_none_iff]
        intro v hm
        exact hnd.1 (List.mem_map.mpr ⟨(a, v), hm, rfl⟩)
      rw [show alDel ((a, b) :: es) a = alDel es a by simp [alDel, List.filter_cons]]
      rw [alDel_of_alGet_none hnone, List.countP_cons]
    · simp only [alGet, if_neg he] at hget
      rw [show alDel ((a, b) :: es) k = (a, b) :: alDel es k by
        simp [alDel, List.filter_cons, he]]
      simp only [List.countP_cons]
      have := ih hnd.2 hget
      omega

theorem countP_alDel_absent {l : List (α × β)} {k : α} (hget : alGet l k = none)
    (P : α × β → Bool) : (alDel l k).countP P = l.countP P := by
  rw [alDel_of_alGet_none hget]

end AList

/-! ## Counting helpers -/

section Counting
variable {α β : Type} [DecidableEq α]

theorem one_le_countP {l : List (α × β)} {en : α × β} (hm : en ∈ l) {P : α × β → Bool}
    (hP : P en = true) : 1 ≤ l.countP P := by
  have : 0 < l.countP P := List.countP_pos_iff.mpr ⟨en, hm, hP⟩
  omega

theorem two_le_countP {l : List (α × β)} (hnd : noDupKeys l) {k1 k2 : α} {v1 v2 : β}
    (h1 : (k1, v1) ∈ l) (h2 : (k2, v2) ∈ l) (hne : k1 ≠ k2) {P : α × β → Bool}
    (hP1 : P (k1, v1) = true) (hP2 : P (k2, v2) = true) : 2 ≤ l.countP P := by
  induction l with
  | nil => cases h1
  | cons en es ih =>
    unfold noDupKeys at hnd
    simp only [List.map_cons, List.nodup_cons] at hnd
    rw [List.countP_cons]
    rcases List.mem_cons.mp h1 with he1 | he1
    · have h2' : (k2, v2) ∈ es := by
        rcases List.mem_cons.mp h2 with he2 | he2
        · exact absurd (congrArg Prod.fst (he1.trans he2.symm)) hne
        · exact he2
      have hc : 1 ≤ es.countP P := one_le_countP h2' hP2
      have hen : (if P en = true then 1 else 0) = 1 := by
        rw [← he1, hP1]
        simp
      omega
    · rcases List.mem_cons.mp h2 with he2 | he2
      · have hc : 1 ≤ es.countP P := one_le_countP he1 hP1
        have hen : (if P en = true then 1 else 0) = 1 := by
          rw [← he2, hP2]
          simp
        omega
      · have := ih hnd.2 he1 he2
        omega

end Counting

/-! ## Effect of the remove walk -/

theorem removeStep_tokens (st : Store) (p : Path) : (removeStep st p).tokens = st.tokens := by
  unfold removeStep
  split <;> rfl

theorem removeStep_expiry (st : Store) (p : Path) : (removeStep st p).expiry = st.expiry := by
  unfold removeStep
  split <;> rfl

theorem removeStep_nextToken (st : Store) (p : Path) :
    (removeStep st p).nextToken = st.nextToken := by
  unfold removeStep
  split <;> rfl

theorem removeStep_nodup {st : Store} (hnd : noDupKeys st.nodes) (p : Path) :
    noDupKeys (removeStep st p).nodes := by
  unfold removeStep
  split
  · exact alDel_noDupKeys hnd p
  · exact alSet_noDupKeys hnd p _

theorem removeStep_get_ne (st : Store) {p q : Path} (hne : q ≠ p) :
    alGet (removeStep st p).nodes q = alGet st.nodes q := by
  unfold removeStep
  split
  · exact alGet_alDel_ne st.nodes hne
  · exact alGet_alSet_ne st.nodes _ hne

theorem removeStep_get_self (st : Store) (p : Path) :
    alGet (removeStep st p).nodes p =
      (if ((alGet st.nodes p).getD {}).c.getD 0 - 1 = 0 then none
       else some (decHash ((alGet st.nodes p).getD {}))) := by
  unfold removeStep
  split
  · exact alGet_alDel_self st.nodes p
  · exact alGet_alSet_self st.nodes p _

theorem removeStep_countP (st : Store) (p : Path) (hnd : noDupKeys st.nodes)
    (P : Path × NodeHash → Bool)
    (hP : ∀ q h x, P (q, { h with c := x }) = P (q, h))
    (hPun : ∀ q h, h.t = none → P (q, h) = false)
    (hq : ∀ h, alGet st.nodes p = some h → h.c.getD 0 - 1 = 0 → h.t = none) :
    (removeStep st p).nodes.countP P = st.nodes.countP P := by
  unfold removeStep
  cases hget : alGet st.nodes p with
  | none =>
    have hcond : ¬ ((none : Option NodeHash).getD {}).c.getD 0 - 1 = 0 := by decide
    rw [if_neg hcond]
    show (alSet st.nodes p (decHash ((none : Option NodeHash).getD {}))).countP P = _
    rw [countP_alSet_absent hget]
    have : P (p, decHash ((none : Option NodeHash).getD {})) = false := by
      unfold decHash
      rw [hP]
      exact hPun p {} rfl
    rw [this]
    simp
  | some h =>
    simp only [Option.getD_some]
    by_cases hz : h.c.getD 0 - 1 = 0
    · rw [if_pos hz]
      show (alDel st.nodes p).countP P = _
      have hPh : P (p, h) = false := hPun p h (hq h hget hz)
      have := countP_alDel hnd hget P
      rw [hPh] at this
      simpa using this
    · rw [if_neg hz]
      show (alSet st.nodes p (decHash h)).countP P = _
      have := countP_alSet_present hnd hget (decHash h) P
      have hPd : P (p, decHash h) = P (p, h) := hP p h _
      rw [hPd] at this
      omega

theorem removeWalk_cons (st : Store) (p : Path) (rest : List Path) :
    removeWalk st (p :: rest) = removeWalk (removeStep st p) rest := rfl

theorem removeWalk_tokens (c : List Path) (st : Store) :
    (removeWalk st c).tokens = st.tokens := by
  induction c generalizing st with
  | nil => rfl
  | cons p rest ih => rw [removeWalk_cons, ih, removeStep_tokens]

theorem removeWalk_expiry (c : List Path) (st : Store) :
    (removeWalk st c).expiry = st.expiry := by
  induction c generalizing st with
  | nil => rfl
  | cons p rest ih => rw [removeWalk_cons, ih, removeStep_expiry]

theorem removeWalk_nextToken (c : List Path) (st : Store) :
    (removeWalk st c).nextToken = st.nextToken := by
  induction c generalizing st with
  | nil => rfl
  | cons p rest ih => rw [removeWalk_cons, ih, removeStep_nextToken]

theorem removeWalk_nodup (c : List Path) {st : Store} (hnd : noDupKeys st.nodes) :
    noDupKeys (removeWalk st c).nodes := by
  induction c generalizing st with
  | nil => exact hnd
  | cons p rest ih => rw [removeWalk_cons]; exact ih (removeStep_nodup hnd p)

theorem removeWalk_get_not_mem {q : Path} :
    ∀ (c : List Path) (st : Store), q ∉ c →
    alGet (removeWalk st c).nodes q = alGet st.nodes q := by
  intro c
  induction c with
  | nil => intro st _; rfl
  | cons p rest ih =>
    intro st hq
    rw [removeWalk_cons]
    rw [ih (removeStep st p) (fun hm => hq (List.mem_cons_of_mem p hm))]
    exact removeStep_get_ne st (fun he => hq (he ▸ List.mem_cons_self p rest))

theorem removeWalk_get_mem {q : Path} :
    ∀ (c : List Path) (st : Store), c.Nodup → q ∈ c →
    alGet (removeWalk st c).nodes q =
      (if ((alGet st.nodes q).getD {}).c.getD 0 - 1 = 0 then none
       else some (decHash ((alGet st.nodes q).getD {}))) := by
  intro c
  induction c with
  | nil => intro st _ hq; cases hq
  | cons p rest ih =>
    intro st hcnd hq
    obtain ⟨hpnr, hrest⟩ := List.nodup_cons.mp hcnd
    rw [removeWalk_cons]
    rcases List.mem_cons.mp hq with rfl | hq'
    · rw [removeWalk_get_not_mem rest _ hpnr, removeStep_get_self]
    · have hne : q ≠ p := fun he => hpnr (he ▸ hq')
      have hstep := removeStep_get_ne st hne
      rw [ih (removeStep st p) hrest hq', hstep]

theorem removeWalk_countP (P : Path × NodeHash → Bool)
    (hP : ∀ q h x, P (q, { h with c := x }) = P (q, h))
    (hPun : ∀ q h, h.t = none → P (q, h) = false) :
    ∀ (c : List Path) (st : Store), c.Nodup → noDupKeys st.nodes →
    (∀ p ∈ c, ∀ h, alGet st.nodes p = some h → h.c.getD 0 - 1 = 0 → h.t = none) →
    (removeWalk st c).nodes.countP P = st.nodes.countP P := by
  intro c
  induction c with
  | nil => intro st _ _ _; rfl
  | cons p rest ih =>
    intro st hcnd hnd hq
    obtain ⟨hpnr, hrest⟩ := List.nodup_cons.mp hcnd
    rw [removeWalk_cons]
    have hstep := removeStep_countP st p hnd P hP hPun
      (fun h hg hz => hq p (List.mem_cons_self p rest) h hg hz)
    have hq' : ∀ x ∈ rest, ∀ h, alGet (removeStep st p).nodes x = some h →
        h.c.getD 0 - 1 = 0 → h.t = none := by
      intro x hx h hg hz
      have hne : x ≠ p := fun he => hpnr (he ▸ hx)
      rw [removeStep_get_ne st hne] at hg
      exact hq x (List.mem_cons_of_mem p hx) h hg hz
    rw [ih (removeStep st p) hrest (removeStep_nodup hnd p) hq', hstep]

/-! ## Effect of the create walk -/

/-- the node hash a non-first `create_token` step leaves behind: `HINCRBY c 1`,
initialising `n`,`r`,`h` when the node is new. -/
def bumpHash (path : Path) (h0 : NodeHash) : NodeHash :=
  if h0.c.getD 0 + 1 = 1 then
    { h0 with c := some (h0.c.getD 0 + 1), n := some path, r := some path, h := some false }
  else { h0 with c := some (h0.c.getD 0 + 1) }

/-- the node hash the first `create_token` step leaves at the lock root. -/
def lockHash (now_sec duration_sec : Int) (is_zero_depth : Bool) (owner_xml : String)
    (token : Nat) (path : Path) (h0 : NodeHash) : NodeHash :=
  { bumpHash path h0 with
      t := some token, d := some duration_sec, o := some owner_xml,
      z := some is_zero_depth,
      e := some (if 0 ≤ duration_sec then now_sec + duration_sec else 0) }

theorem createStep_false_eq (now_sec duration_sec : Int) (is_zero_depth : Bool)
    (owner_xml : String) (token : Nat) (st : Store) (p : Path) :
    createStep now_sec duration_sec is_zero_depth owner_xml token st p false =
      { st with nodes := alSet st.nodes p (bumpHash p ((alGet st.nodes p).getD {})) } := by
  by_cases hrc : ((alGet st.nodes p).getD {}).c.getD 0 + 1 = 1 <;>
    simp [createStep, bumpHash, hrc]

theorem createStep_true_eq (now_sec duration_sec : Int) (is_zero_depth : Bool)
    (owner_xml : String) (token : Nat) (st : Store) (p : Path) :
    createStep now_sec duration_sec is_zero_depth owner_xml token st p true =
      { st with
        nodes := alSet st.nodes p
          (lockHash now_sec duration_sec is_zero_depth owner_xml token p
            ((alGet st.nodes p).getD {})),
        tokens := alSet st.tokens token p,
        expiry :=
          if 0 ≤ duration_sec then
            alSet st.expiry p (now_sec + duration_sec)
          else st.expiry } := by
  by_cases hrc : ((alGet st.nodes p).getD {}).c.getD 0 + 1 = 1 <;>
    by_cases hd : 0 ≤ duration_sec <;>
    simp [createStep, bumpHash, lockHash, hrc, hd]

theorem createWalk_cons (now_sec duration_sec : Int) (is_zero_depth : Bool)
    (owner_xml : String) (token : Nat) (st : Store) (p : Path) (rest : List Path)
    (b : Bool) :
    createWalk now_sec duration_sec is_zero_depth owner_xml token st (p :: rest) b =
      createWalk now_sec duration_sec is_zero_depth owner_xml token
        (createStep now_sec duration_sec is_zero_depth owner_xml token st p b) rest false :=
  rfl

theorem createWalkF_tokens (now_sec duration_sec : Int) (is_zero_depth : Bool)
    (owner_xml : String) (token : Nat) :
    ∀ (c : List Path) (st : Store),
    (createWalk now_sec duration_sec is_zero_depth owner_xml token st c false).tokens =
      st.tokens := by
  intro c
  induction c with
  | nil => intro st; rfl
  | cons p rest ih =>
    intro st
    rw [createWalk_cons, ih, createStep_false_eq]

theorem createWalkF_expiry (now_sec duration_sec : Int) (is_zero_depth : Bool)
    (owner_xml : String) (token : Nat) :
    ∀ (c : List Path) (st : Store),
    (createWalk now_sec duration_sec is_zero_depth owner_xml token st c false).expiry =
      st.expiry := by
  intro c
  induction c with
  | nil => intro st; rfl
  | cons p rest ih =>
    intro st
    rw [createWalk_cons, ih, createStep_false_eq]

theorem createWalkF_nextToken (now_sec duration_sec : Int) (is_zero_depth : Bool)
    (owner_xml : String) (token : Nat) :
    ∀ (c : List Path) (st : Store),
    (createWalk now_sec duration_sec is_zero_depth owner_xml token st c false).nextToken =
      st.nextToken := by
  intro c
  induction c with
  | nil => intro st; rfl
  | cons p rest ih =>
    intro st
    rw [createWalk_cons, ih, createStep_false_eq]

theorem createWalkF_nodup (now_sec duration_sec : Int) (is_zero_depth : Bool)
    (owner_xml : String) (token : Nat) :
    ∀ (c : List Path) {st : Store}, noDupKeys st.nodes →
    noDupKeys (createWalk now_sec duration_sec is_zero_depth owner_xml token st c
      false).nodes := by
  intro c
  induction c with
  | nil => intro st hnd; exact hnd
  | cons p rest ih =>
    intro st hnd
    rw [createWalk_cons, createStep_false_eq]
    exact ih (alSet_noDupKeys hnd p _)

theorem createWalkF_get_not_mem (now_sec duration_sec : Int) (is_zero_depth : Bool)
    (owner_xml : String) (token : Nat) {q : Path} :
    ∀ (c : List Path) (st : Store), q ∉ c →
    alGet (createWalk now_sec duration_sec is_zero_depth owner_xml token st c false).nodes
      q = alGet st.nodes q := by
  intro c
  induction c with
  | nil => intro st _; rfl
  | cons p rest ih =>
    intro st hq
    rw [createWalk_cons, ih _ (fun hm => hq (List.mem_cons_of_mem p hm)), createStep_false_eq]
    exact alGet_alSet_ne st.nodes _ (fun he => hq (he ▸ List.mem_cons_self p rest))

theorem createWalkF_get_mem (now_sec duration_sec : Int) (is_zero_depth : Bool)
    (owner_xml : String) (token : Nat) {q : Path} :
    ∀ (c : List Path) (st : Store), c.Nodup → q ∈ c →
    alGet (createWalk now_sec duration_sec is_zero_depth owner_xml token st c false).nodes
      q = some (bumpHash q ((alGet st.nodes q).getD {})) := by
  intro c
  induction c with
  | nil => intro st _ hq; cases hq
  | cons p rest ih =>
    intro st hcnd hq
    obtain ⟨hpnr, hrest⟩ := List.nodup_cons.mp hcnd
    rw [createWalk_cons]
    rcases List.mem_cons.mp hq with rfl | hq'
    · rw [createWalkF_get_not_mem _ _ _ _ _ rest _ hpnr, createStep_false_eq]
      exact alGet_alSet_self st.nodes q _
    · have hne : q ≠ p := fun he => hpnr (he ▸ hq')
      have hrw : alGet (alSet st.nodes p (bumpHash p ((alGet st.nodes p).getD {}))) q =
          alGet st.nodes q := alGet_alSet_ne st.nodes _ hne
      rw [ih _ hrest hq', createStep_false_eq]
      exact congrArg (fun ov => some (bumpHash q (Option.getD ov {}))) hrw

theorem createWalkF_countP (now_sec duration_sec : Int) (is_zero_depth : Bool)
    (owner_xml : String) (token : Nat) (P : Path × NodeHash → Bool)
    (hP : ∀ q h x, P (q, { h with c := x }) = P (q, h))
    (hPun : ∀ q h, h.t = none → P (q, h) = false) :
    ∀ (c : List Path) (st : Store), c.Nodup → noDupKeys st.nodes →
    (∀ p ∈ c, ∀ h, alGet st.nodes p = some h → ¬ h.c.getD 0 + 1 = 1) →
    (createWalk now_sec duration_sec is_zero_depth owner_xml token st c false).nodes.countP
      P = st.nodes.countP P := by
  intro c
  induction c with
  | nil => intro st _ _ _; rfl
  | cons p rest ih =>
    intro st hcnd hnd hsafe
    obtain ⟨hpnr, hrest⟩ := List.nodup_cons.mp hcnd
    rw [createWalk_cons, createStep_false_eq]
    have hstep : (alSet st.nodes p (bumpHash p ((alGet st.nodes p).getD {}))).countP P =
        st.nodes.countP P := by
      cases hget : alGet st.nodes p with
      | none =>
        rw [countP_alSet_absent hget]
        have hb : P (p, bumpHash p ((none : Option NodeHash).getD {})) = false := by
          refine hPun p _ ?_
          rfl
        rw [hb]
        simp
      | some h =>
        have h1 := countP_alSet_present hnd hget (bumpHash p ((some h).getD {})) P
        have hb : P (p, bumpHash p ((some h).getD {})) = P (p, h) := by
          unfold bumpHash
          simp only [Option.getD_some]
          rw [if_neg (hsafe p (List.mem_cons_self p rest) h hget)]
          exact hP p h _
        rw [hb] at h1
        omega
    have hsafe' : ∀ x ∈ rest, ∀ h,
        alGet (alSet st.nodes p (bumpHash p ((alGet st.nodes p).getD {}))) x = some h →
        ¬ h.c.getD 0 + 1 = 1 := by
      intro x hx h hg
      have hne : x ≠ p := fun he => hpnr (he ▸ hx)
      rw [alGet_alSet_ne st.nodes _ hne] at hg
      exact hsafe x (List.mem_cons_of_mem p hx) h hg
    rw [ih _ hrest (alSet_noDupKeys hnd p _) hsafe']
    exact hstep

/-! ## Miscellaneous store lemmas -/

theorem alDel_length_lt {α β : Type} [DecidableEq α] {l : List (α × β)} {k : α} {v : β}
    (h : alGet l k = some v) : (alDel l k).length < l.length := by
  induction l with
  | nil => simp [alGet] at h
  | cons en es ih =>
    by_cases he : en.1 = k
    · rw [show alDel (en :: es) k = alDel es k by simp [alDel, List.filter_cons, he]]
      have : (alDel es k).length ≤ es.length := List.length_filter_le _ es
      simp only [List.length_cons]
      omega
    · simp only [alGet, if_neg he] at h
      rw [show alDel (en :: es) k = en :: alDel es k by simp [alDel, List.filter_cons, he]]
      simp only [List.length_cons]
      exact Nat.succ_lt_succ (ih h)

theorem eq_nil_of_alGet_none {α β : Type} [DecidableEq α] {l : List (α × β)}
    (h : ∀ k, alGet l k = none) : l = [] := by
  cases l with
  | nil => rfl
  | cons en es =>
    have := h en.1
    simp [alGet] at this

theorem hdelToken_eq_alSet {nodes : List (Path × NodeHash)} {name : Path} {hsh : NodeHash}
    (hget : alGet nodes name = some hsh) (hne : ¬ { hsh with t := none } = ({} : NodeHash)) :
    hdelToken nodes name = alSet nodes name { hsh with t := none } := by
  unfold hdelToken
  rw [hget]
  simp [hne]

/-! ## Range-query facts -/

theorem zrangebyscore_mem {zset : List (Path × Int)} {now_sec : Int} {lim : Nat} :
    ∀ nm ∈ zrangebyscore zset now_sec lim, ∃ sc, (nm, sc) ∈ zset ∧ sc ≤ now_sec := by
  intro nm hnm
  unfold zrangebyscore at hnm
  obtain ⟨en, hen, rfl⟩ := List.mem_map.mp hnm
  have h1 := List.take_subset _ _ hen
  have h2 := (List.mergeSort_perm _ _).mem_iff.mp h1
  obtain ⟨hmem, hsc⟩ := List.mem_filter.mp h2
  exact ⟨en.2, hmem, by simpa using hsc⟩

theorem zrangebyscore_nodup {zset : List (Path × Int)} (hnd : noDupKeys zset)
    (now_sec : Int) (lim : Nat) : (zrangebyscore zset now_sec lim).Nodup := by
  unfold zrangebyscore
  have hfil : ((zset.filter (fun en => decide (en.2 ≤ now_sec))).map Prod.fst).Nodup :=
    List.Nodup.sublist (List.Sublist.map Prod.fst (List.filter_sublist _)) hnd
  have hsorted : (((zset.filter (fun en => decide (en.2 ≤ now_sec))).mergeSort
      (fun a b => decide (a.2 < b.2) || (decide (a.2 = b.2) && pathLe a.1 b.1))).map
        Prod.fst).Nodup :=
    (((List.mergeSort_perm _ _).map Prod.fst).nodup_iff).mpr hfil
  exact List.Nodup.sublist (List.Sublist.map Prod.fst (List.take_sublist _ _)) hsorted

theorem zrangebyscore_eq_nil_iff {zset : List (Path × Int)} {now_sec : Int} {lim : Nat}
    (hlim : 0 < lim) :
    zrangebyscore zset now_sec lim = [] ↔ ∀ en ∈ zset, ¬ en.2 ≤ now_sec := by
  unfold zrangebyscore
  rw [List.map_eq_nil_iff, List.take_eq_nil_iff]
  constructor
  · intro h
    rcases h with h | h
    · omega
    · have hlen := (List.mergeSort_perm (zset.filter (fun en => decide (en.2 ≤ now_sec)))
        (fun a b => decide (a.2 < b.2) || (decide (a.2 = b.2) && pathLe a.1 b.1))).length_eq
      rw [h] at hlen
      have hfil : zset.filter (fun en => decide (en.2 ≤ now_sec)) = [] :=
        List.eq_nil_of_length_eq_zero hlen.symm
      intro en hmem hsc
      have : en ∈ zset.filter (fun en => decide (en.2 ≤ now_sec)) :=
        List.mem_filter.mpr ⟨hmem, by simpa using hsc⟩
      rw [hfil] at this
      cases this
  · intro h
    right
    have hfil : zset.filter (fun en => decide (en.2 ≤ now_sec)) = [] := by
      rw [List.filter_eq_nil_iff]
      intro en hmem
      simpa using h en hmem
    rw [hfil]
    simp [List.mergeSort_nil]

/-! ## The effect of `remove` on a consistent store -/

/-- running `remove st name (some name) (some tk) (some dd)` succeeds and
reduces to the refcount walk over a canonical intermediate store. -/
theorem remove_run {st : Store} {name : Path} {hsh : NodeHash} {tk : Nat} {dd : Int}
    (hget : alGet st.nodes name = some hsh)
    (hmid_ne : ¬ ({ hsh with t := none } : NodeHash) = ({} : NodeHash))
    (hnoent : dd < 0 → alGet st.expiry name = none) :
    remove st name (some name) (some tk) (some dd) = .ok (removeWalk
      { nextToken := st.nextToken, nodes := alSet st.nodes name { hsh with t := none },
        tokens := alDel st.tokens tk, expiry := alDel st.expiry name }
      (pathChain name)) := by
  have hrfl : remove st name (some name) (some tk) (some dd) = .ok (removeWalk
      (if 0 ≤ dd then
        { nextToken := st.nextToken, nodes := hdelToken st.nodes name,
          tokens := alDel st.tokens tk, expiry := alDel st.expiry name }
      else
        { nextToken := st.nextToken, nodes := hdelToken st.nodes name,
          tokens := alDel st.tokens tk, expiry := st.expiry })
      (pathChain name)) := rfl
  rw [hrfl]
  congr 1
  congr 1
  by_cases hdd : 0 ≤ dd
  · rw [if_pos hdd, hdelToken_eq_alSet hget hmid_ne]
  · rw [if_neg hdd, hdelToken_eq_alSet hget hmid_ne,
      alDel_of_alGet_none (hnoent (by omega))]

/-- the locked-at-or-beneath-`p` predicate on node entries. -/
def beneathLocked (p : Path) : Path × NodeHash → Bool :=
  fun en => en.2.t.isSome && isBeneath en.1 p

theorem lockedCount_eq_countP (st : Store) (p : Path) :
    lockedCount st p = st.nodes.countP (beneathLocked p) := rfl

theorem beneathLocked_c (p q : Path) (h : NodeHash) (x : Option Int) :
    beneathLocked p (q, { h with c := x }) = beneathLocked p (q, h) := rfl

theorem beneathLocked_unlocked (p q : Path) (h : NodeHash) (ht : h.t = none) :
    beneathLocked p (q, h) = false := by
  simp [beneathLocked, ht]

theorem clean_good {p : Path} (h : CleanName p = true) : GoodPath p := goodPath_of_clean h

theorem mem_chain_iff_beneath {p r : Path} (hp : CleanName p = true)
    (hr : CleanName r = true) : p ∈ pathChain r ↔ isBeneath r p = true :=
  mem_pathChain_iff (clean_good hp) (clean_good hr)

theorem lockedCount_mono {st : Store} (hInv : Inv st) {q a : Path} (hqg : GoodPath q)
    (hag : GoodPath a) (hqa : isBeneath q a = true) :
    lockedCount st q ≤ lockedCount st a := by
  rw [lockedCount_eq_countP, lockedCount_eq_countP]
  refine List.countP_mono_left ?_
  intro en hm hP
  simp only [beneathLocked, Bool.and_eq_true] at hP ⊢
  refine ⟨hP.1, ?_⟩
  have hget := alGet_eq_some_of_mem hInv.nodesNodup (show (en.1, en.2) ∈ st.nodes by
    cases en
    exact hm)
  have heng : GoodPath en.1 := clean_good (hInv.clean en.1 en.2 hget)
  exact isBeneath_trans heng hqg hag hP.2 hqa

theorem one_le_lockedCount_of_locked {st : Store} (hnd : noDupKeys st.nodes) {q : Path}
    {h : NodeHash} (hget : alGet st.nodes q = some h) (ht : h.t.isSome) :
    1 ≤ lockedCount st q := by
  rw [lockedCount_eq_countP]
  refine one_le_countP (mem_of_alGet hget) ?_
  simp [beneathLocked, ht, isBeneath_refl]

theorem exists_locked_beneath {st : Store} (hnd : noDupKeys st.nodes) {q : Path}
    (h : 0 < lockedCount st q) :
    ∃ m hm, alGet st.nodes m = some hm ∧ hm.t.isSome ∧ isBeneath m q = true := by
  rw [lockedCount_eq_countP] at h
  obtain ⟨en, hmem, hP⟩ := List.countP_pos_iff.mp h
  simp only [beneathLocked, Bool.and_eq_true] at hP
  refine ⟨en.1, en.2, ?_, hP.1, hP.2⟩
  refine alGet_eq_some_of_mem hnd ?_
  cases en
  exact hmem

theorem two_le_lockedCount {st : Store} (hnd : noDupKeys st.nodes) {q1 q2 p : Path}
    {h1 h2 : NodeHash} (hg1 : alGet st.nodes q1 = some h1)
    (hg2 : alGet st.nodes q2 = some h2) (hne : q1 ≠ q2) (ht1 : h1.t.isSome)
    (ht2 : h2.t.isSome) (hb1 : isBeneath q1 p = true) (hb2 : isBeneath q2 p = true) :
    2 ≤ lockedCount st p := by
  rw [lockedCount_eq_countP]
  refine two_le_countP hnd (mem_of_alGet hg1) (mem_of_alGet hg2) hne ?_ ?_
  · simp [beneathLocked, ht1, hb1]
  · simp [beneathLocked, ht2, hb2]

/-- full effect of the Lua `remove` on a consistent store: it succeeds,
drops the token key and the expiry entry, unlocks the node and decrements
every ancestor, deleting the ones whose refcount reaches zero — and keeps
the store consistent. -/
theorem remove_effect {st : Store} (hInv : Inv st) {name : Path} {hsh : NodeHash}
    {tk : Nat} {dd : Int}
    (hget : alGet st.nodes name = some hsh)
    (htok : hsh.t = some tk)
    (hheld : hsh.h = some false)
    (hd : hsh.d = some dd) :
    ∃ st', remove st name (some name) (some tk) (some dd) = .ok st' ∧ Inv st' ∧
      st'.nextToken = st.nextToken ∧
      st'.tokens = alDel st.tokens tk ∧
      st'.expiry = alDel st.expiry name ∧
      (∀ q, q ∉ pathChain name → alGet st'.nodes q = alGet st.nodes q) ∧
      (∀ q, q ∈ pathChain name →
        alGet st'.nodes q =
          (if lockedCount st q = 1 then none
           else some (decHash (if q = name then { hsh with t := none }
                               else (alGet st.nodes q).getD {})))) ∧
      (∀ q hq, alGet st.nodes q = some hq → hq.t.isSome = true → q ≠ name →
        ∃ h2, alGet st'.nodes q = some h2 ∧ h2.t = hq.t ∧ h2.h = hq.h ∧ h2.d = hq.d ∧
          h2.o = hq.o ∧ h2.z = hq.z ∧ h2.e = hq.e ∧ h2.n = hq.n ∧ h2.r = hq.r) := by
  have hnd := hInv.nodesNodup
  have hclean : CleanName name = true := hInv.clean name hsh hget
  have hbase := hInv.base name hsh hget
  have hmid_ne : ¬ ({ hsh with t := none } : NodeHash) = ({} : NodeHash) := by
    intro hEq
    have h1 : ({ hsh with t := none } : NodeHash).n = ({} : NodeHash).n := by rw [hEq]
    have h2 : hsh.n = none := h1
    rw [hbase.1] at h2
    cases h2
  have hnoent : dd < 0 → alGet st.expiry name = none := by
    intro hneg
    cases hE : alGet st.expiry name with
    | none => rfl
    | some sc =>
      obtain ⟨hsh2, hg2, _, _, ⟨dd2, hdd2, hdd0⟩, _⟩ := hInv.zsetSound name sc hE
      rw [hget] at hg2
      obtain rfl := Option.some.inj hg2
      rw [hd] at hdd2
      obtain rfl := Option.some.inj hdd2
      omega
  have hrun := @remove_run st name hsh tk dd hget hmid_ne hnoent
  set stC : Store :=
    { nextToken := st.nextToken,
      nodes := alSet st.nodes name { hsh with t := none },
      tokens := alDel st.tokens tk, expiry := alDel st.expiry name } with hstC
  set st' := removeWalk stC (pathChain name) with hst'
  have hchain_nodup : (pathChain name).Nodup := by
    obtain ⟨segs, hreg, hname⟩ := CleanName_decomp hclean
    rw [hname]
    exact pathChain_nodup (goodSegs_of_regSegs hreg)
  have hchain_clean : ∀ a ∈ pathChain name, CleanName a = true := CleanName_chain hclean
  have hname_mem : name ∈ pathChain name := self_mem_pathChain name
  have hgetC : ∀ q, alGet stC.nodes q =
      (if q = name then some { hsh with t := none } else alGet st.nodes q) := by
    intro q
    by_cases hq : q = name
    · subst hq
      rw [if_pos rfl]
      exact alGet_alSet_self _ _ _
    · rw [if_neg hq]
      exact alGet_alSet_ne _ _ hq
  have hndC : noDupKeys stC.nodes := alSet_noDupKeys hnd _ _
  have hchain_get : ∀ q ∈ pathChain name, ∃ hq, alGet st.nodes q = some hq :=
    fun q hq => Option.isSome_iff_exists.mp (hInv.closed name hsh hget q hq)
  have hbeneath : ∀ q ∈ pathChain name, isBeneath name q = true :=
    fun q hq => (mem_chain_iff_beneath (hchain_clean q hq) hclean).mp hq
  have hnotchain : ∀ q, CleanName q = true → q ∉ pathChain name →
      isBeneath name q = false := by
    intro q hq hqc
    cases hb : isBeneath name q with
    | false => rfl
    | true => exact absurd ((mem_chain_iff_beneath hq hclean).mpr hb) hqc
  have hWdel : ∀ q ∈ pathChain name, ∀ h, alGet stC.nodes q = some h →
      h.c.getD 0 - 1 = 0 → h.t = none := by
    intro q hqc h hgC hz
    rw [hgetC q] at hgC
    by_cases hq : q = name
    · subst hq
      rw [if_pos rfl] at hgC
      obtain rfl := Option.some.inj hgC
      rfl
    · rw [if_neg hq] at hgC
      cases ht2 : h.t with
      | none => rfl
      | some tk2 =>
        exfalso
        have hcnt := hInv.count q h hgC
        rw [hcnt] at hz
        have h2 : 2 ≤ lockedCount st q := by
          refine two_le_lockedCount hnd hgC hget hq ?_ ?_ (isBeneath_refl q)
            (hbeneath q hqc)
          · rw [ht2]
            rfl
          · rw [htok]
            rfl
        simp only [Option.getD_some] at hz
        omega
  have hcntC : ∀ p, stC.nodes.countP (beneathLocked p) +
      (if isBeneath name p then 1 else 0) = st.nodes.countP (beneathLocked p) := by
    intro p
    have h1 := countP_alSet_present hnd hget ({ hsh with t := none }) (beneathLocked p)
    have h2 : beneathLocked p (name, { hsh with t := none }) = false :=
      beneathLocked_unlocked p name _ rfl
    have h3 : beneathLocked p (name, hsh) = isBeneath name p := by
      simp [beneathLocked, htok]
    rw [h2, h3] at h1
    have h4 : (if (false : Bool) = true then 1 else 0) = 0 := rfl
    rw [h4] at h1
    have hC : stC.nodes.countP (beneathLocked p) =
        (alSet st.nodes name { hsh with t := none }).countP (beneathLocked p) := rfl
    rw [hC]
    omega
  have hTok' : st'.tokens = alDel st.tokens tk := removeWalk_tokens _ _
  have hExp' : st'.expiry = alDel st.expiry name := removeWalk_expiry _ _
  have hNxt' : st'.nextToken = st.nextToken := removeWalk_nextToken _ _
  have hnd' : noDupKeys st'.nodes := removeWalk_nodup _ hndC
  have hcnt' : ∀ p, lockedCount st' p + (if isBeneath name p then 1 else 0) =
      lockedCount st p := by
    intro p
    have hw := removeWalk_countP (beneathLocked p) (fun q h x => beneathLocked_c p q h x)
      (fun q h ht => beneathLocked_unlocked p q h ht) (pathChain name) stC hchain_nodup
      hndC hWdel
    rw [lockedCount_eq_countP, lockedCount_eq_countP]
    rw [show st'.nodes.countP (beneathLocked p) = stC.nodes.countP (beneathLocked p)
      from hw]
    exact hcntC p
  have hget'_out : ∀ q, q ∉ pathChain name → alGet st'.nodes q = alGet st.nodes q := by
    intro q hq
    rw [show alGet st'.nodes q = alGet stC.nodes q from
      removeWalk_get_not_mem (pathChain name) stC hq]
    rw [hgetC q, if_neg (fun he : q = name => hq (by rw [he]; exact hname_mem))]
  have hget'_in : ∀ q, q ∈ pathChain name →
      alGet st'.nodes q = (if lockedCount st q = 1 then none
        else some (decHash (if q = name then { hsh with t := none }
                            else (alGet st.nodes q).getD {}))) := by
    intro q hq
    rw [show alGet st'.nodes q =
        (if ((alGet stC.nodes q).getD {}).c.getD 0 - 1 = 0 then none
         else some (decHash ((alGet stC.nodes q).getD {}))) from
      removeWalk_get_mem (pathChain name) stC hchain_nodup hq]
    rw [hgetC q]
    by_cases hqn : q = name
    · subst hqn
      rw [if_pos rfl, if_pos rfl]
      have hc : hsh.c = some (lockedCount st q : Int) := hInv.count q hsh hget
      have hcc : (((some ({ hsh with t := none } : NodeHash)).getD {}).c.getD 0 : Int) =
          (lockedCount st q : Int) := by
        show hsh.c.getD 0 = (lockedCount st q : Int)
        exact congrArg (fun x : Option Int => x.getD 0) hc
      rw [hcc]
      by_cases hone : lockedCount st q = 1
      · rw [if_pos (by omega), if_pos hone]
      · rw [if_neg (by omega), if_neg hone, Option.getD_some]
    · rw [if_neg hqn, if_neg hqn]
      obtain ⟨hqv, hgq⟩ := hchain_get q hq
      rw [hgq]
      have hc : hqv.c = some (lockedCount st q : Int) := hInv.count q hqv hgq
      have hcc : (((some hqv).getD {}).c.getD 0 : Int) = (lockedCount st q : Int) := by
        show hqv.c.getD 0 = (lockedCount st q : Int)
        exact congrArg (fun x : Option Int => x.getD 0) hc
      rw [hcc]
      by_cases hone : lockedCount st q = 1
      · rw [if_pos (by omega), if_pos hone]
      · rw [if_neg (by omega), if_neg hone, Option.getD_some]
  -- survivors along the chain keep a decremented hash
  have hsurv : ∀ q, q ∈ pathChain name → ¬ lockedCount st q = 1 → ∀ hq,
      alGet st.nodes q = some hq →
      alGet st'.nodes q = some (decHash (if q = name then { hsh with t := none }
        else hq)) := by
    intro q hq hone hqv hgq
    rw [hget'_in q hq, if_neg hone]
    by_cases hqn : q = name
    · rw [if_pos hqn, if_pos hqn]
    · rw [if_neg hqn, if_neg hqn, hgq, Option.getD_some]
  -- a node of st' is either a chain survivor or an untouched node of st
  have hmedium : ∀ q h, alGet st'.nodes q = some h →
      (q ∈ pathChain name ∧ ¬ lockedCount st q = 1 ∧
        ((q = name ∧ h = decHash { hsh with t := none }) ∨
         (q ≠ name ∧ ∃ hq, alGet st.nodes q = some hq ∧ h = decHash hq))) ∨
      (q ∉ pathChain name ∧ alGet st.nodes q = some h) := by
    intro q h hq'
    by_cases hqc : q ∈ pathChain name
    · left
      rw [hget'_in q hqc] at hq'
      by_cases hone : lockedCount st q = 1
      · rw [if_pos hone] at hq'
        cases hq'
      · rw [if_neg hone] at hq'
        refine ⟨hqc, hone, ?_⟩
        by_cases hqn : q = name
        · left
          subst hqn
          rw [if_pos rfl] at hq'
          exact ⟨rfl, (Option.some.inj hq').symm⟩
        · right
          rw [if_neg hqn] at hq'
          obtain ⟨hqv, hgq⟩ := hchain_get q hqc
          rw [hgq] at hq'
          exact ⟨hqn, hqv, hgq, (Option.some.inj hq').symm⟩
    · right
      rw [hget'_out q hqc] at hq'
      exact ⟨hqc, hq'⟩
  have hdec_t : ∀ h : NodeHash, (decHash h).t = h.t := fun h => rfl
  have hdec_d : ∀ h : NodeHash, (decHash h).d = h.d := fun h => rfl
  have hdec_h : ∀ h : NodeHash, (decHash h).h = h.h := fun h => rfl
  have hdec_e : ∀ h : NodeHash, (decHash h).e = h.e := fun h => rfl
  have htk_ne : ∀ q hq tk2, alGet st.nodes q = some hq → hq.t = some tk2 → q ≠ name →
      tk2 ≠ tk := by
    intro q hq tk2 hgq htq hqn hEq
    subst hEq
    have h1 := (hInv.lockedOk q hq tk2 hgq htq).2.2.2.2.1
    have h2 := (hInv.lockedOk name hsh tk2 hget htok).2.2.2.2.1
    rw [h2] at h1
    exact hqn (Option.some.inj h1).symm
  -- any locked node other than `name` survives with all lock fields intact
  have hlocked_surv : ∀ q hq, alGet st.nodes q = some hq → hq.t.isSome = true →
      q ≠ name →
      ∃ h2, alGet st'.nodes q = some h2 ∧ h2.t = hq.t ∧ h2.h = hq.h ∧ h2.d = hq.d ∧
        h2.o = hq.o ∧ h2.z = hq.z ∧ h2.e = hq.e ∧ h2.n = hq.n ∧ h2.r = hq.r := by
    intro q hq hgq htq hqn
    by_cases hqc : q ∈ pathChain name
    · have h2 : 2 ≤ lockedCount st q :=
        two_le_lockedCount hnd hgq hget hqn htq (by rw [htok]; rfl)
          (isBeneath_refl q) (hbeneath q hqc)
      have hs := hsurv q hqc (by omega) hq hgq
      rw [if_neg hqn] at hs
      exact ⟨decHash hq, hs, rfl, rfl, rfl, rfl, rfl, rfl, rfl, rfl⟩
    · exact ⟨hq, by rw [hget'_out q hqc, hgq], rfl, rfl, rfl, rfl, rfl, rfl, rfl, rfl⟩
  have hclean' : ∀ q h, alGet st'.nodes q = some h → CleanName q = true := by
    intro q h hq'
    rcases hmedium q h hq' with ⟨hqc, _, _⟩ | ⟨_, hgq⟩
    · exact hchain_clean q hqc
    · exact hInv.clean q h hgq
  have hbase' : ∀ q h, alGet st'.nodes q = some h → h.n = some q ∧ h.r = some q ∧
      (h.h = some true ∨ h.h = some false) := by
    intro q h hq'
    rcases hmedium q h hq' with ⟨hqc, hone, ⟨rfl, rfl⟩ | ⟨hqn, hq0, hgq, rfl⟩⟩ | ⟨_, hgq⟩
    · exact ⟨hbase.1, hbase.2.1, Or.inr hheld⟩
    · have hb := hInv.base q hq0 hgq
      exact ⟨hb.1, hb.2.1, hb.2.2⟩
    · exact hInv.base q h hgq
  have hcount' : ∀ q h, alGet st'.nodes q = some h →
      h.c = some (lockedCount st' q : Int) := by
    intro q h hq'
    rcases hmedium q h hq' with ⟨hqc, hone, hcase⟩ | ⟨hqc, hgq⟩
    · have hc' := hcnt' q
      rw [if_pos (hbeneath q hqc)] at hc'
      rcases hcase with ⟨rfl, rfl⟩ | ⟨hqn, hq0, hgq, rfl⟩
      · have hc := hInv.count q hsh hget
        show some (hsh.c.getD 0 - 1) = some ((lockedCount st' q : Nat) : Int)
        rw [hc]
        have hg : ((some ((lockedCount st q : Nat) : Int)).getD 0) =
            ((lockedCount st q : Nat) : Int) := rfl
        rw [hg]
        congr 1
        omega
      · have hc := hInv.count q hq0 hgq
        show some (hq0.c.getD 0 - 1) = some ((lockedCount st' q : Nat) : Int)
        rw [hc]
        have hg : ((some ((lockedCount st q : Nat) : Int)).getD 0) =
            ((lockedCount st q : Nat) : Int) := rfl
        rw [hg]
        congr 1
        omega
    · have hc := hInv.count q h hgq
      have hc' := hcnt' q
      have hnb : isBeneath name q = false := hnotchain q (hInv.clean q h hgq) hqc
      rw [if_neg (by simp [hnb])] at hc'
      rw [hc]
      congr 2
      omega
  have hcountPos' : ∀ q h, alGet st'.nodes q = some h → 0 < lockedCount st' q := by
    intro q h hq'
    rcases hmedium q h hq' with ⟨hqc, hone, hcase⟩ | ⟨hqc, hgq⟩
    · have hc' := hcnt' q
      rw [if_pos (hbeneath q hqc)] at hc'
      have h1 : 0 < lockedCount st q := by
        rcases hcase with ⟨rfl, _⟩ | ⟨_, hq0, hgq, _⟩
        · exact hInv.countPos q hsh hget
        · exact hInv.countPos q hq0 hgq
      omega
    · have hc' := hcnt' q
      have hnb : isBeneath name q = false := hnotchain q (hInv.clean q h hgq) hqc
      rw [if_neg (by simp [hnb])] at hc'
      have h1 := hInv.countPos q h hgq
      omega
  have hclosed' : ∀ q h, alGet st'.nodes q = some h → ∀ a ∈ pathChain q,
      (alGet st'.nodes a).isSome := by
    intro q h hq' a ha
    have hqclean : CleanName q = true := hclean' q h hq'
    have haclean : CleanName a = true := CleanName_chain hqclean a ha
    have hqa : isBeneath q a = true := (mem_chain_iff_beneath haclean hqclean).mp ha
    rcases hmedium q h hq' with ⟨hqc, hone, hcase⟩ | ⟨hqc, hgq⟩
    · have hac : a ∈ pathChain name := pathChain_sub (clean_good hclean) hqc a ha
      have h2q : 2 ≤ lockedCount st q := by
        have hc' := hcnt' q
        rw [if_pos (hbeneath q hqc)] at hc'
        have h1 : 0 < lockedCount st q := by
          rcases hcase with ⟨rfl, _⟩ | ⟨_, hq0, hgq, _⟩
          · exact hInv.countPos q hsh hget
          · exact hInv.countPos q hq0 hgq
        omega
      have h2a : 2 ≤ lockedCount st a :=
        le_trans h2q (lockedCount_mono hInv (clean_good hqclean) (clean_good haclean) hqa)
      obtain ⟨hav, hgav⟩ := hchain_get a hac
      rw [hsurv a hac (by omega) hav hgav]
      rfl
    · obtain ⟨hav, hgav⟩ := Option.isSome_iff_exists.mp (hInv.closed q h hgq a ha)
      by_cases hac : a ∈ pathChain name
      · have h1 : 0 < lockedCount st q := hInv.countPos q h hgq
        obtain ⟨m, hm, hgm, htm, hmq⟩ := exists_locked_beneath hnd h1
        have hmclean : CleanName m = true := hInv.clean m hm hgm
        have hmn : m ≠ name := by
          intro hEq
          subst hEq
          exact hqc ((mem_chain_iff_beneath hqclean hclean).mpr hmq)
        have hna : isBeneath name a = true := hbeneath a hac
        have hma : isBeneath m a = true :=
          isBeneath_trans (clean_good hmclean) (clean_good hqclean)
            (clean_good haclean) hmq hqa
        have h2a : 2 ≤ lockedCount st a :=
          two_le_lockedCount hnd hgm hget hmn htm (by rw [htok]; rfl) hma hna
        rw [hsurv a hac (by omega) hav hgav]
        rfl
      · rw [hget'_out a hac, hgav]
        rfl
  have hlockedOk' : ∀ q h tk2, alGet st'.nodes q = some h → h.t = some tk2 →
      (∃ dd2, h.d = some dd2 ∧ (dd2 < 0 → h.e = some 0)) ∧
      h.e.isSome ∧ h.o.isSome ∧ h.z.isSome ∧
      alGet st'.tokens tk2 = some q ∧ 1 ≤ tk2 ∧ tk2 ≤ st'.nextToken := by
    intro q h tk2 hq' ht2
    rcases hmedium q h hq' with ⟨hqc, hone, ⟨rfl, rfl⟩ | ⟨hqn, hq0, hgq, rfl⟩⟩ | ⟨hqc, hgq⟩
    · have habs : (none : Option Nat) = some tk2 := ht2
      cases habs
    · rw [hdec_t] at ht2
      have hL := hInv.lockedOk q hq0 tk2 hgq ht2
      have hne := htk_ne q hq0 tk2 hgq ht2 hqn
      refine ⟨?_, ?_, ?_, ?_, ?_, hL.2.2.2.2.2.1, ?_⟩
      · obtain ⟨dd2, hdd2, himp⟩ := hL.1
        refine ⟨dd2, ?_, fun hneg => ?_⟩
        · rw [hdec_d]
          exact hdd2
        · rw [hdec_e]
          exact himp hneg
      · rw [hdec_e]
        exact hL.2.1
      · show hq0.o.isSome = true
        exact hL.2.2.1
      · show hq0.z.isSome = true
        exact hL.2.2.2.1
      · rw [hTok', alGet_alDel_ne st.tokens hne]
        exact hL.2.2.2.2.1
      · rw [hNxt']
        exact hL.2.2.2.2.2.2
    · have hL := hInv.lockedOk q h tk2 hgq ht2
      have hqn : q ≠ name := fun hEq => hqc (by rw [hEq]; exact hname_mem)
      have hne := htk_ne q h tk2 hgq ht2 hqn
      refine ⟨hL.1, hL.2.1, hL.2.2.1, hL.2.2.2.1, ?_, hL.2.2.2.2.2.1, ?_⟩
      · rw [hTok', alGet_alDel_ne st.tokens hne]
        exact hL.2.2.2.2.1
      · rw [hNxt']
        exact hL.2.2.2.2.2.2
  have hheldLocked' : ∀ q h, alGet st'.nodes q = some h → h.h = some true →
      h.t.isSome := by
    intro q h hq' hh2
    rcases hmedium q h hq' with ⟨hqc, hone, ⟨rfl, rfl⟩ | ⟨hqn, hq0, hgq, rfl⟩⟩ | ⟨hqc, hgq⟩
    · have habs : hsh.h = some true := hh2
      rw [hheld] at habs
      cases habs
    · rw [hdec_h] at hh2
      show hq0.t.isSome = true
      exact hInv.heldLocked q hq0 hgq hh2
    · exact hInv.heldLocked q h hgq hh2
  have htokensBack' : ∀ tk2 p, alGet st'.tokens tk2 = some p →
      ∃ hh, alGet st'.nodes p = some hh ∧ hh.t = some tk2 := by
    intro tk2 p htp
    rw [hTok'] at htp
    by_cases hEq : tk2 = tk
    · subst hEq
      rw [alGet_alDel_self] at htp
      cases htp
    · rw [alGet_alDel_ne st.tokens hEq] at htp
      obtain ⟨hp, hgp, hpt⟩ := hInv.tokensBack tk2 p htp
      have hpn : p ≠ name := by
        intro hEq2
        subst hEq2
        rw [hget] at hgp
        obtain rfl := Option.some.inj hgp
        rw [htok] at hpt
        exact hEq (Option.some.inj hpt).symm
      obtain ⟨h2, hg2, hte, _⟩ := hlocked_surv p hp hgp (by rw [hpt]; rfl) hpn
      refine ⟨h2, hg2, ?_⟩
      rw [hte]
      exact hpt
  have hzsetSound' : ∀ q sc, alGet st'.expiry q = some sc →
      ∃ hh, alGet st'.nodes q = some hh ∧ hh.t.isSome ∧ hh.h = some false ∧
      (∃ dd2, hh.d = some dd2 ∧ 0 ≤ dd2) ∧ hh.e = some sc := by
    intro q sc hsc
    rw [hExp'] at hsc
    by_cases hEq : q = name
    · subst hEq
      rw [alGet_alDel_self] at hsc
      cases hsc
    · rw [alGet_alDel_ne st.expiry hEq] at hsc
      obtain ⟨hq0, hgq, htq, hhq, hdq, heq⟩ := hInv.zsetSound q sc hsc
      obtain ⟨h2, hg2, hte, hhe, hde, hoe, hze, hee, hn2, hr2⟩ :=
        hlocked_surv q hq0 hgq htq hEq
      refine ⟨h2, hg2, ?_, ?_, ?_, ?_⟩
      · rw [hte]
        exact htq
      · rw [hhe]
        exact hhq
      · obtain ⟨dd2, hdd2, h0⟩ := hdq
        refine ⟨dd2, ?_, h0⟩
        rw [hde]
        exact hdd2
      · rw [hee]
        exact heq
  have hzsetComplete' : ∀ q h, alGet st'.nodes q = some h → h.t.isSome →
      h.h = some false → ∀ dd2, h.d = some dd2 → 0 ≤ dd2 →
      alGet st'.expiry q = h.e := by
    intro q h hq' ht2 hh2 dd2 hd2 hdd0
    rw [hExp']
    rcases hmedium q h hq' with ⟨hqc, hone, ⟨rfl, rfl⟩ | ⟨hqn, hq0, hgq, rfl⟩⟩ | ⟨hqc, hgq⟩
    · have habs : (none : Option Nat).isSome = true := ht2
      cases habs
    · rw [alGet_alDel_ne st.expiry hqn]
      rw [hdec_t] at ht2
      rw [hdec_h] at hh2
      rw [hdec_d] at hd2
      rw [hdec_e]
      exact hInv.zsetComplete q hq0 hgq ht2 hh2 dd2 hd2 hdd0
    · have hqn : q ≠ name := fun hEq => hqc (hEq ▸ hname_mem)
      rw [alGet_alDel_ne st.expiry hqn]
      exact hInv.zsetComplete q h hgq ht2 hh2 dd2 hd2 hdd0
  exact ⟨st', hrun,
    ⟨hnd', by rw [hTok']; exact alDel_noDupKeys hInv.tokensNodup tk,
      by rw [hExp']; exact alDel_noDupKeys hInv.expiryNodup name, hclean', hbase',
      hcount', hcountPos', hclosed', hlockedOk', hheldLocked', htokensBack',
      hzsetSound', hzsetComplete'⟩,
    hNxt', hTok', hExp', hget'_out, hget'_in, hlocked_surv⟩

/-! ## Effect of `create_token` -/

theorem pathChain_head (p : Path) : ∃ rest, pathChain p = p :: rest := by
  by_cases h : p = ['/']
  · subst h
    exact ⟨[], pathChain_root⟩
  · exact ⟨_, pathChain_ne h⟩

theorem bumpHash_old {q : Path} {h0 : NodeHash} (hne : ¬ h0.c.getD 0 + 1 = 1) :
    bumpHash q h0 = { h0 with c := some (h0.c.getD 0 + 1) } := by
  unfold bumpHash
  rw [if_neg hne]

theorem bumpHash_new (q : Path) : bumpHash q ({} : NodeHash) =
    { n := some q, r := some q, h := some false, c := some 1, t := none, d := none,
      o := none, z := none, e := none } := rfl

/-- a clean path with no node carries no lock at or beneath it. -/
theorem lockedCount_eq_zero_of_absent {st : Store} (hInv : Inv st) {q : Path}
    (hq : CleanName q = true) (hget : alGet st.nodes q = none) : lockedCount st q = 0 := by
  by_contra hne
  obtain ⟨m, hm, hgm, htm, hmq⟩ := exists_locked_beneath hInv.nodesNodup (Nat.pos_of_ne_zero hne)
  have hmclean : CleanName m = true := hInv.clean m hm hgm
  have hmem : q ∈ pathChain m := (mem_chain_iff_beneath hq hmclean).mpr hmq
  have := hInv.closed m hm hgm q hmem
  rw [hget] at this
  cases this

/-- a passing `can_create` means the target node, when it exists, is unlocked. -/
theorem can_create_head {st : Store} {root : Path} {iz : Bool} {hsh0 : NodeHash}
    (hget : alGet st.nodes root = some hsh0) (hr : hsh0.r.isSome = true)
    (hok : can_create st root iz = true) : hsh0.t = none := by
  obtain ⟨r0, hr0⟩ := Option.isSome_iff_exists.mp hr
  cases ht : hsh0.t with
  | none => rfl
  | some tk2 =>
    exfalso
    unfold can_create at hok
    obtain ⟨crest, hchain⟩ := pathChain_head root
    rw [hchain] at hok
    simp [canCreateWalk, hget, hr0, ht] at hok

/-- full effect of the Lua `create_token` on a consistent store after a
passing `can_create`: it allocates the next token, locks `root`, bumps every
ancestor refcount, registers the token key and (for a non-negative duration)
the expiry entry — and keeps the store consistent. -/
theorem create_token_effect {st : Store} (hInv : Inv st) {root : Path}
    (hclean : CleanName root = true) {iz : Bool}
    (hok : can_create st root iz = true) (now d : Int) (o : String) :
    ∃ st', create_token st now root d iz o = (st.nextToken + 1, st') ∧ Inv st' ∧
      st'.nextToken = st.nextToken + 1 ∧
      st'.tokens = alSet st.tokens (st.nextToken + 1) root ∧
      st'.expiry = (if 0 ≤ d then alSet st.expiry root (now + d) else st.expiry) ∧
      alGet st'.nodes root =
        some (lockHash now d iz o (st.nextToken + 1) root
          ((alGet st.nodes root).getD {})) ∧
      (∀ q, q ∈ pathChain root → q ≠ root →
        alGet st'.nodes q = some (bumpHash q ((alGet st.nodes q).getD {}))) ∧
      (∀ q, q ∉ pathChain root → alGet st'.nodes q = alGet st.nodes q) ∧
      (∀ p, lockedCount st' p =
        lockedCount st p + (if isBeneath root p then 1 else 0)) ∧
      (∀ q hq0, alGet st.nodes q = some hq0 → q ≠ root →
        ∃ h2, alGet st'.nodes q = some h2 ∧ h2.t = hq0.t ∧ h2.h = hq0.h ∧
          h2.d = hq0.d ∧ h2.o = hq0.o ∧ h2.z = hq0.z ∧ h2.e = hq0.e ∧
          h2.n = hq0.n ∧ h2.r = hq0.r) := by
  have hnd := hInv.nodesNodup
  obtain ⟨crest, hchain⟩ := pathChain_head root
  set tok : Nat := st.nextToken + 1 with htokdef
  set stH := createStep now d iz o tok { st with nextToken := tok } root true with hstH
  set st' := createWalk now d iz o tok stH crest false with hst'
  have hrun : create_token st now root d iz o = (tok, st') := by
    show (tok, createWalk now d iz o tok { st with nextToken := tok }
      (pathChain root) true) = (tok, st')
    rw [hchain]
    rfl
  have hchain_nodup : (pathChain root).Nodup := by
    obtain ⟨segs, hreg, hrw⟩ := CleanName_decomp hclean
    rw [hrw]
    exact pathChain_nodup (goodSegs_of_regSegs hreg)
  have hchain_clean : ∀ a ∈ pathChain root, CleanName a = true := CleanName_chain hclean
  have hrootcrest : root ∉ crest := by
    have h1 := hchain_nodup
    rw [hchain] at h1
    exact (List.nodup_cons.mp h1).1
  have hcrest_nodup : crest.Nodup := by
    have h1 := hchain_nodup
    rw [hchain] at h1
    exact (List.nodup_cons.mp h1).2
  have hmem_chain : ∀ q, q ∈ pathChain root ↔ (q = root ∨ q ∈ crest) := by
    intro q
    rw [hchain]
    exact List.mem_cons
  have hbeneath : ∀ q ∈ pathChain root, isBeneath root q = true :=
    fun q hq => (mem_chain_iff_beneath (hchain_clean q hq) hclean).mp hq
  have hnotchain : ∀ q, CleanName q = true → q ∉ pathChain root →
      isBeneath root q = false := by
    intro q hq hqc
    cases hb : isBeneath root q with
    | false => rfl
    | true => exact absurd ((mem_chain_iff_beneath hq hclean).mpr hb) hqc
  have hHnodes : stH.nodes = alSet st.nodes root
      (lockHash now d iz o tok root ((alGet st.nodes root).getD {})) := by
    rw [hstH, createStep_true_eq]
  have hHtokens : stH.tokens = alSet st.tokens tok root := by
    rw [hstH, createStep_true_eq]
  have hHexpiry : stH.expiry =
      (if 0 ≤ d then alSet st.expiry root (now + d) else st.expiry) := by
    rw [hstH, createStep_true_eq]
  have hHnext : stH.nextToken = tok := by
    rw [hstH, createStep_true_eq]
  have hndH : noDupKeys stH.nodes := by
    rw [hHnodes]
    exact alSet_noDupKeys hnd _ _
  have hnd' : noDupKeys st'.nodes := createWalkF_nodup now d iz o tok crest hndH
  have hTok' : st'.tokens = alSet st.tokens tok root := by
    rw [hst', createWalkF_tokens, hHtokens]
  have hExp' : st'.expiry = (if 0 ≤ d then alSet st.expiry root (now + d) else st.expiry) := by
    rw [hst', createWalkF_expiry, hHexpiry]
  have hNxt' : st'.nextToken = tok := by
    rw [hst', createWalkF_nextToken, hHnext]
  have hroot_t_none : ∀ hsh0, alGet st.nodes root = some hsh0 → hsh0.t = none := by
    intro hsh0 hg
    exact can_create_head hg (by rw [(hInv.base root hsh0 hg).2.1]; rfl) hok
  have hget'_root : alGet st'.nodes root =
      some (lockHash now d iz o tok root ((alGet st.nodes root).getD {})) := by
    rw [hst', createWalkF_get_not_mem now d iz o tok crest stH hrootcrest, hHnodes]
    exact alGet_alSet_self _ _ _
  have hget'_crest : ∀ q, q ∈ crest →
      alGet st'.nodes q = some (bumpHash q ((alGet st.nodes q).getD {})) := by
    intro q hq
    have hqne : q ≠ root := fun he => hrootcrest (by rw [← he]; exact hq)
    rw [hst', createWalkF_get_mem now d iz o tok crest stH hcrest_nodup hq]
    have hstep : alGet stH.nodes q = alGet st.nodes q := by
      rw [hHnodes]
      exact alGet_alSet_ne st.nodes _ hqne
    exact congrArg (fun ov => some (bumpHash q (Option.getD ov {}))) hstep
  have hget'_out : ∀ q, q ∉ pathChain root → alGet st'.nodes q = alGet st.nodes q := by
    intro q hq
    have hqcrest : q ∉ crest := fun hm => hq ((hmem_chain q).mpr (Or.inr hm))
    have hqne : q ≠ root := fun he => hq ((hmem_chain q).mpr (Or.inl he))
    rw [hst', createWalkF_get_not_mem now d iz o tok crest stH hqcrest, hHnodes]
    exact alGet_alSet_ne st.nodes _ hqne
  have hsafe : ∀ q ∈ crest, ∀ h, alGet stH.nodes q = some h →
      ¬ h.c.getD 0 + 1 = 1 := by
    intro q hq h hg
    have hqne : q ≠ root := fun he => hrootcrest (by rw [← he]; exact hq)
    rw [hHnodes, alGet_alSet_ne st.nodes _ hqne] at hg
    have hc := hInv.count q h hg
    have hpos := hInv.countPos q h hg
    rw [hc]
    simp only [Option.getD_some]
    omega
  have hHcount : ∀ p, stH.nodes.countP (beneathLocked p) =
      st.nodes.countP (beneathLocked p) + (if isBeneath root p then 1 else 0) := by
    intro p
    rw [hHnodes]
    have hPL : beneathLocked p
        (root, lockHash now d iz o tok root ((alGet st.nodes root).getD {})) =
        isBeneath root p := by
      simp [beneathLocked, lockHash]
    by_cases hab : (alGet st.nodes root).isSome
    · obtain ⟨hsh0, hg⟩ := Option.isSome_iff_exists.mp hab
      have h1 := countP_alSet_present hnd hg
        (lockHash now d iz o tok root ((alGet st.nodes root).getD {})) (beneathLocked p)
      have hP0 : beneathLocked p (root, hsh0) = false :=
        beneathLocked_unlocked p root hsh0 (hroot_t_none hsh0 hg)
      rw [hP0, hPL] at h1
      have h4 : (if (false : Bool) = true then 1 else 0) = 0 := rfl
      rw [h4] at h1
      omega
    · have hg : alGet st.nodes root = none := Option.not_isSome_iff_eq_none.mp hab
      rw [countP_alSet_absent hg, hPL]
  have hcnt' : ∀ p, lockedCount st' p =
      lockedCount st p + (if isBeneath root p then 1 else 0) := by
    intro p
    rw [lockedCount_eq_countP, lockedCount_eq_countP]
    rw [show st'.nodes.countP (beneathLocked p) = stH.nodes.countP (beneathLocked p) from
      createWalkF_countP now d iz o tok (beneathLocked p)
        (fun q h x => beneathLocked_c p q h x)
        (fun q h ht => beneathLocked_unlocked p q h ht) crest stH hcrest_nodup hndH hsafe]
    exact hHcount p
  have hget'_in2 : ∀ q, q ∈ pathChain root → q ≠ root →
      alGet st'.nodes q = some (bumpHash q ((alGet st.nodes q).getD {})) := by
    intro q hq hqne
    rcases (hmem_chain q).mp hq with he | hc
    · exact absurd he hqne
    · exact hget'_crest q hc
  -- characterize surviving nodes, then prove `Inv st'`
  have hcrest_val : ∀ q, q ∈ crest → ∀ hq0, alGet st.nodes q = some hq0 →
      alGet st'.nodes q = some { hq0 with c := some (hq0.c.getD 0 + 1) } := by
    intro q hq hq0 hg
    have hc := hInv.count q hq0 hg
    have hpos := hInv.countPos q hq0 hg
    have hne1 : ¬ hq0.c.getD 0 + 1 = 1 := by
      rw [hc]
      simp only [Option.getD_some]
      omega
    rw [hget'_crest q hq, hg, Option.getD_some, bumpHash_old hne1]
  have hcrest_new : ∀ q, q ∈ crest → alGet st.nodes q = none →
      alGet st'.nodes q = some (bumpHash q ({} : NodeHash)) := by
    intro q hq hg
    rw [hget'_crest q hq, hg, Option.getD_none]
  have hmedium : ∀ q h, alGet st'.nodes q = some h →
      (q = root ∧
        h = lockHash now d iz o tok root ((alGet st.nodes root).getD {})) ∨
      (q ∈ crest ∧ h = bumpHash q ((alGet st.nodes q).getD {})) ∨
      (q ∉ pathChain root ∧ alGet st.nodes q = some h) := by
    intro q h hq'
    by_cases hq : q ∈ pathChain root
    · rcases (hmem_chain q).mp hq with he | hqc
      · left
        refine ⟨he, ?_⟩
        rw [he] at hq'
        rw [hget'_root] at hq'
        exact (Option.some.inj hq').symm
      · right
        left
        rw [hget'_crest q hqc] at hq'
        exact ⟨hqc, (Option.some.inj hq').symm⟩
    · right
      right
      rw [hget'_out q hq] at hq'
      exact ⟨hq, hq'⟩
  have hsplit_root : ∀ h,
      h = lockHash now d iz o tok root ((alGet st.nodes root).getD {}) →
      h.t = some tok ∧ h.d = some d ∧ h.o = some o ∧ h.z = some iz ∧
      h.e = some (if 0 ≤ d then now + d else 0) ∧ h.n = some root ∧ h.r = some root ∧
      h.h = some false ∧ h.c = some ((lockedCount st root : Int) + 1) := by
    intro h he
    subst he
    refine ⟨rfl, rfl, rfl, rfl, rfl, ?_⟩
    by_cases hab : (alGet st.nodes root).isSome
    · obtain ⟨hsh0, hg⟩ := Option.isSome_iff_exists.mp hab
      have hb := hInv.base root hsh0 hg
      have hc := hInv.count root hsh0 hg
      have hpos := hInv.countPos root hsh0 hg
      have htn := hroot_t_none hsh0 hg
      have hhf : hsh0.h = some false := by
        rcases hb.2.2 with hT | hF
        · exfalso
          have hx := hInv.heldLocked root hsh0 hg hT
          rw [htn] at hx
          cases hx
        · exact hF
      have hne1 : ¬ hsh0.c.getD 0 + 1 = 1 := by
        rw [hc]
        simp only [Option.getD_some]
        omega
      have hbump : bumpHash root ((alGet st.nodes root).getD {}) =
          { hsh0 with c := some (hsh0.c.getD 0 + 1) } := by
        rw [hg, Option.getD_some, bumpHash_old hne1]
      refine ⟨?_, ?_, ?_, ?_⟩
      · show (bumpHash root ((alGet st.nodes root).getD {})).n = some root
        rw [hbump]
        exact hb.1
      · show (bumpHash root ((alGet st.nodes root).getD {})).r = some root
        rw [hbump]
        exact hb.2.1
      · show (bumpHash root ((alGet st.nodes root).getD {})).h = some false
        rw [hbump]
        exact hhf
      · show (bumpHash root ((alGet st.nodes root).getD {})).c =
          some ((lockedCount st root : Int) + 1)
        rw [hbump]
        show some (hsh0.c.getD 0 + 1) = some ((lockedCount st root : Int) + 1)
        rw [hc]
        simp only [Option.getD_some]
    · have hg := Option.not_isSome_iff_eq_none.mp hab
      have h0 : lockedCount st root = 0 := lockedCount_eq_zero_of_absent hInv hclean hg
      have hbump : bumpHash root ((alGet st.nodes root).getD {}) =
          bumpHash root ({} : NodeHash) := by
        rw [hg, Option.getD_none]
      refine ⟨?_, ?_, ?_, ?_⟩
      · show (bumpHash root ((alGet st.nodes root).getD {})).n = some root
        rw [hbump, bumpHash_new]
      · show (bumpHash root ((alGet st.nodes root).getD {})).r = some root
        rw [hbump, bumpHash_new]
      · show (bumpHash root ((alGet st.nodes root).getD {})).h = some false
        rw [hbump, bumpHash_new]
      · show (bumpHash root ((alGet st.nodes root).getD {})).c =
          some ((lockedCount st root : Int) + 1)
        rw [hbump, bumpHash_new, h0]
        simp
  have hcrest_hash : ∀ q, q ∈ crest → ∀ h,
      h = bumpHash q ((alGet st.nodes q).getD {}) →
      (∃ hq0, alGet st.nodes q = some hq0 ∧
        h = { hq0 with c := some (hq0.c.getD 0 + 1) }) ∨
      (alGet st.nodes q = none ∧ h = bumpHash q ({} : NodeHash)) := by
    intro q hq h hval
    by_cases hab : (alGet st.nodes q).isSome
    · obtain ⟨hq0, hg⟩ := Option.isSome_iff_exists.mp hab
      left
      have hc := hInv.count q hq0 hg
      have hpos := hInv.countPos q hq0 hg
      have hne1 : ¬ hq0.c.getD 0 + 1 = 1 := by
        rw [hc]
        simp only [Option.getD_some]
        omega
      refine ⟨hq0, hg, ?_⟩
      rw [hval, hg, Option.getD_some, bumpHash_old hne1]
    · have hg := Option.not_isSome_iff_eq_none.mp hab
      right
      refine ⟨hg, ?_⟩
      rw [hval, hg, Option.getD_none]
  have hlocked_surv : ∀ q hq0, alGet st.nodes q = some hq0 → q ≠ root →
      ∃ h2, alGet st'.nodes q = some h2 ∧ h2.t = hq0.t ∧ h2.h = hq0.h ∧
        h2.d = hq0.d ∧ h2.o = hq0.o ∧ h2.z = hq0.z ∧ h2.e = hq0.e ∧
        h2.n = hq0.n ∧ h2.r = hq0.r := by
    intro q hq0 hg hqne
    by_cases hqc : q ∈ crest
    · exact ⟨_, hcrest_val q hqc hq0 hg, rfl, rfl, rfl, rfl, rfl, rfl, rfl, rfl⟩
    · have hout : q ∉ pathChain root := by
        intro hm
        rcases (hmem_chain q).mp hm with he | hc
        · exact hqne he
        · exact hqc hc
      exact ⟨hq0, by rw [hget'_out q hout, hg], rfl, rfl, rfl, rfl, rfl, rfl, rfl, rfl⟩
  have hclosed_any : ∀ a, a ∈ pathChain root → (alGet st'.nodes a).isSome = true := by
    intro a ha
    rcases (hmem_chain a).mp ha with he2 | hc2
    · rw [he2, hget'_root]
      rfl
    · rw [hget'_crest a hc2]
      rfl
  have htok_big : ∀ q hq0 tk2, alGet st.nodes q = some hq0 → hq0.t = some tk2 →
      tk2 ≠ tok ∧ tk2 ≤ st.nextToken := by
    intro q hq0 tk2 hg ht2
    have hL := hInv.lockedOk q hq0 tk2 hg ht2
    have hle := hL.2.2.2.2.2.2
    exact ⟨by omega, hle⟩
  have hclean' : ∀ q h, alGet st'.nodes q = some h → CleanName q = true := by
    intro q h hq'
    rcases hmedium q h hq' with ⟨he, _⟩ | ⟨hqc, _⟩ | ⟨_, hg⟩
    · rw [he]
      exact hclean
    · exact hchain_clean q ((hmem_chain q).mpr (Or.inr hqc))
    · exact hInv.clean q h hg
  have hbase' : ∀ q h, alGet st'.nodes q = some h → h.n = some q ∧ h.r = some q ∧
      (h.h = some true ∨ h.h = some false) := by
    intro q h hq'
    rcases hmedium q h hq' with ⟨he, hval⟩ | ⟨hqc, hval⟩ | ⟨_, hg⟩
    · have hs := hsplit_root h hval
      rw [he]
      exact ⟨hs.2.2.2.2.2.1, hs.2.2.2.2.2.2.1, Or.inr hs.2.2.2.2.2.2.2.1⟩
    · rcases hcrest_hash q hqc h hval with ⟨hq0, hg, rfl⟩ | ⟨hg, rfl⟩
      · have hb := hInv.base q hq0 hg
        exact ⟨hb.1, hb.2.1, hb.2.2⟩
      · rw [bumpHash_new]
        exact ⟨rfl, rfl, Or.inr rfl⟩
    · exact hInv.base q h hg
  have hcount' : ∀ q h, alGet st'.nodes q = some h →
      h.c = some (lockedCount st' q : Int) := by
    intro q h hq'
    rcases hmedium q h hq' with ⟨he, hval⟩ | ⟨hqc, hval⟩ | ⟨hqout, hg⟩
    · have hs := hsplit_root h hval
      have hcr := hcnt' root
      rw [if_pos (isBeneath_refl root)] at hcr
      rw [he, hs.2.2.2.2.2.2.2.2]
      congr 1
      omega
    · have hqmem : q ∈ pathChain root := (hmem_chain q).mpr (Or.inr hqc)
      have hcr := hcnt' q
      rw [if_pos (hbeneath q hqmem)] at hcr
      rcases hcrest_hash q hqc h hval with ⟨hq0, hg, rfl⟩ | ⟨hg, rfl⟩
      · have hc := hInv.count q hq0 hg
        show some (hq0.c.getD 0 + 1) = some (lockedCount st' q : Int)
        rw [hc]
        simp only [Option.getD_some]
        congr 1
        omega
      · have h0 : lockedCount st q = 0 :=
          lockedCount_eq_zero_of_absent hInv (hchain_clean q hqmem) hg
        rw [bumpHash_new]
        show some (1 : Int) = some (lockedCount st' q : Int)
        congr 1
        omega
    · have hc := hInv.count q h hg
      have hcr := hcnt' q
      have hnb : isBeneath root q = false := hnotchain q (hInv.clean q h hg) hqout
      rw [if_neg (by simp [hnb])] at hcr
      rw [hc]
      congr 2
      omega
  have hcountPos' : ∀ q h, alGet st'.nodes q = some h → 0 < lockedCount st' q := by
    intro q h hq'
    rcases hmedium q h hq' with ⟨he, hval⟩ | ⟨hqc, hval⟩ | ⟨hqout, hg⟩
    · have hcr := hcnt' root
      rw [if_pos (isBeneath_refl root)] at hcr
      rw [he]
      omega
    · have hqmem : q ∈ pathChain root := (hmem_chain q).mpr (Or.inr hqc)
      have hcr := hcnt' q
      rw [if_pos (hbeneath q hqmem)] at hcr
      omega
    · have hcr := hcnt' q
      have hnb : isBeneath root q = false := hnotchain q (hInv.clean q h hg) hqout
      rw [if_neg (by simp [hnb])] at hcr
      have hpos := hInv.countPos q h hg
      omega
  have hclosed' : ∀ q h, alGet st'.nodes q = some h → ∀ a ∈ pathChain q,
      (alGet st'.nodes a).isSome := by
    intro q h hq' a ha
    rcases hmedium q h hq' with ⟨he, hval⟩ | ⟨hqc, hval⟩ | ⟨hqout, hg⟩
    · refine hclosed_any a ?_
      refine pathChain_sub (clean_good hclean) ?_ a ha
      rw [he] at ha ⊢
      exact self_mem_pathChain root
    · refine hclosed_any a (pathChain_sub (clean_good hclean)
        ((hmem_chain q).mpr (Or.inr hqc)) a ha)
    · by_cases hac : a ∈ pathChain root
      · exact hclosed_any a hac
      · obtain ⟨hav, hgav⟩ := Option.isSome_iff_exists.mp (hInv.closed q h hg a ha)
        rw [hget'_out a hac, hgav]
        rfl
  have hlockedOk' : ∀ q h tk2, alGet st'.nodes q = some h → h.t = some tk2 →
      (∃ dd2, h.d = some dd2 ∧ (dd2 < 0 → h.e = some 0)) ∧
      h.e.isSome ∧ h.o.isSome ∧ h.z.isSome ∧
      alGet st'.tokens tk2 = some q ∧ 1 ≤ tk2 ∧ tk2 ≤ st'.nextToken := by
    intro q h tk2 hq' ht2
    rcases hmedium q h hq' with ⟨he, hval⟩ | ⟨hqc, hval⟩ | ⟨hqout, hg⟩
    · have hs := hsplit_root h hval
      have htkeq : tok = tk2 := by
        have h1 := hs.1
        rw [ht2] at h1
        exact (Option.some.inj h1).symm
      refine ⟨⟨d, hs.2.1, fun hneg => ?_⟩, ?_, ?_, ?_, ?_, ?_, ?_⟩
      · rw [hs.2.2.2.2.1, if_neg (by omega)]
      · rw [hs.2.2.2.2.1]
        rfl
      · rw [hs.2.2.1]
        rfl
      · rw [hs.2.2.2.1]
        rfl
      · rw [hTok', ← htkeq, alGet_alSet_self, he]
      · omega
      · rw [hNxt']
        omega
    · rcases hcrest_hash q hqc h hval with ⟨hq0, hg, rfl⟩ | ⟨hg, rfl⟩
      · have ht0 : hq0.t = some tk2 := ht2
        have hL := hInv.lockedOk q hq0 tk2 hg ht0
        obtain ⟨hne, hle⟩ := htok_big q hq0 tk2 hg ht0
        refine ⟨hL.1, hL.2.1, hL.2.2.1, hL.2.2.2.1, ?_, hL.2.2.2.2.2.1, ?_⟩
        · rw [hTok', alGet_alSet_ne st.tokens _ hne]
          exact hL.2.2.2.2.1
        · rw [hNxt']
          omega
      · exfalso
        rw [bumpHash_new] at ht2
        cases ht2
    · have ht0 : h.t = some tk2 := ht2
      have hL := hInv.lockedOk q h tk2 hg ht0
      obtain ⟨hne, hle⟩ := htok_big q h tk2 hg ht0
      refine ⟨hL.1, hL.2.1, hL.2.2.1, hL.2.2.2.1, ?_, hL.2.2.2.2.2.1, ?_⟩
      · rw [hTok', alGet_alSet_ne st.tokens _ hne]
        exact hL.2.2.2.2.1
      · rw [hNxt']
        omega
  have hheldLocked' : ∀ q h, alGet st'.nodes q = some h → h.h = some true →
      h.t.isSome := by
    intro q h hq' hh2
    rcases hmedium q h hq' with ⟨he, hval⟩ | ⟨hqc, hval⟩ | ⟨hqout, hg⟩
    · have hs := hsplit_root h hval
      rw [hs.1]
      rfl
    · rcases hcrest_hash q hqc h hval with ⟨hq0, hg, rfl⟩ | ⟨hg, rfl⟩
      · have hh0 : hq0.h = some true := hh2
        exact hInv.heldLocked q hq0 hg hh0
      · exfalso
        rw [bumpHash_new] at hh2
        cases hh2
    · exact hInv.heldLocked q h hg hh2
  have htokensBack' : ∀ tk2 p, alGet st'.tokens tk2 = some p →
      ∃ hh, alGet st'.nodes p = some hh ∧ hh.t = some tk2 := by
    intro tk2 p htp
    rw [hTok'] at htp
    by_cases hEq : tk2 = tok
    · subst hEq
      rw [alGet_alSet_self] at htp
      have hpr : root = p := Option.some.inj htp
      refine ⟨lockHash now d iz o tok root ((alGet st.nodes root).getD {}), ?_, rfl⟩
      rw [← hpr]
      exact hget'_root
    · rw [alGet_alSet_ne st.tokens _ hEq] at htp
      obtain ⟨hp, hgp, hpt⟩ := hInv.tokensBack tk2 p htp
      have hpn : p ≠ root := by
        intro hEq2
        rw [hEq2] at hgp
        have := hroot_t_none hp hgp
        rw [this] at hpt
        cases hpt
      obtain ⟨h2, hg2, hte, _⟩ := hlocked_surv p hp hgp hpn
      refine ⟨h2, hg2, ?_⟩
      rw [hte]
      exact hpt
  have hzsetSound' : ∀ q sc, alGet st'.expiry q = some sc →
      ∃ hh, alGet st'.nodes q = some hh ∧ hh.t.isSome ∧ hh.h = some false ∧
      (∃ dd2, hh.d = some dd2 ∧ 0 ≤ dd2) ∧ hh.e = some sc := by
    intro q sc hsc
    rw [hExp'] at hsc
    by_cases hd0 : 0 ≤ d
    · rw [if_pos hd0] at hsc
      by_cases hEq : q = root
      · subst hEq
        rw [alGet_alSet_self] at hsc
        have hsceq : now + d = sc := Option.some.inj hsc
        have hs := hsplit_root _ rfl
        refine ⟨_, hget'_root, ?_, hs.2.2.2.2.2.2.2.1, ⟨d, hs.2.1, hd0⟩, ?_⟩
        · rw [hs.1]
          rfl
        · rw [hs.2.2.2.2.1, if_pos hd0, hsceq]
      · rw [alGet_alSet_ne st.expiry _ hEq] at hsc
        obtain ⟨hq0, hg, htq, hhq, hdq, heq⟩ := hInv.zsetSound q sc hsc
        obtain ⟨h2, hg2, hte, hhe, hde, _, _, hee, _⟩ := hlocked_surv q hq0 hg hEq
        refine ⟨h2, hg2, ?_, ?_, ?_, ?_⟩
        · rw [hte]
          exact htq
        · rw [hhe]
          exact hhq
        · obtain ⟨dd2, hdd2, h0⟩ := hdq
          refine ⟨dd2, ?_, h0⟩
          rw [hde]
          exact hdd2
        · rw [hee]
          exact heq
    · rw [if_neg hd0] at hsc
      obtain ⟨hq0, hg, htq, hhq, hdq, heq⟩ := hInv.zsetSound q sc hsc
      have hqne : q ≠ root := by
        intro hEq
        rw [hEq] at hg
        have := hroot_t_none hq0 hg
        rw [this] at htq
        cases htq
      obtain ⟨h2, hg2, hte, hhe, hde, _, _, hee, _⟩ := hlocked_surv q hq0 hg hqne
      refine ⟨h2, hg2, ?_, ?_, ?_, ?_⟩
      · rw [hte]
        exact htq
      · rw [hhe]
        exact hhq
      · obtain ⟨dd2, hdd2, h0⟩ := hdq
        refine ⟨dd2, ?_, h0⟩
        rw [hde]
        exact hdd2
      · rw [hee]
        exact heq
  have hzsetComplete' : ∀ q h, alGet st'.nodes q = some h → h.t.isSome →
      h.h = some false → ∀ dd2, h.d = some dd2 → 0 ≤ dd2 →
      alGet st'.expiry q = h.e := by
    intro q h hq' ht2 hh2 dd2 hd2 hdd0
    rw [hExp']
    rcases hmedium q h hq' with ⟨he, hval⟩ | ⟨hqc, hval⟩ | ⟨hqout, hg⟩
    · have hs := hsplit_root h hval
      have hdeq : d = dd2 := by
        have h1 := hs.2.1
        rw [hd2] at h1
        exact (Option.some.inj h1).symm
      have hd0 : 0 ≤ d := by omega
      rw [he, if_pos hd0, alGet_alSet_self, hs.2.2.2.2.1, if_pos hd0]
    · have hqne : q ≠ root := by
        intro he2
        rw [he2] at hqc
        exact hrootcrest hqc
      rcases hcrest_hash q hqc h hval with ⟨hq0, hg, rfl⟩ | ⟨hg, rfl⟩
      · have ht0 : hq0.t.isSome = true := ht2
        have hh0 : hq0.h = some false := hh2
        have hd0' : hq0.d = some dd2 := hd2
        have hz := hInv.zsetComplete q hq0 hg ht0 hh0 dd2 hd0' hdd0
        by_cases hd0 : 0 ≤ d
        · rw [if_pos hd0, alGet_alSet_ne st.expiry _ hqne]
          exact hz
        · rw [if_neg hd0]
          exact hz
      · exfalso
        rw [bumpHash_new] at ht2
        cases ht2
    · have hqne : q ≠ root := by
        intro he2
        exact hqout (by rw [he2]; exact self_mem_pathChain root)
      have hz := hInv.zsetComplete q h hg ht2 hh2 dd2 hd2 hdd0
      by_cases hd0 : 0 ≤ d
      · rw [if_pos hd0, alGet_alSet_ne st.expiry _ hqne]
        exact hz
      · rw [if_neg hd0]
        exact hz
  have htokND : noDupKeys st'.tokens := by
    rw [hTok']
    exact alSet_noDupKeys hInv.tokensNodup _ _
  have hexpND : noDupKeys st'.expiry := by
    rw [hExp']
    by_cases hd0 : 0 ≤ d
    · rw [if_pos hd0]
      exact alSet_noDupKeys hInv.expiryNodup _ _
    · rw [if_neg hd0]
      exact hInv.expiryNodup
  exact ⟨st', hrun,
    ⟨hnd', htokND, hexpND, hclean', hbase', hcount', hcountPos', hclosed', hlockedOk',
      hheldLocked', htokensBack', hzsetSound', hzsetComplete'⟩,
    hNxt', hTok', hExp', hget'_root, hget'_in2, hget'_out, hcnt', hlocked_surv⟩

/-! ## Effect of the expiry sweep -/

theorem foldl_alDel_get_not_mem {α β : Type} [DecidableEq α] :
    ∀ (names : List α) (l : List (α × β)) (q : α), q ∉ names →
    alGet (names.foldl alDel l) q = alGet l q := by
  intro names
  induction names with
  | nil => intro l q _; rfl
  | cons nm rest ih =>
    intro l q hq
    rw [List.foldl_cons]
    rw [ih (alDel l nm) q (fun hm => hq (List.mem_cons_of_mem nm hm))]
    exact alGet_alDel_ne l (fun he => hq (by rw [he]; exact List.mem_cons_self nm rest))

theorem foldl_alDel_length_le {α β : Type} [DecidableEq α] :
    ∀ (names : List α) (l : List (α × β)), (names.foldl alDel l).length ≤ l.length := by
  intro names
  induction names with
  | nil => intro l; exact le_refl _
  | cons nm rest ih =>
    intro l
    rw [List.foldl_cons]
    exact le_trans (ih (alDel l nm)) (List.length_filter_le _ l)

theorem filter_foldl_alDel {now_sec : Int} :
    ∀ (names : List Path) (l : List (Path × Int)),
    (∀ nm ∈ names, ∀ en ∈ l, en.1 = nm → en.2 ≤ now_sec) →
    (names.foldl alDel l).filter (fun en => decide (now_sec < en.2)) =
      l.filter (fun en => decide (now_sec < en.2)) := by
  intro names
  induction names with
  | nil => intro l _; rfl
  | cons nm rest ih =>
    intro l hdel
    rw [List.foldl_cons]
    have hrest : ∀ nm2 ∈ rest, ∀ en ∈ alDel l nm, en.1 = nm2 → en.2 ≤ now_sec := by
      intro nm2 hm en hen he
      exact hdel nm2 (List.mem_cons_of_mem nm hm) en (mem_alDel.mp hen).1 he
    rw [ih (alDel l nm) hrest]
    unfold alDel
    rw [List.filter_filter]
    refine List.filter_congr ?_
    intro en hen
    by_cases hsc : now_sec < en.2
    · have hne : ¬ en.1 = nm := by
        intro he
        have := hdel nm (List.mem_cons_self nm rest) en hen he
        omega
      simp [hne, hsc]
    · simp [hsc]

/-- effect of one sweep batch: each batch name has an expiry entry in a
consistent store, so all the `HMGET`-fed `remove` calls succeed; the batch
deletes exactly the named entries, unlocks the named nodes, and leaves every
other lock intact. -/
theorem sweepBatch_ok :
    ∀ (names : List Path) (st : Store), Inv st → names.Nodup →
    (∀ nm ∈ names, ∃ sc, alGet st.expiry nm = some sc) →
    ∃ st', sweepBatch st names = .ok st' ∧ Inv st' ∧
      st'.nextToken = st.nextToken ∧
      st'.expiry = names.foldl alDel st.expiry ∧
      (∀ q hq, alGet st.nodes q = some hq → hq.t.isSome = true → q ∉ names →
        ∃ h2, alGet st'.nodes q = some h2 ∧ h2.t = hq.t ∧ h2.h = hq.h ∧ h2.d = hq.d ∧
          h2.o = hq.o ∧ h2.z = hq.z ∧ h2.e = hq.e ∧ h2.n = hq.n ∧ h2.r = hq.r) ∧
      (∀ q, (∀ h2, alGet st.nodes q = some h2 → h2.t = none) →
        (∀ h2, alGet st'.nodes q = some h2 → h2.t = none)) ∧
      (∀ q, q ∈ names → ∀ h2, alGet st'.nodes q = some h2 → h2.t = none) ∧
      (∀ tk2 p, alGet st'.tokens tk2 = some p → alGet st.tokens tk2 = some p) := by
  intro names
  induction names with
  | nil =>
    intro st hInv _ _
    exact ⟨st, rfl, hInv, rfl, rfl, fun q hq hg ht _ => ⟨hq, hg, rfl, rfl, rfl, rfl,
      rfl, rfl, rfl, rfl⟩, fun q hu => hu, fun q hq => absurd hq (List.not_mem_nil q),
      fun tk2 p hp => hp⟩
  | cons name rest ih =>
    intro st hInv hnodup hents
    obtain ⟨hname_rest, hrest_nodup⟩ := List.nodup_cons.mp hnodup
    obtain ⟨sc, hent⟩ := hents name (List.mem_cons_self name rest)
    obtain ⟨hsh, hget, htI, hheld, ⟨dd, hd, hdd0⟩, he⟩ := hInv.zsetSound name sc hent
    obtain ⟨tk, htok⟩ := Option.isSome_iff_exists.mp htI
    have hr : hsh.r = some name := (hInv.base name hsh hget).2.1
    obtain ⟨stM, hrem, hInvM, hNxtM, hTokM, hExpM, hgetM_out, hgetM_in, hsurvM⟩ :=
      remove_effect hInv hget htok hheld hd
    have hstep : sweepBatch st (name :: rest) = sweepBatch stM rest := by
      show (do
        let stx ← remove st name ((alGet st.nodes name).bind NodeHash.r)
          ((alGet st.nodes name).bind NodeHash.t) ((alGet st.nodes name).bind NodeHash.d)
        sweepBatch stx rest) = sweepBatch stM rest
      rw [hget]
      show (do
        let stx ← remove st name hsh.r hsh.t hsh.d
        sweepBatch stx rest) = sweepBatch stM rest
      rw [hr, htok, hd, hrem]
      rfl
    have hchain_clean : CleanName name = true := hInv.clean name hsh hget
    have hents' : ∀ nm ∈ rest, ∃ sc2, alGet stM.expiry nm = some sc2 := by
      intro nm hm
      obtain ⟨sc2, hsc2⟩ := hents nm (List.mem_cons_of_mem name hm)
      refine ⟨sc2, ?_⟩
      rw [hExpM, alGet_alDel_ne st.expiry (fun he2 => hname_rest (by rw [← he2]; exact hm))]
      exact hsc2
    obtain ⟨st', hrunR, hInv', hNxt', hExp', hsurv', hunl', hrem', htokshr'⟩ :=
      ih stM hInvM hrest_nodup hents'
    have hunlM : ∀ q, (∀ h2, alGet st.nodes q = some h2 → h2.t = none) →
        (∀ h2, alGet stM.nodes q = some h2 → h2.t = none) := by
      intro q hu h2 hg2
      by_cases hqc : q ∈ pathChain name
      · rw [hgetM_in q hqc] at hg2
        by_cases hone : lockedCount st q = 1
        · rw [if_pos hone] at hg2
          cases hg2
        · rw [if_neg hone] at hg2
          by_cases hqn : q = name
          · rw [if_pos hqn] at hg2
            rw [← Option.some.inj hg2]
            rfl
          · rw [if_neg hqn] at hg2
            rw [← Option.some.inj hg2]
            show ((alGet st.nodes q).getD {}).t = none
            cases hgq : alGet st.nodes q with
            | none => rfl
            | some hq2 =>
              show hq2.t = none
              exact hu hq2 hgq
      · rw [hgetM_out q hqc] at hg2
        exact hu h2 hg2
    have hunlM_name : ∀ h2, alGet stM.nodes name = some h2 → h2.t = none := by
      intro h2 hg2
      rw [hgetM_in name (self_mem_pathChain name)] at hg2
      by_cases hone : lockedCount st name = 1
      · rw [if_pos hone] at hg2
        cases hg2
      · rw [if_neg hone, if_pos rfl] at hg2
        rw [← Option.some.inj hg2]
        rfl
    refine ⟨st', by rw [hstep]; exact hrunR, hInv', by rw [hNxt', hNxtM], ?_, ?_, ?_, ?_, ?_⟩
    · rw [hExp', hExpM]
      rfl
    · intro q hq hg ht hqmem
      have hqn : q ≠ name := fun he => hqmem (by rw [he]; exact List.mem_cons_self name rest)
      obtain ⟨h2, hg2, ht2, hh2, hd2, ho2, hz2, he2, hn2, hr2⟩ := hsurvM q hq hg ht hqn
      have ht2' : h2.t.isSome = true := by
        rw [ht2]
        exact ht
      obtain ⟨h3, hg3, ht3, hh3, hd3, ho3, hz3, he3, hn3, hr3⟩ := hsurv' q h2 hg2 ht2'
        (fun hm => hqmem (List.mem_cons_of_mem name hm))
      exact ⟨h3, hg3, by rw [ht3, ht2], by rw [hh3, hh2], by rw [hd3, hd2],
        by rw [ho3, ho2], by rw [hz3, hz2], by rw [he3, he2], by rw [hn3, hn2],
        by rw [hr3, hr2]⟩
    · intro q hu
      exact hunl' q (hunlM q hu)
    · intro q hqmem
      rcases List.mem_cons.mp hqmem with rfl | hqr
      · exact hunl' q hunlM_name
      · exact hrem' q hqr
    · intro tk2 p hp
      have h1 := htokshr' tk2 p hp
      rw [hTokM] at h1
      by_cases he2 : tk2 = tk
      · rw [he2, alGet_alDel_self] at h1
        cases h1
      · rw [alGet_alDel_ne st.tokens he2] at h1
        exact h1

/-- effect of the Lua expiry sweep on a consistent store: it terminates within
the model fuel, deletes exactly the expiry entries with score at most `now`
(unlocking their nodes), and leaves every lock with a later or absent entry
untouched. -/
theorem sweepLoop_ok (now_sec : Int) :
    ∀ (fuel : Nat) (st : Store), Inv st → st.expiry.length < fuel →
    ∃ st', sweepLoop fuel st now_sec = .ok st' ∧ Inv st' ∧
      st'.nextToken = st.nextToken ∧
      st'.expiry = st.expiry.filter (fun en => decide (now_sec < en.2)) ∧
      (∀ q hq, alGet st.nodes q = some hq → hq.t.isSome = true →
        (alGet st.expiry q = none ∨ ∃ sc, alGet st.expiry q = some sc ∧ now_sec < sc) →
        ∃ h2, alGet st'.nodes q = some h2 ∧ h2.t = hq.t ∧ h2.h = hq.h ∧ h2.d = hq.d ∧
          h2.o = hq.o ∧ h2.z = hq.z ∧ h2.e = hq.e ∧ h2.n = hq.n ∧ h2.r = hq.r) ∧
      (∀ q, (∀ h2, alGet st.nodes q = some h2 → h2.t = none) →
        (∀ h2, alGet st'.nodes q = some h2 → h2.t = none)) ∧
      (∀ q sc, alGet st.expiry q = some sc → sc ≤ now_sec →
        ∀ h2, alGet st'.nodes q = some h2 → h2.t = none) ∧
      (∀ tk2 p, alGet st'.tokens tk2 = some p → alGet st.tokens tk2 = some p) := by
  intro fuel
  induction fuel with
  | zero =>
    intro st _ hlen
    omega
  | succ n ihn =>
    intro st hInv hlen
    by_cases hnil : zrangebyscore st.expiry now_sec 100 = []
    · have hrun : sweepLoop (n + 1) st now_sec = .ok st := by
        unfold sweepLoop
        rw [if_pos hnil]
        rfl
      have hall : ∀ en ∈ st.expiry, ¬ en.2 ≤ now_sec :=
        (zrangebyscore_eq_nil_iff (by omega)).mp hnil
      refine ⟨st, hrun, hInv, rfl, ?_, ?_, fun q hu => hu, ?_, fun tk2 p hp => hp⟩
      · rw [eq_comm, List.filter_eq_self]
        intro en hen
        have h1 := hall en hen
        simp only [decide_eq_true_eq]
        omega
      · intro q hq hg ht _
        exact ⟨hq, hg, rfl, rfl, rfl, rfl, rfl, rfl, rfl, rfl⟩
      · intro q sc hsc hle h2 hg2
        exact absurd hle (hall _ (mem_of_alGet hsc))
    · set names := zrangebyscore st.expiry now_sec 100 with hnames
      have hnodup : names.Nodup := zrangebyscore_nodup hInv.expiryNodup now_sec 100
      have hents : ∀ nm ∈ names, ∃ sc, alGet st.expiry nm = some sc ∧ sc ≤ now_sec := by
        intro nm hm
        obtain ⟨sc, hmem, hsc⟩ := zrangebyscore_mem nm hm
        exact ⟨sc, alGet_eq_some_of_mem hInv.expiryNodup hmem, hsc⟩
      have hents0 : ∀ nm ∈ names, ∃ sc, alGet st.expiry nm = some sc := by
        intro nm hm
        obtain ⟨sc, h1, _⟩ := hents nm hm
        exact ⟨sc, h1⟩
      obtain ⟨stB, hrunB, hInvB, hNxtB, hExpB, hsurvB, hunlB, hremB, htkB⟩ :=
        sweepBatch_ok names st hInv hnodup hents0
      obtain ⟨nm0, rest0, hnameseq⟩ : ∃ nm0 rest0, names = nm0 :: rest0 := by
        cases hnn : names with
        | nil => exact absurd hnn hnil
        | cons a b => exact ⟨a, b, rfl⟩
      have hlenB : stB.expiry.length < n := by
        rw [hExpB, hnameseq, List.foldl_cons]
        obtain ⟨sc0, hsc0⟩ := hents0 nm0 (by rw [hnameseq]; exact List.mem_cons_self nm0 rest0)
        have h1 := foldl_alDel_length_le rest0 (alDel st.expiry nm0)
        have h2 := alDel_length_lt hsc0
        omega
      obtain ⟨st', hrun', hInv', hNxt', hExp', hsurv', hunl', hrem', htk'⟩ :=
        ihn stB hInvB hlenB
      have hrun : sweepLoop (n + 1) st now_sec = .ok st' := by
        unfold sweepLoop
        rw [← hnames, if_neg hnil, hrunB]
        show sweepLoop n stB now_sec = .ok st'
        exact hrun'
      have hnotin : ∀ q, q ∈ names → ∀ sc, alGet st.expiry q = some sc →
          sc ≤ now_sec := by
        intro q hm sc hsc
        obtain ⟨sc2, hsc2, hle2⟩ := hents q hm
        rw [hsc] at hsc2
        rw [Option.some.inj hsc2]
        exact hle2
      have hgetB_exp : ∀ q, q ∉ names → alGet stB.expiry q = alGet st.expiry q := by
        intro q hq
        rw [hExpB]
        exact foldl_alDel_get_not_mem names st.expiry q hq
      refine ⟨st', hrun, hInv', by rw [hNxt', hNxtB], ?_, ?_, ?_, ?_, ?_⟩
      · rw [hExp', hExpB]
        refine filter_foldl_alDel names st.expiry ?_
        intro nm hm en hen he
        obtain ⟨sc, hsc, hle⟩ := hents nm hm
        have hget_en : alGet st.expiry en.1 = some en.2 := by
          refine alGet_eq_some_of_mem hInv.expiryNodup ?_
          cases en
          exact hen
        rw [he, hsc] at hget_en
        rw [← Option.some.inj hget_en]
        exact hle
      · intro q hq hg ht hlate
        have hqnm : q ∉ names := by
          intro hm
          obtain ⟨sc2, hsc2, hle2⟩ := hents q hm
          rcases hlate with hnone | ⟨sc, hsc, hlt⟩
          · rw [hnone] at hsc2
            cases hsc2
          · rw [hsc] at hsc2
            rw [← Option.some.inj hsc2] at hle2
            omega
        obtain ⟨h2, hg2, ht2, hh2, hd2, ho2, hz2, he2, hn2, hr2⟩ :=
          hsurvB q hq hg ht hqnm
        have ht2' : h2.t.isSome = true := by
          rw [ht2]
          exact ht
        have hlateB : alGet stB.expiry q = none ∨
            ∃ sc, alGet stB.expiry q = some sc ∧ now_sec < sc := by
          rw [hgetB_exp q hqnm]
          exact hlate
        obtain ⟨h3, hg3, ht3, hh3, hd3, ho3, hz3, he3, hn3, hr3⟩ :=
          hsurv' q h2 hg2 ht2' hlateB
        exact ⟨h3, hg3, by rw [ht3, ht2], by rw [hh3, hh2], by rw [hd3, hd2],
          by rw [ho3, ho2], by rw [hz3, hz2], by rw [he3, he2], by rw [hn3, hn2],
          by rw [hr3, hr2]⟩
      · intro q hu
        exact hunl' q (hunlB q hu)
      · intro q sc hsc hle h2 hg2
        by_cases hm : q ∈ names
        · exact hunl' q (hremB q hm) h2 hg2
        · have hscB : alGet stB.expiry q = some sc := by
            rw [hgetB_exp q hm]
            exact hsc
          exact hrem' q sc hscB hle h2 hg2
      · intro tk2 p hp
        exact htkB tk2 p (htk' tk2 p hp)

/-- the `collect_expired_nodes` wrapper always has enough fuel on a
consistent store. -/
theorem collect_expired_nodes_ok {st : Store} (hInv : Inv st) (now_sec : Int) :
    ∃ st', collect_expired_nodes st now_sec = .ok st' ∧ Inv st' ∧
      st'.nextToken = st.nextToken ∧
      st'.expiry = st.expiry.filter (fun en => decide (now_sec < en.2)) ∧
      (∀ q hq, alGet st.nodes q = some hq → hq.t.isSome = true →
        (alGet st.expiry q = none ∨ ∃ sc, alGet st.expiry q = some sc ∧ now_sec < sc) →
        ∃ h2, alGet st'.nodes q = some h2 ∧ h2.t = hq.t ∧ h2.h = hq.h ∧ h2.d = hq.d ∧
          h2.o = hq.o ∧ h2.z = hq.z ∧ h2.e = hq.e ∧ h2.n = hq.n ∧ h2.r = hq.r) ∧
      (∀ q, (∀ h2, alGet st.nodes q = some h2 → h2.t = none) →
        (∀ h2, alGet st'.nodes q = some h2 → h2.t = none)) ∧
      (∀ q sc, alGet st.expiry q = some sc → sc ≤ now_sec →
        ∀ h2, alGet st'.nodes q = some h2 → h2.t = none) ∧
      (∀ tk2 p, alGet st'.tokens tk2 = some p → alGet st.tokens tk2 = some p) :=
  sweepLoop_ok now_sec (st.expiry.length + 1) st hInv (by omega)

/-! ## Consistency under single-node field updates -/

/-- replacing the hash of an existing node without touching its `t`, `c`,
`n`, `r` fields, together with an expiry-list change that only concerns this
node and respects the zset conditions, preserves consistency.  This covers
`hold`, `unhold` and the write-back of `refresh`. -/
theorem setNode_inv {st : Store} (hInv : Inv st) {name : Path} {hsh h4 : NodeHash}
    (hget : alGet st.nodes name = some hsh)
    (ht : h4.t = hsh.t) (hc : h4.c = hsh.c) (hn : h4.n = hsh.n) (hr : h4.r = hsh.r)
    (hhf : h4.h = some true ∨ h4.h = some false)
    (hheld2 : h4.h = some true → h4.t.isSome = true)
    (hlock : ∀ tk, h4.t = some tk →
      (∃ dd, h4.d = some dd ∧ (dd < 0 → h4.e = some 0)) ∧
      h4.e.isSome = true ∧ h4.o.isSome = true ∧ h4.z.isSome = true)
    {exp2 : List (Path × Int)} (hnd2 : noDupKeys exp2)
    (hexp_ne : ∀ q, q ≠ name → alGet exp2 q = alGet st.expiry q)
    (hsound : ∀ sc, alGet exp2 name = some sc → h4.t.isSome = true ∧
      h4.h = some false ∧ (∃ dd, h4.d = some dd ∧ 0 ≤ dd) ∧ h4.e = some sc)
    (hcompl : h4.t.isSome = true → h4.h = some false → ∀ dd, h4.d = some dd →
      0 ≤ dd → alGet exp2 name = h4.e) :
    Inv { st with nodes := alSet st.nodes name h4, expiry := exp2 } := by
  have hnd := hInv.nodesNodup
  set st' : Store := { st with nodes := alSet st.nodes name h4, expiry := exp2 }
    with hst'
  have hget' : ∀ q, alGet st'.nodes q =
      (if q = name then some h4 else alGet st.nodes q) := by
    intro q
    by_cases hq : q = name
    · rw [if_pos hq, hq]
      exact alGet_alSet_self _ _ _
    · rw [if_neg hq]
      exact alGet_alSet_ne st.nodes _ hq
  have hcnt : ∀ p, lockedCount st' p = lockedCount st p := by
    intro p
    have h1 := countP_alSet_present hnd hget h4 (beneathLocked p)
    have h2 : beneathLocked p (name, h4) = beneathLocked p (name, hsh) := by
      simp [beneathLocked, ht]
    rw [h2] at h1
    rw [lockedCount_eq_countP, lockedCount_eq_countP]
    show (alSet st.nodes name h4).countP (beneathLocked p) =
      st.nodes.countP (beneathLocked p)
    omega
  refine ⟨alSet_noDupKeys hnd _ _, hInv.tokensNodup, hnd2, ?_, ?_, ?_, ?_, ?_, ?_,
    ?_, ?_, ?_, ?_⟩
  · intro q h hq'
    rw [hget' q] at hq'
    by_cases hq : q = name
    · rw [hq]
      exact hInv.clean name hsh hget
    · rw [if_neg hq] at hq'
      exact hInv.clean q h hq'
  · intro q h hq'
    rw [hget' q] at hq'
    by_cases hq : q = name
    · rw [if_pos hq] at hq'
      obtain rfl := Option.some.inj hq'
      have hb := hInv.base name hsh hget
      rw [hq]
      exact ⟨by rw [hn]; exact hb.1, by rw [hr]; exact hb.2.1, hhf⟩
    · rw [if_neg hq] at hq'
      exact hInv.base q h hq'
  · intro q h hq'
    rw [hget' q] at hq'
    rw [hcnt q]
    by_cases hq : q = name
    · rw [if_pos hq] at hq'
      obtain rfl := Option.some.inj hq'
      rw [hc, hq]
      exact hInv.count name hsh hget
    · rw [if_neg hq] at hq'
      exact hInv.count q h hq'
  · intro q h hq'
    rw [hget' q] at hq'
    rw [hcnt q]
    by_cases hq : q = name
    · rw [hq]
      exact hInv.countPos name hsh hget
    · rw [if_neg hq] at hq'
      exact hInv.countPos q h hq'
  · intro q h hq' a ha
    have hsome : (alGet st.nodes q).isSome = true := by
      rw [hget' q] at hq'
      by_cases hq : q = name
      · rw [hq, hget]
        rfl
      · rw [if_neg hq] at hq'
        rw [hq']
        rfl
    obtain ⟨hq0, hg0⟩ := Option.isSome_iff_exists.mp hsome
    have h1 := hInv.closed q hq0 hg0 a ha
    rw [hget' a]
    by_cases ha2 : a = name
    · rw [if_pos ha2]
      rfl
    · rw [if_neg ha2]
      exact h1
  · intro q h tk hq' ht2
    rw [hget' q] at hq'
    by_cases hq : q = name
    · rw [if_pos hq] at hq'
      obtain rfl := Option.some.inj hq'
      have ht0 : hsh.t = some tk := by
        rw [← ht]
        exact ht2
      have hL := hInv.lockedOk name hsh tk hget ht0
      have hX := hlock tk ht2
      refine ⟨hX.1, hX.2.1, hX.2.2.1, hX.2.2.2, ?_, hL.2.2.2.2.2.1, hL.2.2.2.2.2.2⟩
      show alGet st.tokens tk = some q
      rw [hq]
      exact hL.2.2.2.2.1
    · rw [if_neg hq] at hq'
      exact hInv.lockedOk q h tk hq' ht2
  · intro q h hq' hh2
    rw [hget' q] at hq'
    by_cases hq : q = name
    · rw [if_pos hq] at hq'
      obtain rfl := Option.some.inj hq'
      exact hheld2 hh2
    · rw [if_neg hq] at hq'
      exact hInv.heldLocked q h hq' hh2
  · intro tk p htp
    obtain ⟨hp, hgp, hpt⟩ := hInv.tokensBack tk p htp
    rw [hget' p]
    by_cases hq : p = name
    · rw [if_pos hq]
      refine ⟨h4, rfl, ?_⟩
      rw [ht]
      rw [hq] at hgp
      rw [hget] at hgp
      rw [Option.some.inj hgp]
      exact hpt
    · rw [if_neg hq]
      exact ⟨hp, hgp, hpt⟩
  · intro q sc hsc
    rw [hget' q]
    by_cases hq : q = name
    · rw [hq] at hsc
      have hS := hsound sc hsc
      rw [if_pos hq]
      exact ⟨h4, rfl, hS.1, hS.2.1, hS.2.2.1, hS.2.2.2⟩
    · rw [hexp_ne q hq] at hsc
      obtain ⟨hq0, hg0, ra, rb, rc, rd⟩ := hInv.zsetSound q sc hsc
      rw [if_neg hq]
      exact ⟨hq0, hg0, ra, rb, rc, rd⟩
  · intro q h hq' ht2 hh2 dd2 hd2 hdd0
    rw [hget' q] at hq'
    by_cases hq : q = name
    · rw [if_pos hq] at hq'
      obtain rfl := Option.some.inj hq'
      show alGet exp2 q = h4.e
      rw [hq]
      exact hcompl ht2 hh2 dd2 hd2 hdd0
    · rw [if_neg hq] at hq'
      show alGet exp2 q = h.e
      rw [hexp_ne q hq]
      exact hInv.zsetComplete q h hq' ht2 hh2 dd2 hd2 hdd0

/-- effect of the Lua `hold` on a consistent store, at a lock root that is
not yet held (exactly how `confirm` calls it). -/
theorem hold_ok {st : Store} (hInv : Inv st) {name : Path} {hsh : NodeHash}
    (hget : alGet st.nodes name = some hsh) (hh : hsh.h = some false)
    (htI : hsh.t.isSome = true) {dd : Int} (hd : hsh.d = some dd) :
    ∃ st', hold st name (some dd) = .ok st' ∧ Inv st' ∧
      st'.nodes = alSet st.nodes name { hsh with h := some true } ∧
      st'.tokens = st.tokens ∧
      st'.expiry = (if 0 ≤ dd then alDel st.expiry name else st.expiry) ∧
      st'.nextToken = st.nextToken := by
  obtain ⟨tk, htok⟩ := Option.isSome_iff_exists.mp htI
  have hL := hInv.lockedOk name hsh tk hget htok
  have hsetEq : hsetHeld st.nodes name true =
      alSet st.nodes name { hsh with h := some true } := by
    unfold hsetHeld
    rw [hget, Option.getD_some]
  have hcond : ¬ ((alGet st.nodes name).bind NodeHash.h = some true) := by
    rw [hget]
    show ¬ hsh.h = some true
    rw [hh]
    simp
  have hrun : hold st name (some dd) = .ok (if 0 ≤ dd then
      { st with
          nodes := alSet st.nodes name { hsh with h := some true },
          expiry := alDel st.expiry name }
      else { st with nodes := alSet st.nodes name { hsh with h := some true } }) := by
    have h1 : hold st name (some dd) = (if 0 ≤ dd then
        pure { st with
            nodes := hsetHeld st.nodes name true,
            expiry := alDel st.expiry name }
        else pure { st with nodes := hsetHeld st.nodes name true }) := by
      unfold hold
      rw [if_neg hcond]
      rfl
    rw [h1, hsetEq]
    by_cases hdd : 0 ≤ dd
    · rw [if_pos hdd, if_pos hdd]
      rfl
    · rw [if_neg hdd, if_neg hdd]
      rfl
  have hlock2 : ∀ tk2, ({ hsh with h := some true } : NodeHash).t = some tk2 →
      (∃ dd2, ({ hsh with h := some true } : NodeHash).d = some dd2 ∧
        (dd2 < 0 → ({ hsh with h := some true } : NodeHash).e = some 0)) ∧
      ({ hsh with h := some true } : NodeHash).e.isSome = true ∧
      ({ hsh with h := some true } : NodeHash).o.isSome = true ∧
      ({ hsh with h := some true } : NodeHash).z.isSome = true := by
    intro tk2 ht2
    have ht0 : hsh.t = some tk2 := ht2
    have hL2 := hInv.lockedOk name hsh tk2 hget ht0
    exact ⟨hL2.1, hL2.2.1, hL2.2.2.1, hL2.2.2.2.1⟩
  have hInv' : Inv (if 0 ≤ dd then
      { st with
          nodes := alSet st.nodes name { hsh with h := some true },
          expiry := alDel st.expiry name }
      else { st with nodes := alSet st.nodes name { hsh with h := some true } }) := by
    by_cases hdd : 0 ≤ dd
    · rw [if_pos hdd]
      refine setNode_inv hInv hget ?_ ?_ ?_ ?_ ?_ ?_
        hlock2 (alDel_noDupKeys hInv.expiryNodup name)
        (fun q hq => alGet_alDel_ne st.expiry hq) (fun sc hsc => ?_) (fun _ habs => ?_)
      · rfl
      · rfl
      · rfl
      · rfl
      · exact Or.inl rfl
      · exact fun _ => htI
      · rw [alGet_alDel_self] at hsc
        cases hsc
      · exfalso
        have habs2 : (some true : Option Bool) = some false := habs
        cases habs2
    · rw [if_neg hdd]
      have hexp_same : ∀ q : Path, q ≠ name →
          alGet st.expiry q = alGet st.expiry q := fun q hq => rfl
      refine setNode_inv hInv hget ?_ ?_ ?_ ?_ ?_ ?_
        hlock2 hInv.expiryNodup hexp_same (fun sc hsc => ?_) (fun _ habs => ?_)
      · rfl
      · rfl
      · rfl
      · rfl
      · exact Or.inl rfl
      · exact fun _ => htI
      · exfalso
        obtain ⟨hsh2, hg2, _, _, ⟨dd2, hdd2, hdd20⟩, _⟩ := hInv.zsetSound name sc hsc
        rw [hget] at hg2
        obtain rfl := Option.some.inj hg2
        rw [hd] at hdd2
        obtain rfl := Option.some.inj hdd2
        omega
      · exfalso
        have habs2 : (some true : Option Bool) = some false := habs
        cases habs2
  refine ⟨_, hrun, hInv', ?_, ?_, ?_, ?_⟩ <;> by_cases hdd : 0 ≤ dd <;>
    first
    | simp only [if_pos hdd]
    | simp only [if_neg hdd]

/-- the empty store is consistent. -/
theorem Inv_empty : Inv emptyStore := by
  have hnone : ∀ q : Path, alGet emptyStore.nodes q = none := fun q => rfl
  have hnoneT : ∀ k : Nat, alGet emptyStore.tokens k = none := fun k => rfl
  have hnoneE : ∀ q : Path, alGet emptyStore.expiry q = none := fun q => rfl
  refine ⟨List.nodup_nil, List.nodup_nil, List.nodup_nil, ?_, ?_, ?_, ?_, ?_, ?_,
    ?_, ?_, ?_, ?_⟩
  · intro q h hq'
    rw [hnone q] at hq'
    cases hq'
  · intro q h hq'
    rw [hnone q] at hq'
    cases hq'
  · intro q h hq'
    rw [hnone q] at hq'
    cases hq'
  · intro q h hq'
    rw [hnone q] at hq'
    cases hq'
  · intro q h hq'
    rw [hnone q] at hq'
    cases hq'
  · intro q h tk hq'
    rw [hnone q] at hq'
    cases hq'
  · intro q h hq'
    rw [hnone q] at hq'
    cases hq'
  · intro tk p htp
    rw [hnoneT tk] at htp
    cases htp
  · intro q sc hsc
    rw [hnoneE q] at hsc
    cases hsc
  · intro q h hq'
    rw [hnone q] at hq'
    cases hq'

/-- full case analysis of the Lua `unlock` on a consistent store: the sweep
runs, the token either misses, hits a held lock, or the lock is removed. -/
theorem unlock_ok {st : Store} (hInv : Inv st) (now_sec : Int) (token : Nat) :
    ∃ st1, collect_expired_nodes st now_sec = .ok st1 ∧ Inv st1 ∧
      ((alGet st1.tokens token = none ∧
        unlock st now_sec token = .ok (some .noSuchLock, st1)) ∨
       (∃ name hsh, alGet st1.tokens token = some name ∧
         alGet st1.nodes name = some hsh ∧ hsh.t = some token ∧
         ((hsh.h = some true ∧ unlock st now_sec token = .ok (some .locked, st1)) ∨
          (hsh.h = some false ∧ ∃ st2, unlock st now_sec token = .ok (none, st2) ∧
            Inv st2 ∧ st2.nextToken = st1.nextToken ∧
            st2.tokens = alDel st1.tokens token ∧
            st2.expiry = alDel st1.expiry name ∧
            (∀ q, q ∉ pathChain name → alGet st2.nodes q = alGet st1.nodes q) ∧
            (∀ q, q ∈ pathChain name → alGet st2.nodes q =
              (if lockedCount st1 q = 1 then none
               else some (decHash (if q = name then { hsh with t := none }
                                   else (alGet st1.nodes q).getD {})))))))) := by
  obtain ⟨st1, hsweep, hInv1, _, _, _, _, _, _⟩ := collect_expired_nodes_ok hInv now_sec
  have hstep : unlock st now_sec token = (match alGet st1.tokens token with
    | none => pure (some .noSuchLock, st1)
    | some name =>
      let node := alGet st1.nodes name
      let held := node.bind NodeHash.h = some true
      if held then pure (some .locked, st1)
      else do
        let st2 ← remove st1 name (node.bind NodeHash.r) (some token)
          (node.bind NodeHash.d)
        pure (none, st2)) := by
    unfold unlock
    rw [hsweep]
    rfl
  refine ⟨st1, hsweep, hInv1, ?_⟩
  cases hcase : alGet st1.tokens token with
  | none =>
    left
    refine ⟨rfl, ?_⟩
    rw [hstep, hcase]
    rfl
  | some name =>
    right
    obtain ⟨hsh, hget, htok⟩ := hInv1.tokensBack token name hcase
    refine ⟨name, hsh, rfl, hget, htok, ?_⟩
    rcases (hInv1.base name hsh hget).2.2 with hT | hF
    · left
      refine ⟨hT, ?_⟩
      rw [hstep, hcase]
      show (if (alGet st1.nodes name).bind NodeHash.h = some true
          then (pure (some LockErr.locked, st1) : Except String (Option LockErr × Store))
          else do
            let stx ← remove st1 name ((alGet st1.nodes name).bind NodeHash.r)
              (some token) ((alGet st1.nodes name).bind NodeHash.d)
            pure (none, stx)) = .ok (some .locked, st1)
      have hcond : (alGet st1.nodes name).bind NodeHash.h = some true := by
        rw [hget]
        exact hT
      rw [if_pos hcond]
      rfl
    · right
      refine ⟨hF, ?_⟩
      obtain ⟨⟨dd, hd, _⟩, _, _, _, _, _, _⟩ := hInv1.lockedOk name hsh token hget htok
      obtain ⟨st2, hrem, hInv2, hNxt2, hTok2, hExp2, hout2, hin2, _⟩ :=
        remove_effect hInv1 hget htok hF hd
      refine ⟨st2, ?_, hInv2, hNxt2, hTok2, hExp2, hout2, hin2⟩
      rw [hstep, hcase]
      show (if (alGet st1.nodes name).bind NodeHash.h = some true
          then (pure (some LockErr.locked, st1) : Except String (Option LockErr × Store))
          else do
            let stx ← remove st1 name ((alGet st1.nodes name).bind NodeHash.r)
              (some token) ((alGet st1.nodes name).bind NodeHash.d)
            pure (none, stx)) = .ok (none, st2)
      have hcond : ¬ ((alGet st1.nodes name).bind NodeHash.h = some true) := by
        rw [hget]
        show ¬ (hsh.h = some true)
        rw [hF]
        simp
      rw [if_neg hcond, hget]
      show (do
        let stx ← remove st1 name hsh.r (some token) hsh.d
        pure (none, stx) : Except String (Option LockErr × Store)) = .ok (none, st2)
      rw [(hInv1.base name hsh hget).2.1, hd, hrem]
      rfl

/-- the store the refresh script writes back for a resolved, unheld lock
with old duration `od` and requested new duration `nd`: `ZREM` iff
`0 ≤ od`, `ZADD now+nd` iff `0 ≤ nd`, then `HMSET d e`. -/
def refreshedStore (st1 : Store) (name : Path) (hsh : NodeHash)
    (od nd now_sec : Int) : Store :=
  let st2 := if 0 ≤ od then { st1 with expiry := alDel st1.expiry name } else st1
  let new_expiry_sec := if 0 ≤ nd then now_sec + nd else 0
  let st3 :=
    if 0 ≤ nd then { st2 with expiry := alSet st2.expiry name new_expiry_sec }
    else st2
  { st3 with
      nodes := alSet st3.nodes name
        { hsh with d := some nd, e := some new_expiry_sec } }

theorem refreshedStore_eq (st1 : Store) (name : Path) (hsh : NodeHash)
    (od nd now_sec : Int) :
    refreshedStore st1 name hsh od nd now_sec =
      { st1 with
          nodes := alSet st1.nodes name
            { hsh with d := some nd, e := some (if 0 ≤ nd then now_sec + nd else 0) },
          expiry :=
            (if 0 ≤ nd then
              alSet (if 0 ≤ od then alDel st1.expiry name else st1.expiry) name
                (now_sec + nd)
            else (if 0 ≤ od then alDel st1.expiry name else st1.expiry)) } := by
  unfold refreshedStore
  by_cases hod : 0 ≤ od <;> by_cases hndc : 0 ≤ nd
  · simp only [if_pos hod, if_pos hndc]
  · simp only [if_pos hod, if_neg hndc]
  · simp only [if_neg hod, if_pos hndc]
  · simp only [if_neg hod, if_neg hndc]

/-- full case analysis of the Lua `refresh` on a consistent store. -/
theorem refresh_ok {st : Store} (hInv : Inv st) (now_sec : Int) (token : Nat)
    (nd : Int) :
    ∃ st1, collect_expired_nodes st now_sec = .ok st1 ∧ Inv st1 ∧
      ((alGet st1.tokens token = none ∧
        refresh st now_sec token nd = .ok (.inl .noSuchLock, st1)) ∨
       (∃ name hsh, alGet st1.tokens token = some name ∧
         alGet st1.nodes name = some hsh ∧ hsh.t = some token ∧
         ((hsh.h = some true ∧
            refresh st now_sec token nd = .ok (.inl .locked, st1)) ∨
          (hsh.h = some false ∧ ∃ od, hsh.d = some od ∧
            refresh st now_sec token nd =
              .ok (.inr ⟨hsh.r, nd, hsh.o, hsh.z⟩,
                refreshedStore st1 name hsh od nd now_sec) ∧
            Inv (refreshedStore st1 name hsh od nd now_sec))))) := by
  obtain ⟨st1, hsweep, hInv1, _, _, _, _, _, _⟩ := collect_expired_nodes_ok hInv now_sec
  have hstep : refresh st now_sec token nd = (match alGet st1.tokens token with
    | none => pure (.inl .noSuchLock, st1)
    | some name =>
      let node := alGet st1.nodes name
      let held := node.bind NodeHash.h = some true
      if held then pure (.inl .locked, st1)
      else do
        let od ← expectVal (node.bind NodeHash.d)
        let st2 := if 0 ≤ od then { st1 with expiry := alDel st1.expiry name } else st1
        let new_expiry_sec := if 0 ≤ nd then now_sec + nd else 0
        let st3 :=
          if 0 ≤ nd then
            { st2 with expiry := alSet st2.expiry name new_expiry_sec }
          else st2
        let hsh4 : NodeHash := { (alGet st3.nodes name).getD {} with
            d := some nd, e := some new_expiry_sec }
        let st4 := { st3 with nodes := alSet st3.nodes name hsh4 }
        pure (.inr ⟨node.bind NodeHash.r, nd, node.bind NodeHash.o,
          node.bind NodeHash.z⟩, st4)) := by
    unfold refresh
    rw [hsweep]
    rfl
  refine ⟨st1, hsweep, hInv1, ?_⟩
  cases hcase : alGet st1.tokens token with
  | none =>
    left
    refine ⟨rfl, ?_⟩
    rw [hstep, hcase]
    rfl
  | some name =>
    right
    obtain ⟨hsh, hget, htok⟩ := hInv1.tokensBack token name hcase
    have htI : hsh.t.isSome = true := by
      rw [htok]
      rfl
    refine ⟨name, hsh, rfl, hget, htok, ?_⟩
    rcases (hInv1.base name hsh hget).2.2 with hT | hF
    · left
      refine ⟨hT, ?_⟩
      rw [hstep, hcase]
      show (if (alGet st1.nodes name).bind NodeHash.h = some true
          then (pure (.inl .locked, st1) :
            Except String (Sum LockErr RefreshReply × Store))
          else _) = .ok (.inl .locked, st1)
      have hcond : (alGet st1.nodes name).bind NodeHash.h = some true := by
        rw [hget]
        exact hT
      rw [if_pos hcond]
      rfl
    · right
      obtain ⟨⟨od, hd, _⟩, _, _, _, _, _, _⟩ := hInv1.lockedOk name hsh token hget htok
      refine ⟨hF, od, hd, ?_, ?_⟩
      · rw [hstep, hcase]
        show (if (alGet st1.nodes name).bind NodeHash.h = some true
            then (pure (.inl .locked, st1) :
              Except String (Sum LockErr RefreshReply × Store))
            else do
              let od2 ← expectVal ((alGet st1.nodes name).bind NodeHash.d)
              let st2 := if 0 ≤ od2 then { st1 with expiry := alDel st1.expiry name }
                else st1
              let new_expiry_sec := if 0 ≤ nd then now_sec + nd else 0
              let st3 :=
                if 0 ≤ nd then
                  { st2 with expiry := alSet st2.expiry name new_expiry_sec }
                else st2
              let hsh4 : NodeHash := { (alGet st3.nodes name).getD {} with
                  d := some nd, e := some new_expiry_sec }
              let st4 := { st3 with nodes := alSet st3.nodes name hsh4 }
              pure (.inr ⟨(alGet st1.nodes name).bind NodeHash.r, nd,
                (alGet st1.nodes name).bind NodeHash.o,
                (alGet st1.nodes name).bind NodeHash.z⟩, st4)) =
          .ok (.inr ⟨hsh.r, nd, hsh.o, hsh.z⟩, refreshedStore st1 name hsh od nd now_sec)
        have hcond : ¬ ((alGet st1.nodes name).bind NodeHash.h = some true) := by
          rw [hget]
          show ¬ (hsh.h = some true)
          rw [hF]
          simp
        rw [if_neg hcond, hget]
        show (do
            let od2 ← expectVal hsh.d
            let st2 := if 0 ≤ od2 then { st1 with expiry := alDel st1.expiry name }
              else st1
            let new_expiry_sec := if 0 ≤ nd then now_sec + nd else 0
            let st3 :=
              if 0 ≤ nd then
                { st2 with expiry := alSet st2.expiry name new_expiry_sec }
              else st2
            let hsh4 : NodeHash := { (alGet st3.nodes name).getD {} with
                d := some nd, e := some new_expiry_sec }
            let st4 := { st3 with nodes := alSet st3.nodes name hsh4 }
            pure (.inr ⟨hsh.r, nd, hsh.o, hsh.z⟩, st4) :
              Except String (Sum LockErr RefreshReply × Store)) =
          .ok (.inr ⟨hsh.r, nd, hsh.o, hsh.z⟩, refreshedStore st1 name hsh od nd now_sec)
        rw [hd]
        show (let st2 := if 0 ≤ od then { st1 with expiry := alDel st1.expiry name }
            else st1
          let new_expiry_sec := if 0 ≤ nd then now_sec + nd else 0
          let st3 :=
            if 0 ≤ nd then
              { st2 with expiry := alSet st2.expiry name new_expiry_sec }
            else st2
          let hsh4 : NodeHash := { (alGet st3.nodes name).getD {} with
              d := some nd, e := some new_expiry_sec }
          let st4 := { st3 with nodes := alSet st3.nodes name hsh4 }
          (pure (.inr ⟨hsh.r, nd, hsh.o, hsh.z⟩, st4) :
            Except String (Sum LockErr RefreshReply × Store))) =
          .ok (.inr ⟨hsh.r, nd, hsh.o, hsh.z⟩, refreshedStore st1 name hsh od nd now_sec)
        by_cases hod : 0 ≤ od <;> by_cases hndc : 0 ≤ nd
        · simp only [refreshedStore, if_pos hod, if_pos hndc, hget, Option.getD_some]
          rfl
        · simp only [refreshedStore, if_pos hod, if_neg hndc, hget, Option.getD_some]
          rfl
        · simp only [refreshedStore, if_neg hod, if_pos hndc, hget, Option.getD_some]
          rfl
        · simp only [refreshedStore, if_neg hod, if_neg hndc, hget, Option.getD_some]
          rfl
      · rw [refreshedStore_eq]
        refine setNode_inv hInv1 hget ?_ ?_ ?_ ?_ ?_ ?_ ?_ ?_ ?_ ?_ ?_
        · rfl
        · rfl
        · rfl
        · rfl
        · exact Or.inr hF
        · intro _
          exact htI
        · intro tk2 ht2
          have hL2 := hInv1.lockedOk name hsh tk2 hget ht2
          refine ⟨⟨nd, rfl, fun hneg => ?_⟩, ?_, hL2.2.2.1, hL2.2.2.2.1⟩
          · show some (if 0 ≤ nd then now_sec + nd else 0) = some 0
            rw [if_neg (by omega)]
          · rfl
        · by_cases hndc : 0 ≤ nd
          · rw [if_pos hndc]
            by_cases hod2 : 0 ≤ od
            · rw [if_pos hod2]
              exact alSet_noDupKeys (alDel_noDupKeys hInv1.expiryNodup name) _ _
            · rw [if_neg hod2]
              exact alSet_noDupKeys hInv1.expiryNodup _ _
          · rw [if_neg hndc]
            by_cases hod2 : 0 ≤ od
            · rw [if_pos hod2]
              exact alDel_noDupKeys hInv1.expiryNodup name
            · rw [if_neg hod2]
              exact hInv1.expiryNodup
        · intro q hq
          by_cases hndc : 0 ≤ nd
          · rw [if_pos hndc, alGet_alSet_ne _ _ hq]
            by_cases hod2 : 0 ≤ od
            · rw [if_pos hod2]
              exact alGet_alDel_ne st1.expiry hq
            · rw [if_neg hod2]
          · rw [if_neg hndc]
            by_cases hod2 : 0 ≤ od
            · rw [if_pos hod2]
              exact alGet_alDel_ne st1.expiry hq
            · rw [if_neg hod2]
        · intro sc hsc
          by_cases hndc : 0 ≤ nd
          · rw [if_pos hndc, alGet_alSet_self] at hsc
            refine ⟨htI, hF, ⟨nd, rfl, hndc⟩, ?_⟩
            show some (if 0 ≤ nd then now_sec + nd else 0) = some sc
            rw [if_pos hndc]
            exact hsc
          · exfalso
            rw [if_neg hndc] at hsc
            by_cases hod2 : 0 ≤ od
            · rw [if_pos hod2, alGet_alDel_self] at hsc
              cases hsc
            · rw [if_neg hod2] at hsc
              obtain ⟨hsh2, hg2, _, _, ⟨dd2, hdd2, hdd20⟩, _⟩ :=
                hInv1.zsetSound name sc hsc
              rw [hget] at hg2
              obtain rfl := Option.some.inj hg2
              rw [hd] at hdd2
              obtain rfl := Option.some.inj hdd2
              omega
        · intro _ _ dd2 hdd2 hdd20
          have hdd2b : some nd = some dd2 := hdd2
          have hnd2 : dd2 = nd := (Option.some.inj hdd2b).symm
          have hndc : 0 ≤ nd := by omega
          rw [if_pos hndc, alGet_alSet_self]
          show some (now_sec + nd) = some (if 0 ≤ nd then now_sec + nd else 0)
          rw [if_pos hndc]

/-- full case analysis of the Lua `create` on a consistent store with a
canonical root: the sweep runs, then either the conflict check rejects or a
fresh token locks the root. -/
theorem create_ok {st : Store} (hInv : Inv st) (now_sec : Int) {root : Path}
    (hclean : CleanName root = true) (d : Int) (iz : Bool) (o : String) :
    ∃ st1, collect_expired_nodes st now_sec = .ok st1 ∧ Inv st1 ∧
      ((can_create st1 root iz = false ∧
        create st now_sec root d iz o = .ok (.inl .locked, st1)) ∨
       (can_create st1 root iz = true ∧ ∃ st2,
         create st now_sec root d iz o = .ok (.inr (st1.nextToken + 1), st2) ∧
         Inv st2 ∧
         st2.nextToken = st1.nextToken + 1 ∧
         st2.tokens = alSet st1.tokens (st1.nextToken + 1) root ∧
         st2.expiry = (if 0 ≤ d then alSet st1.expiry root (now_sec + d)
           else st1.expiry) ∧
         alGet st2.nodes root =
           some (lockHash now_sec d iz o (st1.nextToken + 1) root
             ((alGet st1.nodes root).getD {})) ∧
         (∀ q, q ∈ pathChain root → q ≠ root →
           alGet st2.nodes q = some (bumpHash q ((alGet st1.nodes q).getD {}))) ∧
         (∀ q, q ∉ pathChain root → alGet st2.nodes q = alGet st1.nodes q) ∧
         (∀ p, lockedCount st2 p =
           lockedCount st1 p + (if isBeneath root p then 1 else 0)) ∧
         (∀ q hq0, alGet st1.nodes q = some hq0 → q ≠ root →
           ∃ h2, alGet st2.nodes q = some h2 ∧ h2.t = hq0.t ∧ h2.h = hq0.h ∧
             h2.d = hq0.d ∧ h2.o = hq0.o ∧ h2.z = hq0.z ∧ h2.e = hq0.e ∧
             h2.n = hq0.n ∧ h2.r = hq0.r))) := by
  obtain ⟨st1, hsweep, hInv1, _, _, _, _, _, _⟩ := collect_expired_nodes_ok hInv now_sec
  have hstep : create st now_sec root d iz o =
      (if ¬ can_create st1 root iz then pure (.inl .locked, st1)
       else
        let res := create_token st1 now_sec root d iz o
        pure (.inr res.1, res.2)) := by
    unfold create
    rw [hsweep]
    rfl
  refine ⟨st1, hsweep, hInv1, ?_⟩
  cases hcc : can_create st1 root iz with
  | false =>
    left
    refine ⟨rfl, ?_⟩
    rw [hstep, if_pos (by rw [hcc]; simp)]
    rfl
  | true =>
    right
    obtain ⟨st2, hrunT, hInv2, hNxt2, hTok2, hExp2, hroot2, hin2, hout2, hcnt2, hsurv2⟩ :=
      create_token_effect hInv1 hclean hcc now_sec d o
    refine ⟨rfl, st2, ?_, hInv2, hNxt2, hTok2, hExp2, hroot2, hin2, hout2, hcnt2, hsurv2⟩
    rw [hstep, if_neg (by rw [hcc]; simp), hrunT]
    rfl

/-- the match test of the Lua lookup (LookupFunc) as a boolean: a candidate
token matches `lookup_name` when it resolves to a non-held node whose root
equals the name, or (for an infinite-depth lock) is `"/"` or a proper prefix
of the name followed by a slash. -/
def tokenMatches (st : Store) (lookup_name : Path) (token : Nat) : Bool :=
  match alGet st.tokens token with
  | none => false
  | some name =>
    let node := alGet st.nodes name
    let root := node.bind NodeHash.r
    let is_zero_depth := node.bind NodeHash.z = some true
    let held := node.bind NodeHash.h = some true
    if held then false
    else if root = some lookup_name then true
    else if is_zero_depth then false
    else
      match root with
      | none => false
      | some r => if r = ['/'] ∨ (r ++ ['/']).isPrefixOf lookup_name then true else false

/-- `lookup_token` never raises on a consistent store; it returns a match
exactly when `tokenMatches`, and any match is a non-held lock root with its
stored duration. -/
theorem lookup_token_ok {st : Store} (hInv : Inv st) (nm : Path) (tk : Nat) :
    ∃ r, lookup_token st nm tk = .ok r ∧ r.isSome = tokenMatches st nm tk ∧
      (∀ p dur, r = some (p, dur) → ∃ hsh, alGet st.nodes p = some hsh ∧
        hsh.h = some false ∧ hsh.t.isSome = true ∧ hsh.d = dur ∧ hsh.r = some p) := by
  cases hcase : alGet st.tokens tk with
  | none =>
    refine ⟨none, ?_, ?_, ?_⟩
    · unfold lookup_token
      rw [hcase]
      rfl
    · unfold tokenMatches
      rw [hcase]
      rfl
    · intro p dur h
      cases h
  | some name =>
    obtain ⟨hsh, hget, htok⟩ := hInv.tokensBack tk name hcase
    have htI : hsh.t.isSome = true := by
      rw [htok]
      rfl
    have hr : hsh.r = some name := (hInv.base name hsh hget).2.1
    have hrun0 : lookup_token st nm tk = (
        let node := alGet st.nodes name
        let root := node.bind NodeHash.r
        let duration_sec := node.bind NodeHash.d
        let is_zero_depth := node.bind NodeHash.z = some true
        let held := node.bind NodeHash.h = some true
        if held then pure none
        else if root = some nm then pure (some (nm, duration_sec))
        else if is_zero_depth then pure none
        else
          match root with
          | none => throw "lua runtime error: nil value"
          | some r =>
            if r = ['/'] ∨ (r ++ ['/']).isPrefixOf nm then pure (some (r, duration_sec))
            else pure none) := by
      unfold lookup_token
      rw [hcase]
    have hmatch0 : tokenMatches st nm tk = (
        let node := alGet st.nodes name
        let root := node.bind NodeHash.r
        let is_zero_depth := node.bind NodeHash.z = some true
        let held := node.bind NodeHash.h = some true
        if held then false
        else if root = some nm then true
        else if is_zero_depth then false
        else
          match root with
          | none => false
          | some r =>
            if r = ['/'] ∨ (r ++ ['/']).isPrefixOf nm then true else false) := by
      unfold tokenMatches
      rw [hcase]
    rcases (hInv.base name hsh hget).2.2 with hT | hF
    · have hcond : (alGet st.nodes name).bind NodeHash.h = some true := by
        rw [hget]
        exact hT
      refine ⟨none, ?_, ?_, ?_⟩
      · rw [hrun0]
        show (if (alGet st.nodes name).bind NodeHash.h = some true then pure none
          else _) = .ok none
        rw [if_pos hcond]
        rfl
      · rw [hmatch0]
        show false = (if (alGet st.nodes name).bind NodeHash.h = some true
          then false else _)
        rw [if_pos hcond]
      · intro p dur h
        cases h
    · have hcond : ¬ ((alGet st.nodes name).bind NodeHash.h = some true) := by
        rw [hget]
        show ¬ (hsh.h = some true)
        rw [hF]
        simp
      by_cases hroot : (alGet st.nodes name).bind NodeHash.r = some nm
      · have hnmname : name = nm := by
          rw [hget] at hroot
          have hroot2 : hsh.r = some nm := hroot
          rw [hr] at hroot2
          exact Option.some.inj hroot2
        refine ⟨some (nm, (alGet st.nodes name).bind NodeHash.d), ?_, ?_, ?_⟩
        · rw [hrun0]
          show (if (alGet st.nodes name).bind NodeHash.h = some true then pure none
            else if (alGet st.nodes name).bind NodeHash.r = some nm then
              pure (some (nm, (alGet st.nodes name).bind NodeHash.d))
            else _) = _
          rw [if_neg hcond, if_pos hroot]
          rfl
        · rw [hmatch0]
          show (some (nm, (alGet st.nodes name).bind NodeHash.d)).isSome =
            (if (alGet st.nodes name).bind NodeHash.h = some true then false
             else if (alGet st.nodes name).bind NodeHash.r = some nm then true
             else _)
          rw [if_neg hcond, if_pos hroot]
          rfl
        · intro p dur h
          obtain ⟨h1, h2⟩ := Prod.mk.injEq .. ▸ Option.some.inj h
          refine ⟨hsh, ?_, hF, htI, ?_, ?_⟩
          · rw [← h1, ← hnmname]
            exact hget
          · rw [← h2, hget]
            rfl
          · rw [← h1, ← hnmname]
            exact hr
      · by_cases hzd : (alGet st.nodes name).bind NodeHash.z = some true
        · refine ⟨none, ?_, ?_, ?_⟩
          · rw [hrun0]
            show (if (alGet st.nodes name).bind NodeHash.h = some true then pure none
              else if (alGet st.nodes name).bind NodeHash.r = some nm then
                pure (some (nm, (alGet st.nodes name).bind NodeHash.d))
              else if (alGet st.nodes name).bind NodeHash.z = some true then pure none
              else _) = _
            rw [if_neg hcond, if_neg hroot, if_pos hzd]
            rfl
          · rw [hmatch0]
            show (none : Option (Path × Option Int)).isSome =
              (if (alGet st.nodes name).bind NodeHash.h = some true then false
               else if (alGet st.nodes name).bind NodeHash.r = some nm then true
               else if (alGet st.nodes name).bind NodeHash.z = some true then false
               else _)
            rw [if_neg hcond, if_neg hroot, if_pos hzd]
            rfl
          · intro p dur h
            cases h
        · have hrw : (alGet st.nodes name).bind NodeHash.r = some name := by
            rw [hget]
            exact hr
          by_cases hpre : name = ['/'] ∨ (name ++ ['/']).isPrefixOf nm
          · refine ⟨some (name, (alGet st.nodes name).bind NodeHash.d), ?_, ?_, ?_⟩
            · rw [hrun0]
              show (if (alGet st.nodes name).bind NodeHash.h = some true then pure none
                else if (alGet st.nodes name).bind NodeHash.r = some nm then
                  pure (some (nm, (alGet st.nodes name).bind NodeHash.d))
                else if (alGet st.nodes name).bind NodeHash.z = some true then pure none
                else
                  match (alGet st.nodes name).bind NodeHash.r with
                  | none => throw "lua runtime error: nil value"
                  | some r =>
                    if r = ['/'] ∨ (r ++ ['/']).isPrefixOf nm then
                      pure (some (r, (alGet st.nodes name).bind NodeHash.d))
                    else pure none) = _
              rw [if_neg hcond, if_neg hroot, if_neg hzd, hrw]
              show (if name = ['/'] ∨ (name ++ ['/']).isPrefixOf nm then
                  pure (some (name, (alGet st.nodes name).bind NodeHash.d))
                else pure none : Except String (Option (Path × Option Int))) = _
              rw [if_pos hpre]
              rfl
            · rw [hmatch0]
              show (some (name, (alGet st.nodes name).bind NodeHash.d)).isSome =
                (if (alGet st.nodes name).bind NodeHash.h = some true then false
                 else if (alGet st.nodes name).bind NodeHash.r = some nm then true
                 else if (alGet st.nodes name).bind NodeHash.z = some true then false
                 else
                  match (alGet st.nodes name).bind NodeHash.r with
                  | none => false
                  | some r =>
                    if r = ['/'] ∨ (r ++ ['/']).isPrefixOf nm then true else false)
              rw [if_neg hcond, if_neg hroot, if_neg hzd, hrw]
              show (some (name, (alGet st.nodes name).bind NodeHash.d)).isSome =
                (if name = ['/'] ∨ (name ++ ['/']).isPrefixOf nm then true else false)
              rw [if_pos hpre]
              rfl
            · intro p dur h
              obtain ⟨h1, h2⟩ := Prod.mk.injEq .. ▸ Option.some.inj h
              refine ⟨hsh, ?_, hF, htI, ?_, ?_⟩
              · rw [← h1]
                exact hget
              · rw [← h2, hget]
                rfl
              · rw [← h1]
                exact hr
          · refine ⟨none, ?_, ?_, ?_⟩
            · rw [hrun0]
              show (if (alGet st.nodes name).bind NodeHash.h = some true then pure none
                else if (alGet st.nodes name).bind NodeHash.r = some nm then
                  pure (some (nm, (alGet st.nodes name).bind NodeHash.d))
                else if (alGet st.nodes name).bind NodeHash.z = some true then pure none
                else
                  match (alGet st.nodes name).bind NodeHash.r with
                  | none => throw "lua runtime error: nil value"
                  | some r =>
                    if r = ['/'] ∨ (r ++ ['/']).isPrefixOf nm then
                      pure (some (r, (alGet st.nodes name).bind NodeHash.d))
                    else pure none) = _
              rw [if_neg hcond, if_neg hroot, if_neg hzd, hrw]
              show (if name = ['/'] ∨ (name ++ ['/']).isPrefixOf nm then
                  pure (some (name, (alGet st.nodes name).bind NodeHash.d))
                else pure none : Except String (Option (Path × Option Int))) = _
              rw [if_neg hpre]
              rfl
            · rw [hmatch0]
              show (none : Option (Path × Option Int)).isSome =
                (if (alGet st.nodes name).bind NodeHash.h = some true then false
                 else if (alGet st.nodes name).bind NodeHash.r = some nm then true
                 else if (alGet st.nodes name).bind NodeHash.z = some true then false
                 else
                  match (alGet st.nodes name).bind NodeHash.r with
                  | none => false
                  | some r =>
                    if r = ['/'] ∨ (r ++ ['/']).isPrefixOf nm then true else false)
              rw [if_neg hcond, if_neg hroot, if_neg hzd, hrw]
              show (none : Option (Path × Option Int)).isSome =
                (if name = ['/'] ∨ (name ++ ['/']).isPrefixOf nm then true else false)
              rw [if_neg hpre]
              rfl
            · intro p dur h
              cases h

/-- the Lua `lookup` over a candidate list on a consistent store: it never
raises, returns none exactly when no candidate matches, and any returned
match is a non-held lock root with its stored duration. -/
theorem lookup_ok {st : Store} (hInv : Inv st) (nm : Path) :
    ∀ toks, ∃ r, lookup st nm toks = .ok r ∧
      (r = none ↔ ∀ tk ∈ toks, tokenMatches st nm tk = false) ∧
      (∀ p dur, r = some (p, dur) → ∃ hsh, alGet st.nodes p = some hsh ∧
        hsh.h = some false ∧ hsh.t.isSome = true ∧ hsh.d = dur ∧ hsh.r = some p) := by
  intro toks
  induction toks with
  | nil =>
    refine ⟨none, rfl, ?_, ?_⟩
    · constructor
      · intro _ tk htk
        cases htk
      · intro _
        rfl
    · intro p dur h
      cases h
  | cons tk rest ih =>
    obtain ⟨r0, hrun0, hiso, hpost0⟩ := lookup_token_ok hInv nm tk
    obtain ⟨r, hrunR, hiffR, hpostR⟩ := ih
    cases hr0 : r0 with
    | some res =>
      refine ⟨some res, ?_, ?_, ?_⟩
      · show (do
          match ← lookup_token st nm tk with
          | some res2 => pure (some res2)
          | none => lookup st nm rest) = .ok (some res)
        rw [hrun0, hr0]
        rfl
      · constructor
        · intro habs
          cases habs
        · intro hall
          exfalso
          have h1 := hall tk (List.mem_cons_self tk rest)
          rw [hr0] at hiso
          rw [h1] at hiso
          cases hiso
      · intro p dur h
        refine hpost0 p dur ?_
        rw [hr0]
        exact h
    | none =>
      refine ⟨r, ?_, ?_, hpostR⟩
      · show (do
          match ← lookup_token st nm tk with
          | some res2 => pure (some res2)
          | none => lookup st nm rest) = .ok r
        rw [hrun0, hr0]
        show lookup st nm rest = .ok r
        exact hrunR
      · rw [hr0] at hiso
        constructor
        · intro hnone tk2 htk2
          rcases List.mem_cons.mp htk2 with he | hmem
          · rw [he]
            exact hiso.symm.trans rfl
          · exact (hiffR.mp hnone) tk2 hmem
        · intro hall
          refine hiffR.mpr ?_
          intro tk2 hm
          exact hall tk2 (List.mem_cons_of_mem tk hm)

/-- the hold phase of `confirm` on lookup results: it pins the matched roots
(deduplicating an identical pair) and keeps the store consistent. -/
theorem confirmHold_ok {st : Store} (hInv : Inv st)
    (n0 n1 : Option (Path × Option Int))
    (hp0 : ∀ p dur, n0 = some (p, dur) → ∃ hsh, alGet st.nodes p = some hsh ∧
      hsh.h = some false ∧ hsh.t.isSome = true ∧ hsh.d = dur ∧ hsh.r = some p)
    (hp1 : ∀ p dur, n1 = some (p, dur) → ∃ hsh, alGet st.nodes p = some hsh ∧
      hsh.h = some false ∧ hsh.t.isSome = true ∧ hsh.d = dur ∧ hsh.r = some p) :
    ∃ roots st', confirmHold st n0 n1 = .ok (.inr roots, st') ∧ Inv st' := by
  cases n0 with
  | none =>
    cases n1 with
    | none => exact ⟨([], []), st, rfl, hInv⟩
    | some nn1 =>
      obtain ⟨p1, dur1⟩ := nn1
      obtain ⟨hsh1, hg1, hh1, ht1, hd1, hr1⟩ := hp1 p1 dur1 rfl
      obtain ⟨tk1, htk1⟩ := Option.isSome_iff_exists.mp ht1
      obtain ⟨⟨dd1, hdd1, _⟩, _, _, _, _, _, _⟩ := hInv.lockedOk p1 hsh1 tk1 hg1 htk1
      obtain ⟨stH, hrunH, hInvH, _, _, _, _⟩ := hold_ok hInv hg1 hh1 ht1 hdd1
      refine ⟨([], p1), stH, ?_, hInvH⟩
      show (do
        let st2 ← hold st p1 dur1
        pure (.inr ([], p1), st2) :
          Except String (Sum LockErr (Path × Path) × Store)) = .ok (.inr ([], p1), stH)
      rw [show dur1 = some dd1 from hd1.symm.trans hdd1, hrunH]
      rfl
  | some nn0 =>
    obtain ⟨p0, dur0⟩ := nn0
    obtain ⟨hsh0, hg0, hh0, ht0, hd0, hr0⟩ := hp0 p0 dur0 rfl
    obtain ⟨tk0, htk0⟩ := Option.isSome_iff_exists.mp ht0
    obtain ⟨⟨dd0, hdd0, _⟩, _, _, _, _, _, _⟩ := hInv.lockedOk p0 hsh0 tk0 hg0 htk0
    obtain ⟨stH, hrunH, hInvH, hnodesH, _, _, _⟩ := hold_ok hInv hg0 hh0 ht0 hdd0
    cases n1 with
    | none =>
      refine ⟨(p0, []), stH, ?_, hInvH⟩
      show (do
        let st2 ← hold st p0 dur0
        pure (.inr (p0, []), st2) :
          Except String (Sum LockErr (Path × Path) × Store)) = .ok (.inr (p0, []), stH)
      rw [show dur0 = some dd0 from hd0.symm.trans hdd0, hrunH]
      rfl
    | some nn1 =>
      obtain ⟨p1, dur1⟩ := nn1
      by_cases heq : p0 = p1
      · have hcond : some (p0, dur0) ≠ none ∧ some (p1, dur1) ≠ none ∧
            (some (p0, dur0)).map Prod.fst = (some (p1, dur1)).map Prod.fst := by
          refine ⟨by simp, by simp, ?_⟩
          show some p0 = some p1
          rw [heq]
        refine ⟨(p0, []), stH, ?_, hInvH⟩
        show (do
          let st2 ← hold st p0 dur0
          match (if some (p0, dur0) ≠ none ∧ some (p1, dur1) ≠ none ∧
              (some (p0, dur0)).map Prod.fst = (some (p1, dur1)).map Prod.fst
            then (none : Option (Path × Option Int)) else some (p1, dur1)) with
          | some nn1 =>
            (do
              let st3 ← hold st2 nn1.1 nn1.2
              pure (Sum.inr (p0, nn1.1), st3) :
                Except String (Sum LockErr (Path × Path) × Store))
          | none => pure (Sum.inr (p0, []), st2)) = .ok (.inr (p0, []), stH)
        rw [if_pos hcond, show dur0 = some dd0 from hd0.symm.trans hdd0, hrunH]
        rfl
      · have hcond : ¬ (some (p0, dur0) ≠ none ∧ some (p1, dur1) ≠ none ∧
            (some (p0, dur0)).map Prod.fst = (some (p1, dur1)).map Prod.fst) := by
          intro ⟨_, _, habs⟩
          exact heq (Option.some.inj habs)
        obtain ⟨hsh1, hg1, hh1, ht1, hd1, hr1⟩ := hp1 p1 dur1 rfl
        obtain ⟨tk1, htk1⟩ := Option.isSome_iff_exists.mp ht1
        obtain ⟨⟨dd1, hdd1, _⟩, _, _, _, _, _, _⟩ := hInv.lockedOk p1 hsh1 tk1 hg1 htk1
        have hg1H : alGet stH.nodes p1 = some hsh1 := by
          rw [hnodesH, alGet_alSet_ne st.nodes _ (fun he => heq he.symm)]
          exact hg1
        obtain ⟨stH2, hrunH2, hInvH2, _, _, _, _⟩ := hold_ok hInvH hg1H hh1 ht1 hdd1
        refine ⟨(p0, p1), stH2, ?_, hInvH2⟩
        show (do
          let st2 ← hold st p0 dur0
          match (if some (p0, dur0) ≠ none ∧ some (p1, dur1) ≠ none ∧
              (some (p0, dur0)).map Prod.fst = (some (p1, dur1)).map Prod.fst
            then (none : Option (Path × Option Int)) else some (p1, dur1)) with
          | some nn1 =>
            (do
              let st3 ← hold st2 nn1.1 nn1.2
              pure (Sum.inr (p0, nn1.1), st3) :
                Except String (Sum LockErr (Path × Path) × Store))
          | none => pure (Sum.inr (p0, []), st2)) = .ok (.inr (p0, p1), stH2)
        rw [if_neg hcond, show dur0 = some dd0 from hd0.symm.trans hdd0, hrunH]
        show (do
          let st3 ← hold stH p1 dur1
          pure (.inr (p0, p1), st3) :
            Except String (Sum LockErr (Path × Path) × Store)) = .ok (.inr (p0, p1), stH2)
        rw [show dur1 = some dd1 from hd1.symm.trans hdd1, hrunH2]
        rfl

/-- the continuation of `confirm` after the first name resolved. -/
theorem confirmAfter0_ok {st1 : Store} (hInv1 : Inv st1) (name1 : Option Path)
    (toks : List Nat) (n0 : Option (Path × Option Int))
    (hp0 : ∀ p dur, n0 = some (p, dur) → ∃ hsh, alGet st1.nodes p = some hsh ∧
      hsh.h = some false ∧ hsh.t.isSome = true ∧ hsh.d = dur ∧ hsh.r = some p) :
    ∃ res st', confirmAfter0 st1 name1 toks n0 = .ok (res, st') ∧ Inv st' ∧
      ((res = .inl .confirmationFailed ∧ st' = st1 ∧
        ∃ nm1, name1 = some nm1 ∧ ∀ tk ∈ toks, tokenMatches st1 nm1 tk = false) ∨
       ((∃ roots, res = .inr roots) ∧
        (∀ nm1, name1 = some nm1 →
          ¬ ∀ tk ∈ toks, tokenMatches st1 nm1 tk = false))) := by
  cases name1 with
  | none =>
    obtain ⟨roots, st', hrun, hInv'⟩ := confirmHold_ok hInv1 n0 none hp0
      (fun p dur h => by cases h)
    refine ⟨.inr roots, st', ?_, hInv', Or.inr ⟨⟨roots, rfl⟩, ?_⟩⟩
    · show confirmHold st1 n0 none = .ok (.inr roots, st')
      exact hrun
    · intro nm1 h
      cases h
  | some nm1 =>
    obtain ⟨r, hrunL, hiffL, hpostL⟩ := lookup_ok hInv1 nm1 toks
    cases hr : r with
    | none =>
      refine ⟨.inl .confirmationFailed, st1, ?_, hInv1,
        Or.inl ⟨rfl, rfl, nm1, rfl, ?_⟩⟩
      · show (do
          match ← lookup st1 nm1 toks with
          | none =>
            (pure (Sum.inl LockErr.confirmationFailed, st1) :
              Except String (Sum LockErr (Path × Path) × Store))
          | some n1 => confirmHold st1 n0 (some n1)) =
          .ok (.inl .confirmationFailed, st1)
        rw [hrunL, hr]
        rfl
      · rw [hr] at hiffL
        exact hiffL.mp rfl
    | some n1 =>
      obtain ⟨roots, st', hrunH, hInv'⟩ := confirmHold_ok hInv1 n0 (some n1) hp0
        (fun p dur h => hpostL p dur (by rw [hr]; exact h))
      refine ⟨.inr roots, st', ?_, hInv', Or.inr ⟨⟨roots, rfl⟩, ?_⟩⟩
      · show (do
          match ← lookup st1 nm1 toks with
          | none =>
            (pure (Sum.inl LockErr.confirmationFailed, st1) :
              Except String (Sum LockErr (Path × Path) × Store))
          | some n1 => confirmHold st1 n0 (some n1)) = .ok (.inr roots, st')
        rw [hrunL, hr]
        exact hrunH
      · intro nm1b hb hall
        have hnone : r = none := hiffL.mpr (by rw [Option.some.inj hb]; exact hall)
        rw [hr] at hnone
        cases hnone
/-- full case analysis of the Lua `confirm` on a consistent store: it fails
with `ERR_CONFIRMATION_FAILED` exactly when some given name matches no
candidate token (leaving the post-sweep store unchanged); otherwise it pins
the matched roots. -/
theorem confirm_ok {st : Store} (hInv : Inv st) (now_sec : Int)
    (name0 name1 : Option Path) (toks : List Nat) :
    ∃ st1, collect_expired_nodes st now_sec = .ok st1 ∧ Inv st1 ∧
      ∃ res st', confirm st now_sec name0 name1 toks = .ok (res, st') ∧ Inv st' ∧
      (res = .inl .confirmationFailed → st' = st1) ∧
      (res = .inl .confirmationFailed ↔
        ((∃ nm0, name0 = some nm0 ∧ ∀ tk ∈ toks, tokenMatches st1 nm0 tk = false) ∨
         (∃ nm1, name1 = some nm1 ∧
           ∀ tk ∈ toks, tokenMatches st1 nm1 tk = false))) := by
  obtain ⟨st1, hsweep, hInv1, _, _, _, _, _, _⟩ := collect_expired_nodes_ok hInv now_sec
  have hstep : confirm st now_sec name0 name1 toks = (match name0 with
    | some nm0 => do
      match ← lookup st1 nm0 toks with
      | none => pure (.inl .confirmationFailed, st1)
      | some n0 => confirmAfter0 st1 name1 toks (some n0)
    | none => confirmAfter0 st1 name1 toks none) := by
    unfold confirm
    rw [hsweep]
    rfl
  refine ⟨st1, hsweep, hInv1, ?_⟩
  cases name0 with
  | none =>
    obtain ⟨res, st', hrunA, hInv', hcases⟩ := confirmAfter0_ok hInv1 name1 toks none
      (fun p dur h => by cases h)
    refine ⟨res, st', by rw [hstep]; exact hrunA, hInv', ?_, ?_⟩
    · intro hres
      rcases hcases with ⟨_, h2, _⟩ | ⟨⟨roots, hroots⟩, _⟩
      · exact h2
      · rw [hroots] at hres
        cases hres
    · constructor
      · intro hres
        rcases hcases with ⟨_, _, hnm1⟩ | ⟨⟨roots, hroots⟩, _⟩
        · exact Or.inr hnm1
        · rw [hroots] at hres
          cases hres
      · intro hrs
        rcases hrs with ⟨nm0, habs, _⟩ | ⟨nm1, hb, hall⟩
        · cases habs
        · rcases hcases with ⟨h1, _, _⟩ | ⟨_, hnm⟩
          · exact h1
          · exact absurd hall (hnm nm1 hb)
  | some nm0 =>
    obtain ⟨r, hrunL, hiffL, hpostL⟩ := lookup_ok hInv1 nm0 toks
    cases hr : r with
    | none =>
      refine ⟨.inl .confirmationFailed, st1, ?_, hInv1, fun _ => rfl, ?_⟩
      · rw [hstep]
        show (do
          match ← lookup st1 nm0 toks with
          | none =>
            (pure (Sum.inl LockErr.confirmationFailed, st1) :
              Except String (Sum LockErr (Path × Path) × Store))
          | some n0 => confirmAfter0 st1 name1 toks (some n0)) =
          .ok (.inl .confirmationFailed, st1)
        rw [hrunL, hr]
        rfl
      · constructor
        · intro _
          refine Or.inl ⟨nm0, rfl, ?_⟩
          rw [hr] at hiffL
          exact hiffL.mp rfl
        · intro _
          rfl
    | some n0 =>
      have hmatched0 : ¬ ∀ tk ∈ toks, tokenMatches st1 nm0 tk = false := by
        intro hall
        have hnone := hiffL.mpr hall
        rw [hr] at hnone
        cases hnone
      obtain ⟨res, st', hrunA, hInv', hcases⟩ := confirmAfter0_ok hInv1 name1 toks
        (some n0) (fun p dur h => hpostL p dur (by rw [hr]; exact h))
      refine ⟨res, st', ?_, hInv', ?_, ?_⟩
      · rw [hstep]
        show (do
          match ← lookup st1 nm0 toks with
          | none =>
            (pure (Sum.inl LockErr.confirmationFailed, st1) :
              Except String (Sum LockErr (Path × Path) × Store))
          | some n0b => confirmAfter0 st1 name1 toks (some n0b)) = .ok (res, st')
        rw [hrunL, hr]
        exact hrunA
      · intro hres
        rcases hcases with ⟨_, h2, _⟩ | ⟨⟨roots, hroots⟩, _⟩
        · exact h2
        · rw [hroots] at hres
          cases hres
      · constructor
        · intro hres
          rcases hcases with ⟨_, _, hnm1⟩ | ⟨⟨roots, hroots⟩, _⟩
          · exact Or.inr hnm1
          · rw [hroots] at hres
            cases hres
        · intro hrs
          rcases hrs with ⟨nm0b, hb, hall⟩ | ⟨nm1, hb, hall⟩
          · exact absurd (by rw [Option.some.inj hb]; exact hall) hmatched0
          · rcases hcases with ⟨h1, _, _⟩ | ⟨_, hnm⟩
            · exact h1
            · exact absurd hall (hnm nm1 hb)

/-- the Lua `unhold`, called as `release` calls it (with the node's own
stored duration and expiry), preserves consistency whenever it succeeds. -/
theorem unhold_self_ok {st : Store} (hInv : Inv st) (name : Path) {st' : Store}
    (hrun : unhold st name ((alGet st.nodes name).bind NodeHash.d)
      ((alGet st.nodes name).bind NodeHash.e) = .ok st') : Inv st' := by
  by_cases hheld : (alGet st.nodes name).bind NodeHash.h = some true
  case neg =>
    exfalso
    have h2 : (Except.error "inconsistent held state" : Except String Store) =
        .ok st' := by
      rw [← hrun]
      unfold unhold
      rw [if_pos hheld]
      rfl
    cases h2
  case pos =>
    have hsome : (alGet st.nodes name).isSome = true := by
      cases hg : alGet st.nodes name with
      | none =>
        rw [hg] at hheld
        cases hheld
      | some hsh => rfl
    obtain ⟨hsh, hget⟩ := Option.isSome_iff_exists.mp hsome
    have hh : hsh.h = some true := by
      rw [hget] at hheld
      exact hheld
    have htI : hsh.t.isSome = true := hInv.heldLocked name hsh hget hh
    obtain ⟨tk, htok⟩ := Option.isSome_iff_exists.mp htI
    obtain ⟨⟨dd, hd, _⟩, heI, _, _, _, _, _⟩ := hInv.lockedOk name hsh tk hget htok
    obtain ⟨ee, hee⟩ := Option.isSome_iff_exists.mp heI
    have hsetEq : hsetHeld st.nodes name false =
        alSet st.nodes name { hsh with h := some false } := by
      unfold hsetHeld
      rw [hget, Option.getD_some]
    have hrun2 : unhold st name ((alGet st.nodes name).bind NodeHash.d)
        ((alGet st.nodes name).bind NodeHash.e) = .ok (if 0 ≤ dd then
          { st with
              nodes := alSet st.nodes name { hsh with h := some false },
              expiry := alSet st.expiry name ee }
          else { st with nodes := alSet st.nodes name { hsh with h := some false } }) := by
      unfold unhold
      rw [if_neg (not_not_intro hheld), hget]
      show (do
        let d ← expectVal hsh.d
        if 0 ≤ d then do
          let e ← expectVal hsh.e
          pure { st with
              nodes := hsetHeld st.nodes name false,
              expiry := alSet st.expiry name e }
        else pure { st with nodes := hsetHeld st.nodes name false } :
          Except String Store) = _
      rw [hd, hee, hsetEq]
      show (if 0 ≤ dd then
          (pure { st with
              nodes := alSet st.nodes name { hsh with h := some false },
              expiry := alSet st.expiry name ee } : Except String Store)
        else pure { st with
          nodes := alSet st.nodes name { hsh with h := some false } }) = _
      by_cases hdd0 : 0 ≤ dd
      · rw [if_pos hdd0, if_pos hdd0, hd, hee]
        rfl
      · rw [if_neg hdd0, if_neg hdd0, hd, hee]
        rfl
    rw [hrun2] at hrun
    rw [← Except.ok.inj hrun]
    have hlock2 : ∀ tk2, ({ hsh with h := some false } : NodeHash).t = some tk2 →
        (∃ dd2, ({ hsh with h := some false } : NodeHash).d = some dd2 ∧
          (dd2 < 0 → ({ hsh with h := some false } : NodeHash).e = some 0)) ∧
        ({ hsh with h := some false } : NodeHash).e.isSome = true ∧
        ({ hsh with h := some false } : NodeHash).o.isSome = true ∧
        ({ hsh with h := some false } : NodeHash).z.isSome = true := by
      intro tk2 ht2
      have ht0 : hsh.t = some tk2 := ht2
      have hL2 := hInv.lockedOk name hsh tk2 hget ht0
      exact ⟨hL2.1, hL2.2.1, hL2.2.2.1, hL2.2.2.2.1⟩
    have hnoent : alGet st.expiry name = none := by
      cases hE : alGet st.expiry name with
      | none => rfl
      | some sc =>
        exfalso
        obtain ⟨hsh2, hg2, _, hhf2, _, _⟩ := hInv.zsetSound name sc hE
        rw [hget] at hg2
        obtain rfl := Option.some.inj hg2
        rw [hh] at hhf2
        cases hhf2
    by_cases hdd : 0 ≤ dd
    · rw [if_pos hdd]
      refine setNode_inv hInv hget ?_ ?_ ?_ ?_ ?_ ?_ hlock2
        (alSet_noDupKeys hInv.expiryNodup _ _)
        (fun q hq => alGet_alSet_ne st.expiry _ hq) (fun sc hsc => ?_) ?_
      · rfl
      · rfl
      · rfl
      · rfl
      · exact Or.inr rfl
      · intro habs
        have habs2 : (some false : Option Bool) = some true := habs
        cases habs2
      · rw [alGet_alSet_self] at hsc
        refine ⟨htI, rfl, ⟨dd, hd, hdd⟩, ?_⟩
        show hsh.e = some sc
        rw [hee]
        exact congrArg some (Option.some.inj hsc)
      · intro _ _ dd2 hdd2 hdd20
        rw [alGet_alSet_self]
        show some ee = ({ hsh with h := some false } : NodeHash).e
        rw [show ({ hsh with h := some false } : NodeHash).e = hsh.e from rfl, hee]
    · rw [if_neg hdd]
      refine setNode_inv hInv hget ?_ ?_ ?_ ?_ ?_ ?_ hlock2 hInv.expiryNodup
        (fun q hq => rfl) (fun sc hsc => ?_) ?_
      · rfl
      · rfl
      · rfl
      · rfl
      · exact Or.inr rfl
      · intro habs
        have habs2 : (some false : Option Bool) = some true := habs
        cases habs2
      · exfalso
        rw [hnoent] at hsc
        cases hsc
      · intro _ _ dd2 hdd2 hdd20
        exfalso
        have hdd2b : hsh.d = some dd2 := hdd2
        rw [hd] at hdd2b
        have := Option.some.inj hdd2b
        omega

/-- the exact run of `unhold` on a held node, with the node's own stored
duration and expiry as `release` passes them: clear `h`, re-add the stored
expiry entry when the duration is non-negative. -/
theorem unhold_effect {st : Store} (hInv : Inv st) {name : Path} {hsh : NodeHash}
    (hget : alGet st.nodes name = some hsh) (hh : hsh.h = some true) :
    ∃ dd ee, hsh.d = some dd ∧ hsh.e = some ee ∧
      unhold st name ((alGet st.nodes name).bind NodeHash.d)
        ((alGet st.nodes name).bind NodeHash.e) =
        .ok (if 0 ≤ dd then
          { st with
              nodes := alSet st.nodes name { hsh with h := some false },
              expiry := alSet st.expiry name ee }
          else { st with nodes := alSet st.nodes name { hsh with h := some false } }) ∧
      Inv (if 0 ≤ dd then
          { st with
              nodes := alSet st.nodes name { hsh with h := some false },
              expiry := alSet st.expiry name ee }
          else { st with nodes := alSet st.nodes name { hsh with h := some false } }) := by
  have hheld : (alGet st.nodes name).bind NodeHash.h = some true := by
    rw [hget]
    exact hh
  have htI : hsh.t.isSome = true := hInv.heldLocked name hsh hget hh
  obtain ⟨tk, htok⟩ := Option.isSome_iff_exists.mp htI
  obtain ⟨⟨dd, hd, _⟩, heI, _, _, _, _, _⟩ := hInv.lockedOk name hsh tk hget htok
  obtain ⟨ee, hee⟩ := Option.isSome_iff_exists.mp heI
  have hsetEq : hsetHeld st.nodes name false =
      alSet st.nodes name { hsh with h := some false } := by
    unfold hsetHeld
    rw [hget, Option.getD_some]
  have hrun2 : unhold st name ((alGet st.nodes name).bind NodeHash.d)
      ((alGet st.nodes name).bind NodeHash.e) = .ok (if 0 ≤ dd then
        { st with
            nodes := alSet st.nodes name { hsh with h := some false },
            expiry := alSet st.expiry name ee }
        else { st with nodes := alSet st.nodes name { hsh with h := some false } }) := by
    unfold unhold
    rw [if_neg (not_not_intro hheld), hget]
    show (do
      let d ← expectVal hsh.d
      if 0 ≤ d then do
        let e ← expectVal hsh.e
        pure { st with
            nodes := hsetHeld st.nodes name false,
            expiry := alSet st.expiry name e }
      else pure { st with nodes := hsetHeld st.nodes name false } :
        Except String Store) = _
    rw [hd, hee, hsetEq]
    show (if 0 ≤ dd then
        (pure { st with
            nodes := alSet st.nodes name { hsh with h := some false },
            expiry := alSet st.expiry name ee } : Except String Store)
      else pure { st with
        nodes := alSet st.nodes name { hsh with h := some false } }) = _
    by_cases hdd0 : 0 ≤ dd
    · rw [if_pos hdd0, if_pos hdd0, hd, hee]
      rfl
    · rw [if_neg hdd0, if_neg hdd0, hd, hee]
      rfl
  exact ⟨dd, ee, hd, hee, hrun2, unhold_self_ok hInv name hrun2⟩

/-- the Lua `release` preserves consistency whenever it succeeds. -/
theorem release_ok {st : Store} (hInv : Inv st) (n0 n1 : Option Path) {st' : Store}
    (hrun : release st n0 n1 = .ok st') : Inv st' := by
  cases n0 with
  | none =>
    cases n1 with
    | none =>
      have h2 : st = st' := Except.ok.inj hrun
      rw [← h2]
      exact hInv
    | some nm1 =>
      have h2 : unhold st nm1 ((alGet st.nodes nm1).bind NodeHash.d)
          ((alGet st.nodes nm1).bind NodeHash.e) = .ok st' := hrun
      exact unhold_self_ok hInv nm1 h2
  | some nm0 =>
    cases hu : unhold st nm0 ((alGet st.nodes nm0).bind NodeHash.d)
        ((alGet st.nodes nm0).bind NodeHash.e) with
    | error e =>
      exfalso
      cases n1 with
      | none =>
        have h2 : (do
          let st1 ← unhold st nm0 ((alGet st.nodes nm0).bind NodeHash.d)
            ((alGet st.nodes nm0).bind NodeHash.e)
          pure st1 : Except String Store) = .ok st' := hrun
        rw [hu] at h2
        have h3 : (Except.error e : Except String Store) = .ok st' := h2
        cases h3
      | some nm1 =>
        have h2 : (do
          let st1 ← unhold st nm0 ((alGet st.nodes nm0).bind NodeHash.d)
            ((alGet st.nodes nm0).bind NodeHash.e)
          unhold st1 nm1 ((alGet st1.nodes nm1).bind NodeHash.d)
            ((alGet st1.nodes nm1).bind NodeHash.e)) = .ok st' := hrun
        rw [hu] at h2
        have h3 : (Except.error e : Except String Store) = .ok st' := h2
        cases h3
    | ok st1 =>
      have hInv1 : Inv st1 := unhold_self_ok hInv nm0 hu
      cases n1 with
      | none =>
        have h2 : (do
          let st1b ← unhold st nm0 ((alGet st.nodes nm0).bind NodeHash.d)
            ((alGet st.nodes nm0).bind NodeHash.e)
          pure st1b : Except String Store) = .ok st' := hrun
        rw [hu] at h2
        have h3 : (Except.ok st1 : Except String Store) = .ok st' := h2
        rw [← Except.ok.inj h3]
        exact hInv1
      | some nm1 =>
        have h2 : (do
          let st1b ← unhold st nm0 ((alGet st.nodes nm0).bind NodeHash.d)
            ((alGet st.nodes nm0).bind NodeHash.e)
          unhold st1b nm1 ((alGet st1b.nodes nm1).bind NodeHash.d)
            ((alGet st1b.nodes nm1).bind NodeHash.e)) = .ok st' := hrun
        rw [hu] at h2
        have h3 : unhold st1 nm1 ((alGet st1.nodes nm1).bind NodeHash.d)
            ((alGet st1.nodes nm1).bind NodeHash.e) = .ok st' := h2
        exact unhold_self_ok hInv1 nm1 h3

/-- every store reachable by facade operations from the empty store is
consistent. -/
theorem reachable_inv {st : Store} (h : Reachable st) : Inv st := by
  induction h with
  | empty => exact Inv_empty
  | @create stp now_sec details res st' hR hrun ih =>
    obtain ⟨st1, hsweep, hInv1, hbr⟩ := create_ok ih now_sec
      (slashClean_clean details.Root) (durationToSec details.Duration)
      details.ZeroDepth details.OwnerXML
    have h3 : create stp now_sec (slashClean details.Root)
        (durationToSec details.Duration) details.ZeroDepth details.OwnerXML =
        .ok (res, st') := hrun
    rcases hbr with ⟨hcc, hrunC⟩ | ⟨hcc, st2, hrunC, hInv2, _⟩
    · rw [hrunC] at h3
      have h5 : st1 = st' := congrArg Prod.snd (Except.ok.inj h3)
      rw [← h5]
      exact hInv1
    · rw [hrunC] at h3
      have h5 : st2 = st' := congrArg Prod.snd (Except.ok.inj h3)
      rw [← h5]
      exact hInv2
  | @refresh stp now_sec token d res st' hR hrun ih =>
    obtain ⟨st1, hsweep, hInv1, hbr⟩ := refresh_ok ih now_sec token (durationToSec d)
    have h3 : (do
      let r2 ← refresh stp now_sec token (durationToSec d)
      match r2.1 with
      | Sum.inl e => pure (Sum.inl e, r2.2)
      | Sum.inr rep =>
        (pure (Sum.inr ⟨rep.root.getD [], rep.duration_sec * nsPerSec,
          rep.owner_xml.getD "", rep.zero_depth = some true⟩, r2.2) :
          Except String (Sum LockErr LockDetails × Store))) =
        .ok (res, st') := hrun
    rcases hbr with ⟨_, hrunR⟩ | ⟨name, hsh, _, _, _, ⟨_, hrunR⟩ | ⟨_, od, _, hrunR, hInvR⟩⟩
    · rw [hrunR] at h3
      have h4 : (Except.ok ((.inl .noSuchLock : Sum LockErr LockDetails), st1) :
          Except String (Sum LockErr LockDetails × Store)) = .ok (res, st') := h3
      have h5 : st1 = st' := congrArg Prod.snd (Except.ok.inj h4)
      rw [← h5]
      exact hInv1
    · rw [hrunR] at h3
      have h4 : (Except.ok ((.inl .locked : Sum LockErr LockDetails), st1) :
          Except String (Sum LockErr LockDetails × Store)) = .ok (res, st') := h3
      have h5 : st1 = st' := congrArg Prod.snd (Except.ok.inj h4)
      rw [← h5]
      exact hInv1
    · rw [hrunR] at h3
      have h4 : (Except.ok ((.inr ⟨hsh.r.getD [], (durationToSec d) * nsPerSec,
          hsh.o.getD "", hsh.z = some true⟩ : Sum LockErr LockDetails),
          refreshedStore st1 name hsh od (durationToSec d) now_sec) :
          Except String (Sum LockErr LockDetails × Store)) = .ok (res, st') := h3
      have h5 : refreshedStore st1 name hsh od (durationToSec d) now_sec = st' :=
        congrArg Prod.snd (Except.ok.inj h4)
      rw [← h5]
      exact hInvR
  | @unlock stp now_sec token res st' hR hrun ih =>
    obtain ⟨st1, hsweep, hInv1, hbr⟩ := unlock_ok ih now_sec token
    have h3 : unlock stp now_sec token = .ok (res, st') := hrun
    rcases hbr with ⟨_, hrunU⟩ | ⟨name, hsh, _, _, _, ⟨_, hrunU⟩ | ⟨_, st2, hrunU, hInv2, _⟩⟩
    · rw [hrunU] at h3
      have h5 : st1 = st' := congrArg Prod.snd (Except.ok.inj h3)
      rw [← h5]
      exact hInv1
    · rw [hrunU] at h3
      have h5 : st1 = st' := congrArg Prod.snd (Except.ok.inj h3)
      rw [← h5]
      exact hInv1
    · rw [hrunU] at h3
      have h5 : st2 = st' := congrArg Prod.snd (Except.ok.inj h3)
      rw [← h5]
      exact hInv2
  | @confirm stp now_sec name0 name1 toks res st' hR hrun ih =>
    obtain ⟨st1, hsweep, hInv1, res2, st2, hrunC, hInv2, _, _⟩ :=
      confirm_ok ih now_sec (if name0 = [] then none else some (slashClean name0))
        (if name1 = [] then none else some (slashClean name1)) toks
    have h3 : confirm stp now_sec (if name0 = [] then none else some (slashClean name0))
        (if name1 = [] then none else some (slashClean name1)) toks =
        .ok (res, st') := hrun
    rw [hrunC] at h3
    have h5 : st2 = st' := congrArg Prod.snd (Except.ok.inj h3)
    rw [← h5]
    exact hInv2
  | @release stp n0 n1 st' hR hrun ih =>
    unfold facadeRelease at hrun
    by_cases hc : n0 = [] ∧ n1 = []
    · rw [if_pos hc] at hrun
      have h3 : (Except.ok stp : Except String Store) = .ok st' := hrun
      rw [← Except.ok.inj h3]
      exact ih
    · rw [if_neg hc] at hrun
      exact release_ok ih _ _ hrun

/-! ## Characterisation of `can_create` -/

theorem canCreateWalk_cons_none {st : Store} {iz : Bool} {a : Path} {rest : List Path}
    {b : Bool} (hget : alGet st.nodes a = none) :
    canCreateWalk st iz (a :: rest) b = canCreateWalk st iz rest false := by
  simp only [canCreateWalk]
  rw [hget]
  rfl

theorem canCreateWalk_cons_ancestor {st : Store} {iz : Bool} {a : Path}
    {rest : List Path} {hsh : NodeHash} (hget : alGet st.nodes a = some hsh)
    (hr : hsh.r = some a) :
    canCreateWalk st iz (a :: rest) false =
      (if hsh.t ≠ none ∧ ¬ hsh.z = some true then false
       else canCreateWalk st iz rest false) := by
  simp only [canCreateWalk]
  rw [hget]
  show (if (match hsh.r with
      | none => true
      | some _ => if hsh.t ≠ none ∧ ¬ hsh.z = some true then false else true) = true
    then canCreateWalk st iz rest false else false) = _
  rw [hr]
  show (if (if hsh.t ≠ none ∧ ¬ hsh.z = some true then false else true) = true
    then canCreateWalk st iz rest false else false) = _
  by_cases hP : hsh.t ≠ none ∧ ¬ hsh.z = some true
  · simp only [if_pos hP]
    rfl
  · simp only [if_neg hP]
    rfl

theorem canCreateWalk_cons_head {st : Store} {iz : Bool} {a : Path}
    {rest : List Path} {hsh : NodeHash} (hget : alGet st.nodes a = some hsh)
    (hr : hsh.r = some a) :
    canCreateWalk st iz (a :: rest) true =
      (if hsh.t ≠ none then false
       else if ¬ iz = true then false else canCreateWalk st iz rest false) := by
  simp only [canCreateWalk]
  rw [hget]
  show (if (match hsh.r with
      | none => true
      | some _ =>
        if hsh.t ≠ none then false
        else if ¬ iz = true then false else true) = true
    then canCreateWalk st iz rest false else false) = _
  rw [hr]
  show (if (if hsh.t ≠ none then false
      else if ¬ iz = true then false else true) = true
    then canCreateWalk st iz rest false else false) = _
  by_cases ht : hsh.t ≠ none
  · simp only [if_pos ht]
    rfl
  · simp only [if_neg ht]
    by_cases hz : ¬ iz = true
    · simp only [if_pos hz]
      rfl
    · simp only [if_neg hz]
      rfl

/-- the ancestor loop of `can_create` fails exactly on an infinite-depth
locked ancestor among the remaining chain. -/
theorem canCreateWalkF_false_iff {st : Store} (hInv : Inv st) (iz : Bool) :
    ∀ c : List Path, canCreateWalk st iz c false = false ↔
      ∃ a ∈ c, ∃ h2, alGet st.nodes a = some h2 ∧ h2.t.isSome = true ∧
        ¬ h2.z = some true := by
  intro c
  induction c with
  | nil => simp [canCreateWalk]
  | cons a rest ih =>
    cases hget : alGet st.nodes a with
    | none =>
      rw [canCreateWalk_cons_none hget, ih]
      constructor
      · rintro ⟨b, hb, h2, hg2, ht2, hz2⟩
        exact ⟨b, List.mem_cons_of_mem a hb, h2, hg2, ht2, hz2⟩
      · rintro ⟨b, hb, h2, hg2, ht2, hz2⟩
        rcases List.mem_cons.mp hb with rfl | hb2
        · rw [hget] at hg2
          cases hg2
        · exact ⟨b, hb2, h2, hg2, ht2, hz2⟩
    | some hsh =>
      have hr : hsh.r = some a := (hInv.base a hsh hget).2.1
      rw [canCreateWalk_cons_ancestor hget hr]
      by_cases hP : hsh.t ≠ none ∧ ¬ hsh.z = some true
      · rw [if_pos hP]
        constructor
        · intro _
          refine ⟨a, List.mem_cons_self a rest, hsh, hget, ?_, hP.2⟩
          cases htc : hsh.t with
          | none => exact absurd htc hP.1
          | some tk => rfl
        · intro _
          rfl
      · rw [if_neg hP, ih]
        constructor
        · rintro ⟨b, hb, h2, hg2, ht2, hz2⟩
          exact ⟨b, List.mem_cons_of_mem a hb, h2, hg2, ht2, hz2⟩
        · rintro ⟨b, hb, h2, hg2, ht2, hz2⟩
          rcases List.mem_cons.mp hb with rfl | hb2
          · rw [hget] at hg2
            have he := Option.some.inj hg2
            rw [← he] at ht2 hz2
            have htne : hsh.t ≠ none := by
              intro hn
              rw [hn] at ht2
              cases ht2
            exact absurd ⟨htne, hz2⟩ hP
          · exact ⟨b, hb2, h2, hg2, ht2, hz2⟩

/-- `can_create` fails exactly when the target is locked, or an
infinite-depth request meets any existing target node, or a strict ancestor
carries an infinite-depth lock. -/
theorem can_create_false_iff {st : Store} (hInv : Inv st) {name : Path}
    (hclean : CleanName name = true) (iz : Bool) :
    can_create st name iz = false ↔
      ((∃ h2, alGet st.nodes name = some h2 ∧ h2.t.isSome = true) ∨
       (iz = false ∧ (alGet st.nodes name).isSome = true) ∨
       (∃ a h2, a ∈ pathChain name ∧ a ≠ name ∧ alGet st.nodes a = some h2 ∧
         h2.t.isSome = true ∧ ¬ h2.z = some true)) := by
  obtain ⟨crest, hchain⟩ := pathChain_head name
  have hnd : (pathChain name).Nodup := by
    obtain ⟨segs, hreg, hrw⟩ := CleanName_decomp hclean
    rw [hrw]
    exact pathChain_nodup (goodSegs_of_regSegs hreg)
  have hcrest : name ∉ crest := by
    rw [hchain] at hnd
    exact (List.nodup_cons.mp hnd).1
  unfold can_create
  rw [hchain]
  cases hget : alGet st.nodes name with
  | none =>
    rw [canCreateWalk_cons_none hget, canCreateWalkF_false_iff hInv iz crest]
    constructor
    · rintro ⟨b, hb, h2, hg2, ht2, hz2⟩
      refine Or.inr (Or.inr ⟨b, h2, List.mem_cons_of_mem name hb, ?_, hg2, ht2, hz2⟩)
      intro he
      rw [he, hget] at hg2
      cases hg2
    · rintro (⟨h2, hg2, _⟩ | ⟨_, hsome⟩ | ⟨b, h2, hbmem, hbne, hg2, ht2, hz2⟩)
      · cases hg2
      · cases hsome
      · refine ⟨b, ?_, h2, hg2, ht2, hz2⟩
        rcases List.mem_cons.mp hbmem with rfl | hb2
        · exact absurd rfl hbne
        · exact hb2
  | some hsh =>
    have hr : hsh.r = some name := (hInv.base name hsh hget).2.1
    rw [canCreateWalk_cons_head hget hr]
    by_cases ht : hsh.t ≠ none
    · rw [if_pos ht]
      constructor
      · intro _
        refine Or.inl ⟨hsh, rfl, ?_⟩
        cases htc : hsh.t with
        | none => exact absurd htc ht
        | some tk => rfl
      · intro _
        rfl
    · rw [if_neg ht]
      have htn : hsh.t = none := not_not.mp ht
      by_cases hz : ¬ iz = true
      · rw [if_pos hz]
        have hizf : iz = false := by
          cases iz
          · rfl
          · exact absurd rfl hz
        constructor
        · intro _
          exact Or.inr (Or.inl ⟨hizf, rfl⟩)
        · intro _
          rfl
      · rw [if_neg hz, canCreateWalkF_false_iff hInv iz crest]
        constructor
        · rintro ⟨b, hb, h2, hg2, ht2, hz2⟩
          refine Or.inr (Or.inr ⟨b, h2, List.mem_cons_of_mem name hb, ?_, hg2, ht2, hz2⟩)
          intro he
          rw [he, hget] at hg2
          obtain rfl := Option.some.inj hg2
          rw [htn] at ht2
          cases ht2
        · rintro (⟨h2, hg2, ht2⟩ | ⟨hizf, _⟩ | ⟨b, h2, hbmem, hbne, hg2, ht2, hz2⟩)
          · obtain rfl := Option.some.inj hg2
            rw [htn] at ht2
            cases ht2
          · refine absurd ?_ hz
            intro hit
            rw [hizf] at hit
            cases hit
          · refine ⟨b, ?_, h2, hg2, ht2, hz2⟩
            rcases List.mem_cons.mp hbmem with rfl | hb2
            · exact absurd rfl hbne
            · exact hb2

/-! ## The spec §3 invariants -/

/-- items 1–7 of spec §3 as stated over the store: a root node whose
refcount counts all locked nodes whenever any node exists; clean rooted
names; positive refcounts counting the locked nodes at or beneath each
path; locked nodes reachable via their token and token entries reachable by
name; expiry entries reachable by name, not held, with non-negative
duration. -/
structure Invariants (st : Store) : Prop where
  rootNode : st.nodes ≠ [] → ∃ hroot, alGet st.nodes ['/'] = some hroot ∧
    hroot.c = some ((st.nodes.countP (fun en => en.2.t.isSome) : Nat) : Int)
  namesClean : ∀ q h, alGet st.nodes q = some h →
    CleanName q = true ∧ q.head? = some '/'
  refCount : ∀ q h, alGet st.nodes q = some h →
    h.c = some ((lockedCount st q : Nat) : Int) ∧ 0 < lockedCount st q
  lockedReach : ∀ q h tk, alGet st.nodes q = some h → h.t = some tk →
    alGet st.tokens tk = some q
  tokenReach : ∀ tk p, alGet st.tokens tk = some p →
    ∃ h, alGet st.nodes p = some h ∧ h.t = some tk
  expiryReach : ∀ q sc, alGet st.expiry q = some sc →
    ∃ h, alGet st.nodes q = some h ∧ ¬ h.h = some true ∧
      ∃ dd, h.d = some dd ∧ 0 ≤ dd

theorem countP_congr_list {α : Type} {l : List α} {p q : α → Bool}
    (h : ∀ a ∈ l, p a = q a) : l.countP p = l.countP q := by
  induction l with
  | nil => rfl
  | cons a as ih =>
    rw [List.countP_cons, List.countP_cons, h a (List.mem_cons_self a as),
      ih (fun b hb => h b (List.mem_cons_of_mem a hb))]

theorem head_slash_of_clean {q : Path} (h : CleanName q = true) :
    q.head? = some '/' := by
  cases q with
  | nil => cases h
  | cons c rest =>
    simp only [CleanName, Bool.and_eq_true, decide_eq_true_eq] at h
    rw [h.1]
    rfl

/-- the strengthened invariant implies the seven spec §3 items. -/
theorem Inv_implies_Invariants {st : Store} (hInv : Inv st) : Invariants st := by
  refine ⟨?_, ?_, ?_, ?_, ?_, ?_⟩
  · intro hne
    obtain ⟨en, hmem⟩ := List.exists_mem_of_ne_nil st.nodes hne
    have hget : alGet st.nodes en.1 = some en.2 :=
      alGet_eq_some_of_mem hInv.nodesNodup hmem
    have hclean : CleanName en.1 = true := hInv.clean en.1 en.2 hget
    obtain ⟨segs, hreg, hq⟩ := CleanName_decomp hclean
    have hrmem : ['/'] ∈ pathChain en.1 := by
      rw [hq]
      exact root_mem_pathChain (goodSegs_of_regSegs hreg)
    have hrs := hInv.closed en.1 en.2 hget ['/'] hrmem
    obtain ⟨hroot, hgr⟩ := Option.isSome_iff_exists.mp hrs
    refine ⟨hroot, hgr, ?_⟩
    rw [hInv.count ['/'] hroot hgr]
    have hcnt : lockedCount st ['/'] = st.nodes.countP (fun en => en.2.t.isSome) := by
      unfold lockedCount
      refine countP_congr_list ?_
      intro a ha
      have hga : alGet st.nodes a.1 = some a.2 :=
        alGet_eq_some_of_mem hInv.nodesNodup ha
      have hgood : GoodPath a.1 := goodPath_of_clean (hInv.clean a.1 a.2 hga)
      rw [isBeneath_root hgood, Bool.and_true]
    rw [hcnt]
  · intro q h hget
    have hclean := hInv.clean q h hget
    exact ⟨hclean, head_slash_of_clean hclean⟩
  · intro q h hget
    exact ⟨hInv.count q h hget, hInv.countPos q h hget⟩
  · intro q h tk hget ht
    exact (hInv.lockedOk q h tk hget ht).2.2.2.2.1
  · exact hInv.tokensBack
  · intro q sc hget
    obtain ⟨hsh, hg, _, hH, ⟨dd, hdd, hdd0⟩, _⟩ := hInv.zsetSound q sc hget
    refine ⟨hsh, hg, ?_, dd, hdd, hdd0⟩
    rw [hH]
    simp

/-- **C3.**  While a lock is held (pinned by a Confirm), `unlock` and
`refresh` on its token return the Locked error and the lock stays in the
store with its fields intact, and the expiration sweep never removes a held
lock; after the corresponding release callback (the Release script on the
pinned name), `unlock` of the token succeeds (at any time before the
re-added expiry when the stored duration is non-negative). -/
theorem C3_held_lock_protection {st : Store} (hInv : Inv st) {name : Path}
    {hsh : NodeHash} (hget : alGet st.nodes name = some hsh)
    (hheld : hsh.h = some true) {tk : Nat} (htok : hsh.t = some tk)
    (now1 now2 now3 : Int) (nd : Int) :
    (∃ st1 h2, unlock st now1 tk = .ok (some .locked, st1) ∧
      alGet st1.nodes name = some h2 ∧ h2.t = some tk ∧ h2.h = some true ∧
      h2.d = hsh.d ∧ h2.o = hsh.o ∧ h2.z = hsh.z ∧ h2.e = hsh.e) ∧
    (∃ st1 h2, refresh st now2 tk nd = .ok (.inl .locked, st1) ∧
      alGet st1.nodes name = some h2 ∧ h2.t = some tk ∧ h2.h = some true) ∧
    (∃ st1 h2, collect_expired_nodes st now3 = .ok st1 ∧
      alGet st1.nodes name = some h2 ∧ h2.t = some tk ∧ h2.h = some true) ∧
    (∀ st2, release st (some name) none = .ok st2 →
      ∀ now4, (∀ dd, hsh.d = some dd → 0 ≤ dd → ∀ ee, hsh.e = some ee → now4 < ee) →
      ∃ st3, unlock st2 now4 tk = .ok (none, st3)) := by
  have hnoent : alGet st.expiry name = none := by
    cases hE : alGet st.expiry name with
    | none => rfl
    | some sc =>
      exfalso
      obtain ⟨hsh2, hg2, _, hhf2, _, _⟩ := hInv.zsetSound name sc hE
      rw [hget] at hg2
      obtain rfl := Option.some.inj hg2
      rw [hheld] at hhf2
      cases hhf2
  have htI : hsh.t.isSome = true := by
    rw [htok]
    rfl
  have hsurvive : ∀ now0 : Int, ∃ st1, collect_expired_nodes st now0 = .ok st1 ∧
      Inv st1 ∧ ∃ h2, alGet st1.nodes name = some h2 ∧ h2.t = some tk ∧
        h2.h = some true ∧ h2.d = hsh.d ∧ h2.o = hsh.o ∧ h2.z = hsh.z ∧
        h2.e = hsh.e := by
    intro now0
    obtain ⟨st1, hsweep, hInv1, _, _, hsurv, _, _, _⟩ := collect_expired_nodes_ok hInv now0
    obtain ⟨h2, hg2, ht2, hh2, hd2, ho2, hz2, he2, _, _⟩ :=
      hsurv name hsh hget htI (Or.inl hnoent)
    refine ⟨st1, hsweep, hInv1, h2, hg2, ?_, ?_, hd2, ho2, hz2, he2⟩
    · rw [ht2, htok]
    · rw [hh2, hheld]
  refine ⟨?_, ?_, ?_, ?_⟩
  · obtain ⟨st1, hsweep, hInv1, h2, hg2, ht2, hh2, hd2, ho2, hz2, he2⟩ := hsurvive now1
    have htokU : alGet st1.tokens tk = some name :=
      (hInv1.lockedOk name h2 tk hg2 ht2).2.2.2.2.1
    obtain ⟨st1b, hsweepb, _, hbr⟩ := unlock_ok hInv now1 tk
    have hst1b : st1b = st1 := Except.ok.inj (hsweepb.symm.trans hsweep)
    subst hst1b
    rcases hbr with ⟨hnone, _⟩ | ⟨name2, hsh2, htk2, hget2, htok2, hbr2⟩
    · rw [htokU] at hnone
      cases hnone
    · rw [htokU] at htk2
      obtain rfl := Option.some.inj htk2
      rw [hg2] at hget2
      obtain rfl := Option.some.inj hget2
      rcases hbr2 with ⟨hT, hrunL⟩ | ⟨hF, _⟩
      · exact ⟨_, h2, hrunL, hg2, ht2, hh2, hd2, ho2, hz2, he2⟩
      · exfalso
        rw [hh2] at hF
        cases hF
  · obtain ⟨st1, hsweep, hInv1, h2, hg2, ht2, hh2, _, _, _, _⟩ := hsurvive now2
    have htokU : alGet st1.tokens tk = some name :=
      (hInv1.lockedOk name h2 tk hg2 ht2).2.2.2.2.1
    obtain ⟨st1b, hsweepb, _, hbr⟩ := refresh_ok hInv now2 tk nd
    have hst1b : st1b = st1 := Except.ok.inj (hsweepb.symm.trans hsweep)
    subst hst1b
    rcases hbr with ⟨hnone, _⟩ | ⟨name2, hsh2, htk2, hget2, htok2, hbr2⟩
    · rw [htokU] at hnone
      cases hnone
    · rw [htokU] at htk2
      obtain rfl := Option.some.inj htk2
      rw [hg2] at hget2
      obtain rfl := Option.some.inj hget2
      rcases hbr2 with ⟨hT, hrunL⟩ | ⟨hF, _⟩
      · exact ⟨_, h2, hrunL, hg2, ht2, hh2⟩
      · exfalso
        rw [hh2] at hF
        cases hF
  · obtain ⟨st1, hsweep, _, h2, hg2, ht2, hh2, _, _, _, _⟩ := hsurvive now3
    exact ⟨st1, h2, hsweep, hg2, ht2, hh2⟩
  · intro st2 hrel now4 hlate
    obtain ⟨dd, ee, hd, hee, hrunU, hInvU⟩ := unhold_effect hInv hget hheld
    set stU := (if 0 ≤ dd then
        { st with
            nodes := alSet st.nodes name { hsh with h := some false },
            expiry := alSet st.expiry name ee }
        else { st with nodes := alSet st.nodes name { hsh with h := some false } })
      with hstU
    have hrelE : release st (some name) none = .ok stU := by
      unfold release
      show (do
        let st1 ← unhold st name ((alGet st.nodes name).bind NodeHash.d)
          ((alGet st.nodes name).bind NodeHash.e)
        pure st1 : Except String Store) = .ok stU
      rw [hrunU]
      rfl
    rw [hrelE] at hrel
    obtain rfl := Except.ok.inj hrel
    have hnodesU : stU.nodes = alSet st.nodes name { hsh with h := some false } := by
      by_cases hdd0 : 0 ≤ dd
      · rw [hstU, if_pos hdd0]
      · rw [hstU, if_neg hdd0]
    have hgetU : alGet stU.nodes name = some { hsh with h := some false } := by
      rw [hnodesU]
      exact alGet_alSet_self st.nodes name _
    have hentU : alGet stU.expiry name = none ∨
        ∃ sc, alGet stU.expiry name = some sc ∧ now4 < sc := by
      by_cases hdd0 : 0 ≤ dd
      · refine Or.inr ⟨ee, ?_, hlate dd hd hdd0 ee hee⟩
        rw [hstU, if_pos hdd0]
        exact alGet_alSet_self st.expiry name ee
      · rw [hstU, if_neg hdd0]
        exact Or.inl hnoent
    have htIU : ({ hsh with h := some false } : NodeHash).t.isSome = true := htI
    obtain ⟨st1U, hsweepU, hInv1U, _, _, hsurvU, _, _, _⟩ :=
      collect_expired_nodes_ok hInvU now4
    obtain ⟨h3, hg3, ht3, hh3, _, _, _, _, _, _⟩ :=
      hsurvU name { hsh with h := some false } hgetU htIU hentU
    have ht3b : h3.t = some tk := by
      rw [ht3]
      exact htok
    have htokU : alGet st1U.tokens tk = some name :=
      (hInv1U.lockedOk name h3 tk hg3 ht3b).2.2.2.2.1
    obtain ⟨st1b, hsweepb, _, hbr⟩ := unlock_ok hInvU now4 tk
    have hst1b : st1b = st1U := Except.ok.inj (hsweepb.symm.trans hsweepU)
    subst hst1b
    rcases hbr with ⟨hnone, _⟩ | ⟨name2, hsh2, htk2, hget2, htok2, hbr2⟩
    · rw [htokU] at hnone
      cases hnone
    · rw [htokU] at htk2
      obtain rfl := Option.some.inj htk2
      rw [hg3] at hget2
      obtain rfl := Option.some.inj hget2
      rcases hbr2 with ⟨hT, _⟩ | ⟨hF, st3, hrunOK, _⟩
      · exfalso
        rw [hh3] at hT
        have hT2 : (some false : Option Bool) = some true := hT
        cases hT2
      · exact ⟨st3, hrunOK⟩

/-! ## Helper evaluation lemmas -/

/-- the sweep does nothing when no entry has expired. -/
theorem sweep_noop {st : Store} (now_sec : Int)
    (h : ∀ en ∈ st.expiry, ¬ en.2 ≤ now_sec) :
    collect_expired_nodes st now_sec = .ok st := by
  show sweepLoop (st.expiry.length + 1) st now_sec = .ok st
  unfold sweepLoop
  have hz : zrangebyscore st.expiry now_sec 100 = [] :=
    (zrangebyscore_eq_nil_iff (by omega)).mpr h
  rw [hz, if_pos rfl]
  rfl

/-- sweeping the empty store does nothing. -/
theorem sweep_empty (now_sec : Int) :
    collect_expired_nodes emptyStore now_sec = .ok emptyStore :=
  sweep_noop now_sec (fun en hmem => absurd hmem (List.not_mem_nil en))

theorem alDel_alSet_nil {α β : Type} [DecidableEq α] (k : α) (v : β) :
    alDel (alSet ([] : List (α × β)) k v) k = [] := by
  show List.filter (fun en => decide (¬ en.1 = k)) [(k, v)] = []
  rw [List.filter_cons]
  simp

/-- the root field the first `create_token` step stores at the lock root is
the (canonical) root path itself: fresh nodes get it from the
initialisation, existing ones from consistency. -/
theorem lockHash_r {st1 : Store} (hInv1 : Inv st1) (root : Path) (now d : Int)
    (iz : Bool) (o : String) (tok : Nat) :
    (lockHash now d iz o tok root ((alGet st1.nodes root).getD {})).r = some root := by
  cases hg : alGet st1.nodes root with
  | none => rfl
  | some h0 =>
    show (bumpHash root h0).r = some root
    unfold bumpHash
    by_cases hc : h0.c.getD 0 + 1 = 1
    · rw [if_pos hc]
    · rw [if_neg hc]
      show h0.r = some root
      exact (hInv1.base root h0 hg).2.1

/-- **C1.**  After every finite sequence of facade operations (Create,
Refresh, Unlock, Confirm, release callback) from the empty store, the state
satisfies invariants 1–7 of spec §3: a root node counting all locked nodes
whenever any node exists, clean rooted names, positive refcounts equal to
the locked nodes at or beneath each path, locked nodes reachable via their
token and token entries reachable by name, and expiry entries reachable by
name, not held, with non-negative duration. -/
theorem C1_state_invariants {st : Store} (h : Reachable st) : Invariants st :=
  Inv_implies_Invariants (reachable_inv h)

/-- **C2.**  In any consistent (reachable) state, `can_create` returns
false exactly when the target node carries a token, or the request is
infinite-depth (`zeroDepth` false) and any node exists at the target, or
some strict ancestor carries a token without `zeroDepth`; otherwise it
returns true. -/
theorem C2_canCreate_characterisation {st : Store} (hInv : Inv st) {name : Path}
    (hclean : CleanName name = true) (iz : Bool) :
    can_create st name iz = false ↔
      ((∃ h2, alGet st.nodes name = some h2 ∧ h2.t.isSome = true) ∨
       (iz = false ∧ (alGet st.nodes name).isSome = true) ∨
       (∃ a h2, a ∈ pathChain name ∧ a ≠ name ∧ alGet st.nodes a = some h2 ∧
         h2.t.isSome = true ∧ ¬ h2.z = some true)) :=
  can_create_false_iff hInv hclean iz

/-- the match test of the Lua lookup, characterised: a candidate matches
iff it resolves to a non-held node whose root equals the name, or the node
is not zero-depth and its root is `"/"` or a proper slash-prefix of the
name. -/
theorem tokenMatches_iff {st : Store} (hInv : Inv st) (nm : Path) (tk : Nat) :
    tokenMatches st nm tk = true ↔
      ∃ nmr hsh, alGet st.tokens tk = some nmr ∧ alGet st.nodes nmr = some hsh ∧
        ¬ hsh.h = some true ∧
        (hsh.r = some nm ∨
         (¬ hsh.z = some true ∧ ∃ r, hsh.r = some r ∧
           (r = ['/'] ∨ (r ++ ['/']).isPrefixOf nm = true))) := by
  cases hcase : alGet st.tokens tk with
  | none =>
    unfold tokenMatches
    rw [hcase]
    constructor
    · intro h
      cases h
    · rintro ⟨nmr, hsh, habs, _⟩
      cases habs
  | some name =>
    obtain ⟨hsh, hget, htok⟩ := hInv.tokensBack tk name hcase
    have hr : hsh.r = some name := (hInv.base name hsh hget).2.1
    unfold tokenMatches
    rw [hcase]
    show ((let node := alGet st.nodes name
      let root := node.bind NodeHash.r
      let is_zero_depth := node.bind NodeHash.z = some true
      let held := node.bind NodeHash.h = some true
      if held then false
      else if root = some nm then true
      else if is_zero_depth then false
      else match root with
        | none => false
        | some r =>
          if r = ['/'] ∨ (r ++ ['/']).isPrefixOf nm then true else false) = true) ↔ _
    rw [hget]
    show ((if hsh.h = some true then false
      else if hsh.r = some nm then true
      else if hsh.z = some true then false
      else match hsh.r with
        | none => false
        | some r =>
          if r = ['/'] ∨ (r ++ ['/']).isPrefixOf nm then true else false) = true) ↔ _
    by_cases hH : hsh.h = some true
    · rw [if_pos hH]
      constructor
      · intro h
        cases h
      · rintro ⟨nmr, hsh2, htk2, hget2, hh2, _⟩
        obtain rfl := Option.some.inj htk2
        rw [hget] at hget2
        obtain rfl := Option.some.inj hget2
        exact absurd hH hh2
    · rw [if_neg hH]
      by_cases hRm : hsh.r = some nm
      · rw [if_pos hRm]
        exact ⟨fun _ => ⟨name, hsh, rfl, hget, hH, Or.inl hRm⟩, fun _ => rfl⟩
      · rw [if_neg hRm]
        by_cases hZ : hsh.z = some true
        · rw [if_pos hZ]
          constructor
          · intro h
            cases h
          · rintro ⟨nmr, hsh2, htk2, hget2, hh2, hM⟩
            obtain rfl := Option.some.inj htk2
            rw [hget] at hget2
            obtain rfl := Option.some.inj hget2
            rcases hM with hM | ⟨hz2, _⟩
            · exact absurd hM hRm
            · exact absurd hZ hz2
        · rw [if_neg hZ, hr]
          show (if name = ['/'] ∨ (name ++ ['/']).isPrefixOf nm then true else false) =
            true ↔ _
          by_cases hPre : name = ['/'] ∨ (name ++ ['/']).isPrefixOf nm
          · rw [if_pos hPre]
            refine ⟨fun _ => ⟨name, hsh, rfl, hget, hH,
              Or.inr ⟨hZ, name, hr, ?_⟩⟩, fun _ => rfl⟩
            rcases hPre with hPre | hPre
            · exact Or.inl hPre
            · exact Or.inr hPre
          · rw [if_neg hPre]
            constructor
            · intro h
              cases h
            · rintro ⟨nmr, hsh2, htk2, hget2, hh2, hM⟩
              obtain rfl := Option.some.inj htk2
              rw [hget] at hget2
              obtain rfl := Option.some.inj hget2
              rcases hM with hM | ⟨hz2, r2, hr2, hor⟩
              · exact absurd hM hRm
              · rw [hr] at hr2
                obtain rfl := Option.some.inj hr2
                refine absurd ?_ hPre
                rcases hor with hor | hor
                · exact Or.inl hor
                · exact Or.inr hor

/-- **C4.**  `confirm` returns the confirmation-failed error exactly when
some requested non-empty name matches no candidate token under the Lua
lookup rules (tried in order), evaluated in the post-sweep store; in that
failure case the resulting store is exactly the post-sweep store, so no
node becomes held.  The match test itself is: a non-held node matches a
name iff its root equals the name, or the node is not zero-depth and its
root is `"/"` or the name extends the root past a slash. -/
theorem C4_confirm_failure {st : Store} (hInv : Inv st) (now_sec : Int)
    (name0 name1 : Option Path) (toks : List Nat) :
    ∃ st1, collect_expired_nodes st now_sec = .ok st1 ∧
      ∃ res st', confirm st now_sec name0 name1 toks = .ok (res, st') ∧
      (res = .inl .confirmationFailed ↔
        ((∃ nm0, name0 = some nm0 ∧ ∀ tk ∈ toks, tokenMatches st1 nm0 tk = false) ∨
         (∃ nm1, name1 = some nm1 ∧
           ∀ tk ∈ toks, tokenMatches st1 nm1 tk = false))) ∧
      (res = .inl .confirmationFailed → st' = st1) ∧
      (∀ nm tk, tokenMatches st1 nm tk = true ↔
        ∃ nmr hsh, alGet st1.tokens tk = some nmr ∧ alGet st1.nodes nmr = some hsh ∧
          ¬ hsh.h = some true ∧
          (hsh.r = some nm ∨
           (¬ hsh.z = some true ∧ ∃ r, hsh.r = some r ∧
             (r = ['/'] ∨ (r ++ ['/']).isPrefixOf nm = true)))) := by
  obtain ⟨st1, hsweep, hInv1, res, st', hrun, _, hfail, hiff⟩ :=
    confirm_ok hInv now_sec name0 name1 toks
  exact ⟨st1, hsweep, res, st', hrun, hiff, hfail,
    fun nm tk => tokenMatches_iff hInv1 nm tk⟩

/-- **C5.**  The expiration sweep removes exactly the locks whose
expiry-index score is at most `now` (inclusive boundary): their entries
leave the index, their token keys are deleted and their nodes unlocked,
while locks with a later expiry (or no entry, e.g. negative duration) keep
all their fields; each index query returns at most 100 paths, and the loop
repeats until no expired entry remains. -/
theorem C5_sweep_exact {st : Store} (hInv : Inv st) (now_sec : Int) :
    ∃ st', collect_expired_nodes st now_sec = .ok st' ∧
      st'.expiry = st.expiry.filter (fun en => decide (now_sec < en.2)) ∧
      (∀ q sc, alGet st.expiry q = some sc → sc ≤ now_sec →
        (∀ h2, alGet st'.nodes q = some h2 → h2.t = none) ∧
        (∀ tk, alGet st.tokens tk = some q → alGet st'.tokens tk = none)) ∧
      (∀ q hq, alGet st.nodes q = some hq → hq.t.isSome = true →
        (alGet st.expiry q = none ∨ ∃ sc, alGet st.expiry q = some sc ∧ now_sec < sc) →
        ∃ h2, alGet st'.nodes q = some h2 ∧ h2.t = hq.t ∧ h2.h = hq.h ∧ h2.d = hq.d ∧
          h2.o = hq.o ∧ h2.z = hq.z ∧ h2.e = hq.e ∧ h2.n = hq.n ∧ h2.r = hq.r) ∧
      (∀ zset : List (Path × Int), (zrangebyscore zset now_sec 100).length ≤ 100) := by
  obtain ⟨st', hsweep, hInv', _, hExp, hsurv, _, hexpired, htoks⟩ :=
    collect_expired_nodes_ok hInv now_sec
  refine ⟨st', hsweep, hExp, ?_, hsurv, ?_⟩
  · intro q sc hent hle
    refine ⟨hexpired q sc hent hle, ?_⟩
    intro tk htk
    cases hres : alGet st'.tokens tk with
    | none => rfl
    | some p =>
      exfalso
      have hback := htoks tk p hres
      rw [htk] at hback
      obtain rfl := Option.some.inj hback
      obtain ⟨hsh', hget', ht'⟩ := hInv'.tokensBack tk q hres
      rw [hexpired q sc hent hle hsh' hget'] at ht'
      cases ht'
  · intro zset
    show ((((zset.filter _).mergeSort _).take 100).map Prod.fst).length ≤ 100
    rw [List.length_map, List.length_take]
    omega

/-- **C8.**  For a token that resolves (after the sweep) to a non-held
lock, `refresh` removes the node's old expiry-index entry iff the previous
duration was non-negative — independently of the new duration and of the
stored expiry value — adds an entry with score `now + nd` iff the new
duration `nd` is non-negative, and stores `d = nd` and `e = now + nd` when
`0 ≤ nd`, `e = 0` otherwise. -/
theorem C8_refresh_expiry_index {st : Store} (hInv : Inv st) (now_sec : Int)
    (token : Nat) (nd : Int) {st1 : Store}
    (hsweep : collect_expired_nodes st now_sec = .ok st1) {name : Path}
    (htk : alGet st1.tokens token = some name) {hsh : NodeHash}
    (hget : alGet st1.nodes name = some hsh) (hh : hsh.h = some false)
    {od : Int} (hod : hsh.d = some od) :
    ∃ st4, refresh st now_sec token nd =
        .ok (.inr ⟨hsh.r, nd, hsh.o, hsh.z⟩, st4) ∧
      st4.nodes = alSet st1.nodes name
        { hsh with d := some nd, e := some (if 0 ≤ nd then now_sec + nd else 0) } ∧
      st4.expiry =
        (if 0 ≤ nd then
          alSet (if 0 ≤ od then alDel st1.expiry name else st1.expiry) name
            (now_sec + nd)
         else (if 0 ≤ od then alDel st1.expiry name else st1.expiry)) := by
  obtain ⟨st1b, hsweepb, hInv1, hbr⟩ := refresh_ok hInv now_sec token nd
  have hst1b : st1b = st1 := Except.ok.inj (hsweepb.symm.trans hsweep)
  subst hst1b
  rcases hbr with ⟨hnone, _⟩ | ⟨name2, hsh2, htk2, hget2, htok2, hbr2⟩
  · rw [htk] at hnone
    cases hnone
  · rw [htk] at htk2
    obtain rfl := Option.some.inj htk2
    rw [hget] at hget2
    obtain rfl := Option.some.inj hget2
    rcases hbr2 with ⟨hT, _⟩ | ⟨hF, od2, hd2, hrunR, _⟩
    · exfalso
      rw [hh] at hT
      cases hT
    · rw [hod] at hd2
      obtain rfl := Option.some.inj hd2
      refine ⟨_, hrunR, ?_, ?_⟩
      · rw [refreshedStore_eq]
      · rw [refreshedStore_eq]

/-- **C7 (amended).**  For a lock created through the facade, a subsequent
facade `Refresh` with requested duration `d2` that reaches the lock returns
details with the canonical root and the preserved owner and zero-depth
flag, but with Duration `durationToSec d2 * nsPerSec` — the requested
duration truncated to whole seconds and scaled back — rather than `d2`
itself (see the counterexample to the original claim). -/
theorem C7_refresh_details {st : Store} (hInv : Inv st) (now1 : Int)
    (details : LockDetails) {tok : Nat} {stA : Store}
    (hcr : facadeCreate st now1 details = .ok (.inr tok, stA))
    (now2 d2 : Int) {dets : LockDetails} {stX : Store}
    (hrf : facadeRefresh stA now2 tok d2 = .ok (.inr dets, stX)) :
    dets = ⟨slashClean details.Root, durationToSec d2 * nsPerSec,
      details.OwnerXML, details.ZeroDepth⟩ := by
  obtain ⟨st1, hsweep1, hInv1, hbr1⟩ := create_ok hInv now1
    (slashClean_clean details.Root) (durationToSec details.Duration)
    details.ZeroDepth details.OwnerXML
  have hcr2 : create st now1 (slashClean details.Root)
      (durationToSec details.Duration) details.ZeroDepth details.OwnerXML =
      .ok (.inr tok, stA) := hcr
  rcases hbr1 with ⟨_, hrunC⟩ |
    ⟨_, st2, hrunC, hInv2, hNxt2, hTok2, hExp2, hroot2, _, _, _, _⟩
  · rw [hrunC] at hcr2
    cases congrArg Prod.fst (Except.ok.inj hcr2)
  · rw [hrunC] at hcr2
    have hpair := Except.ok.inj hcr2
    have htokv : st1.nextToken + 1 = tok := Sum.inr.inj (congrArg Prod.fst hpair)
    obtain rfl : stA = st2 := (congrArg Prod.snd hpair).symm
    rw [htokv] at hTok2 hroot2
    obtain ⟨st1R, hsweepR, hInvR, hbrR⟩ := refresh_ok hInv2 now2 tok (durationToSec d2)
    have hrf2 : (do
      let r2 ← refresh stA now2 tok (durationToSec d2)
      match r2.1 with
      | Sum.inl e => pure (Sum.inl e, r2.2)
      | Sum.inr rep =>
        (pure (Sum.inr ⟨rep.root.getD [], rep.duration_sec * nsPerSec,
          rep.owner_xml.getD "", rep.zero_depth = some true⟩, r2.2) :
          Except String (Sum LockErr LockDetails × Store))) =
        .ok (.inr dets, stX) := hrf
    obtain ⟨st1R2, hsweepR2, _, _, _, hsurvR, _, hexpR, htoksR⟩ :=
      collect_expired_nodes_ok hInv2 now2
    obtain rfl : st1R = st1R2 := Except.ok.inj (hsweepR.symm.trans hsweepR2)
    rcases hbrR with ⟨hnoneR, hrunR⟩ | ⟨nameR, hshR, htkR, hgetR, htokR, hbrR2⟩
    · rw [hrunR] at hrf2
      have h4 : (Except.ok ((Sum.inl LockErr.noSuchLock : Sum LockErr LockDetails),
          st1R) : Except String (Sum LockErr LockDetails × Store)) =
          .ok (.inr dets, stX) := hrf2
      cases congrArg Prod.fst (Except.ok.inj h4)
    · have htkA : alGet stA.tokens tok = some nameR := htoksR tok nameR htkR
      rw [hTok2, alGet_alSet_self] at htkA
      obtain rfl := Option.some.inj htkA
      rcases hbrR2 with ⟨hT, hrunR⟩ | ⟨hF, odR, hdR, hrunR, _⟩
      · rw [hrunR] at hrf2
        have h4 : (Except.ok ((Sum.inl LockErr.locked : Sum LockErr LockDetails),
            st1R) : Except String (Sum LockErr LockDetails × Store)) =
            .ok (.inr dets, stX) := hrf2
        cases congrArg Prod.fst (Except.ok.inj h4)
      · rw [hrunR] at hrf2
        have h4 : (Except.ok ((Sum.inr ⟨hshR.r.getD [],
            durationToSec d2 * nsPerSec, hshR.o.getD "",
            hshR.z = some true⟩ : Sum LockErr LockDetails),
            refreshedStore st1R (slashClean details.Root) hshR odR
              (durationToSec d2) now2) :
            Except String (Sum LockErr LockDetails × Store)) =
            .ok (.inr dets, stX) := hrf2
        have hdets : (⟨hshR.r.getD [], durationToSec d2 * nsPerSec,
            hshR.o.getD "", hshR.z = some true⟩ : LockDetails) = dets :=
          Sum.inr.inj (congrArg Prod.fst (Except.ok.inj h4))
        have hent : alGet stA.expiry (slashClean details.Root) = none ∨
            ∃ sc, alGet stA.expiry (slashClean details.Root) = some sc ∧
              now2 < sc := by
          cases hE : alGet stA.expiry (slashClean details.Root) with
          | none => exact Or.inl rfl
          | some sc =>
            by_cases hsc : now2 < sc
            · exact Or.inr ⟨sc, rfl, hsc⟩
            · exfalso
              have := hexpR (slashClean details.Root) sc hE (by omega) hshR hgetR
              rw [htokR] at this
              cases this
        obtain ⟨h2, hg2, ht2, hh2, hd2v, ho2, hz2, he2, hn2, hr2⟩ :=
          hsurvR (slashClean details.Root) _ hroot2 rfl hent
        rw [hg2] at hgetR
        obtain rfl := Option.some.inj hgetR
        have hr3 : h2.r = some (slashClean details.Root) := by
          rw [hr2]
          exact lockHash_r hInv1 (slashClean details.Root) _ _ _ _ _
        have ho3 : h2.o = some details.OwnerXML := ho2
        have hz3 : h2.z = some details.ZeroDepth := hz2
        rw [← hdets, hr3, ho3, hz3]
        show (⟨slashClean details.Root, durationToSec d2 * nsPerSec,
          details.OwnerXML,
          decide ((some details.ZeroDepth : Option Bool) = some true)⟩ :
            LockDetails) = _
        cases hD : details.ZeroDepth <;> rfl

/-- **C6.**  Creating any lock on the empty store and then successfully
unlocking its token leaves no keys: the node hashes, the token keys and the
expiry index are all empty again (only the next-token counter, a plain
integer outside these maps, persists). -/
theorem C6_create_unlock_clean (now1 now2 : Int) (details : LockDetails)
    {tok : Nat} {stA : Store}
    (hcr : facadeCreate emptyStore now1 details = .ok (.inr tok, stA))
    {stB : Store} (hul : facadeUnlock stA now2 tok = .ok (none, stB)) :
    stB.nodes = [] ∧ stB.tokens = [] ∧ stB.expiry = [] := by
  have hclean : CleanName (slashClean details.Root) = true :=
    slashClean_clean details.Root
  obtain ⟨st1, hsweep1, hInv1, hbr1⟩ := create_ok Inv_empty now1 hclean
    (durationToSec details.Duration) details.ZeroDepth details.OwnerXML
  obtain rfl : st1 = emptyStore := Except.ok.inj (hsweep1.symm.trans (sweep_empty now1))
  have hcr2 : create emptyStore now1 (slashClean details.Root)
      (durationToSec details.Duration) details.ZeroDepth details.OwnerXML =
      .ok (.inr tok, stA) := hcr
  rcases hbr1 with ⟨_, hrunC⟩ |
    ⟨_, st2, hrunC, hInv2, hNxt2, hTok2, hExp2, hroot2, hin2, hout2, hcnt2, _⟩
  · rw [hrunC] at hcr2
    cases congrArg Prod.fst (Except.ok.inj hcr2)
  · rw [hrunC] at hcr2
    have hpair := Except.ok.inj hcr2
    obtain rfl : emptyStore.nextToken + 1 = tok :=
      Sum.inr.inj (congrArg Prod.fst hpair)
    obtain rfl : stA = st2 := (congrArg Prod.snd hpair).symm
    have hul2 : unlock stA now2 (emptyStore.nextToken + 1) = .ok (none, stB) := hul
    obtain ⟨st1U, hsweepU, hInv1U, hbrU⟩ :=
      unlock_ok hInv2 now2 (emptyStore.nextToken + 1)
    obtain ⟨st1U2, hsweepU2, _, _, _, _, _, hexpU, htoksU⟩ :=
      collect_expired_nodes_ok hInv2 now2
    obtain rfl : st1U = st1U2 := Except.ok.inj (hsweepU.symm.trans hsweepU2)
    rcases hbrU with ⟨hnoneU, hrunU⟩ | ⟨nameU, hshU, htkU, hgetU, htokU, hbrU2⟩
    · rw [hrunU] at hul2
      cases congrArg Prod.fst (Except.ok.inj hul2)
    · have htkA : alGet stA.tokens (emptyStore.nextToken + 1) = some nameU :=
        htoksU _ nameU htkU
      rw [hTok2, alGet_alSet_self] at htkA
      obtain rfl := Option.some.inj htkA
      -- if the lock expired before `now2`, the sweep leaves its node
      -- unlocked, contradicting the resolved token
      have hlive : ∀ sc, alGet stA.expiry (slashClean details.Root) = some sc →
          ¬ sc ≤ now2 := by
        intro sc hE hle
        have := hexpU (slashClean details.Root) sc hE hle hshU hgetU
        rw [htokU] at this
        cases this
      have hnoopU : collect_expired_nodes stA now2 = .ok stA := by
        refine sweep_noop now2 ?_
        intro en hmem
        rw [hExp2] at hmem
        by_cases hdd : 0 ≤ durationToSec details.Duration
        · rw [if_pos hdd] at hmem
          have hmem2 : en ∈ [(slashClean details.Root,
              now1 + durationToSec details.Duration)] := hmem
          have hen := List.mem_singleton.mp hmem2
          rw [hen]
          refine hlive _ ?_
          rw [hExp2, if_pos hdd]
          exact alGet_alSet_self _ _ _
        · rw [if_neg hdd] at hmem
          cases hmem
      obtain rfl : stA = st1U := (Except.ok.inj (hsweepU2.symm.trans hnoopU)).symm
      rw [hroot2] at hgetU
      obtain rfl := Option.some.inj hgetU
      rcases hbrU2 with ⟨hT, _⟩ | ⟨hF, st2U, hrunU, _, _, hTokB, hExpB, houtB, hinB⟩
      · exfalso
        have hT2 : (some false : Option Bool) = some true := hT
        cases hT2
      · rw [hrunU] at hul2
        obtain rfl : st2U = stB := congrArg Prod.snd (Except.ok.inj hul2)
        refine ⟨?_, ?_, ?_⟩
        · refine eq_nil_of_alGet_none ?_
          intro q
          by_cases hq : q ∈ pathChain (slashClean details.Root)
          · rw [hinB q hq]
            have hcq : lockedCount stA q = 1 := by
              rw [hcnt2 q]
              have hbene : isBeneath (slashClean details.Root) q = true := by
                have hqg : GoodPath q :=
                  goodPath_of_mem_pathChain (clean_good hclean) hq
                exact (mem_pathChain_iff hqg (clean_good hclean)).mp hq
              rw [if_pos hbene]
              rfl
            rw [if_pos hcq]
          · rw [houtB q hq, hout2 q hq]
            rfl
        · rw [hTokB, hTok2]
          exact alDel_alSet_nil _ _
        · rw [hExpB, hExp2]
          by_cases hdd : 0 ≤ durationToSec details.Duration
          · rw [if_pos hdd]
            exact alDel_alSet_nil _ _
          · rw [if_neg hdd]
            rfl

theorem mergeSort_singleton {α : Type} (a : α) (f : α → α → Bool) :
    [a].mergeSort f = [a] :=
  List.perm_singleton.mp (List.mergeSort_perm [a] f)

/-- the sweep on a store whose expiry index holds one expired path with no
node aborts: `remove` reads nil `HMGET` fields and the script raises a Lua
runtime error. -/
theorem dangling_sweep_error (q : Path) (sc now_sec : Int) (n : Nat)
    (toks : List (Nat × Path)) (hle : sc ≤ now_sec) :
    collect_expired_nodes ⟨n, [], toks, [(q, sc)]⟩ now_sec =
      .error "lua runtime error: nil value" := by
  have hz : zrangebyscore ([(q, sc)] : List (Path × Int)) now_sec 100 = [q] := by
    unfold zrangebyscore
    rw [show List.filter (fun en => decide (en.2 ≤ now_sec)) [(q, sc)] = [(q, sc)] by
      rw [List.filter_cons]
      simp [hle]]
    rw [mergeSort_singleton]
    rfl
  show sweepLoop ([(q, sc)].length + 1) ⟨n, [], toks, [(q, sc)]⟩ now_sec = _
  unfold sweepLoop
  rw [hz, if_neg (List.cons_ne_nil q [])]
  rfl

/-- **C9 (amended).**  If the expiry index contains a path with score at
most `now` for which no node exists, the expiration sweep does not silently
continue: processing that path calls `remove` with nil `HMGET` results and
the script aborts with a Lua runtime error, so the enclosing operation
fails rather than completing. -/
theorem C9_dangling_expiry_aborts (q : Path) (sc now_sec : Int) (n : Nat)
    (toks : List (Nat × Path)) (hle : sc ≤ now_sec) :
    ∃ msg, collect_expired_nodes ⟨n, [], toks, [(q, sc)]⟩ now_sec = .error msg :=
  ⟨"lua runtime error: nil value", dangling_sweep_error q sc now_sec n toks hle⟩

/-- **C9 (counterexample).**  The store with one token key and a dangling
expired expiry entry for `"/a"` (no node hash at all): the sweep errors
instead of silently continuing, and an enclosing `unlock` at the same
instant never completes with an ok result. -/
theorem C9_counterexample :
    (∃ msg, collect_expired_nodes ⟨1, [], [(1, ['/', 'a'])], [(['/', 'a'], 0)]⟩ 0 =
      .error msg) ∧
    ∀ r, unlock ⟨1, [], [(1, ['/', 'a'])], [(['/', 'a'], 0)]⟩ 0 1 ≠ .ok r := by
  have hc := dangling_sweep_error ['/', 'a'] 0 0 1 [(1, ['/', 'a'])] (by decide)
  refine ⟨⟨_, hc⟩, ?_⟩
  intro r hr
  have h2 : unlock ⟨1, [], [(1, ['/', 'a'])], [(['/', 'a'], 0)]⟩ 0 1 =
      .error "lua runtime error: nil value" := by
    unfold unlock
    rw [hc]
    rfl
  rw [h2] at hr
  cases hr

/-- **C10.**  Facade durations strictly between −1 s and +1 s other than
the exact −1 ns sentinel truncate to 0 whole seconds, so a facade `Create`
stores duration 0: the new lock's expiry entry and `e` field equal `now`
itself, and any successful sweep at `now2 ≥ now` leaves the lock's node
unlocked — a small negative duration such as −2 ns expires immediately
instead of never expiring. -/
theorem C10_subsecond_duration_expires {st : Store} (hInv : Inv st) (now1 : Int)
    (details : LockDetails) (hlo : -nsPerSec < details.Duration)
    (hhi : details.Duration < nsPerSec) (hne : details.Duration ≠ infiniteTimeout)
    {tok : Nat} {stA : Store}
    (hcr : facadeCreate st now1 details = .ok (.inr tok, stA)) :
    durationToSec details.Duration = 0 ∧
    alGet stA.expiry (slashClean details.Root) = some now1 ∧
    (∃ hl, alGet stA.nodes (slashClean details.Root) = some hl ∧
      hl.t = some tok ∧ hl.d = some 0 ∧ hl.e = some now1) ∧
    (∀ now2, now1 ≤ now2 → ∀ st2, collect_expired_nodes stA now2 = .ok st2 →
      ∀ h2, alGet st2.nodes (slashClean details.Root) = some h2 → h2.t = none) := by
  have htr : durationToSec details.Duration = 0 := by
    unfold durationToSec
    rw [if_neg hne]
    rcases le_or_lt 0 details.Duration with hpos | hneg
    · exact Int.tdiv_eq_zero_of_lt hpos hhi
    · have h1 : (0 : Int) ≤ -details.Duration := by omega
      have h2 : -details.Duration < nsPerSec := by omega
      have h3 : (-details.Duration).tdiv nsPerSec = 0 := Int.tdiv_eq_zero_of_lt h1 h2
      rw [show details.Duration = -(-details.Duration) by omega, Int.neg_tdiv, h3]
      rfl
  obtain ⟨st1, hsweep1, hInv1, hbr1⟩ := create_ok hInv now1
    (slashClean_clean details.Root) (durationToSec details.Duration)
    details.ZeroDepth details.OwnerXML
  have hcr2 : create st now1 (slashClean details.Root)
      (durationToSec details.Duration) details.ZeroDepth details.OwnerXML =
      .ok (.inr tok, stA) := hcr
  rcases hbr1 with ⟨_, hrunC⟩ |
    ⟨_, st2, hrunC, hInv2, hNxt2, hTok2, hExp2, hroot2, _, _, _, _⟩
  · rw [hrunC] at hcr2
    cases congrArg Prod.fst (Except.ok.inj hcr2)
  · rw [hrunC] at hcr2
    have hpair := Except.ok.inj hcr2
    obtain rfl : st1.nextToken + 1 = tok := Sum.inr.inj (congrArg Prod.fst hpair)
    obtain rfl : stA = st2 := (congrArg Prod.snd hpair).symm
    rw [htr] at hExp2 hroot2
    have hExp3 : stA.expiry = alSet st1.expiry (slashClean details.Root) now1 := by
      rw [hExp2, if_pos (le_refl (0 : Int))]
      rw [show now1 + (0 : Int) = now1 by omega]
    have hent : alGet stA.expiry (slashClean details.Root) = some now1 := by
      rw [hExp3]
      exact alGet_alSet_self _ _ _
    refine ⟨htr, hent, ?_, ?_⟩
    · refine ⟨_, hroot2, rfl, rfl, ?_⟩
      show some (if (0 : Int) ≤ 0 then now1 + 0 else 0) = some now1
      rw [if_pos (le_refl (0 : Int)), show now1 + (0 : Int) = now1 by omega]
    · intro now2 hle st2' hrun2 h2 hget2
      obtain ⟨st2'', hsweep'', _, _, _, _, _, hexp'', _⟩ :=
        collect_expired_nodes_ok hInv2 now2
      obtain rfl : st2' = st2'' := Except.ok.inj (hrun2.symm.trans hsweep'')
      exact hexp'' (slashClean details.Root) now1 hent hle h2 hget2

/-! ## Concrete scenarios

A lock at `"/a"` created on the empty store, with the follow-up operations
used to instantiate the claims on concrete runs. -/

def aPath : Path := ['/', 'a']

theorem pathChain_a : pathChain aPath = [aPath, ['/']] := by
  rw [pathChain_ne (show aPath ≠ ['/'] by decide),
    show get_parent_path aPath = ['/'] by decide, pathChain_root]

/-- evaluation of a facade `Create` of `"/a"` on the empty store. -/
theorem facadeCreate_empty_a (now_sec d ds : Int) (hds : durationToSec d = ds)
    (o : String) (iz : Bool) :
    facadeCreate emptyStore now_sec ⟨aPath, d, o, iz⟩ =
      .ok (.inr 1,
        { nextToken := 1,
          nodes := [(aPath,
            { n := some aPath, r := some aPath, h := some false, c := some 1,
              t := some 1, d := some ds, o := some o, z := some iz,
              e := some (if 0 ≤ ds then now_sec + ds else 0) }),
            (['/'],
              { n := some ['/'], r := some ['/'], h := some false, c := some 1,
                t := none, d := none, o := none, z := none, e := none })],
          tokens := [(1, aPath)],
          expiry := if 0 ≤ ds then [(aPath, now_sec + ds)] else [] }) := by
  show create emptyStore now_sec (slashClean aPath) (durationToSec d) iz o = _
  rw [show slashClean aPath = aPath by decide, hds]
  unfold create
  rw [sweep_empty]
  have hcc : can_create emptyStore aPath iz = true := by
    unfold can_create
    rw [pathChain_a]
    rfl
  show (if ¬ can_create emptyStore aPath iz then
      (pure (.inl .locked, emptyStore) : Except String (Sum LockErr Nat × Store))
    else
      let res := create_token emptyStore now_sec aPath ds iz o
      pure (.inr res.1, res.2)) = _
  rw [if_neg (by rw [hcc]; simp)]
  have hct : create_token emptyStore now_sec aPath ds iz o =
      (1,
        { nextToken := 1,
          nodes := [(aPath,
            { n := some aPath, r := some aPath, h := some false, c := some 1,
              t := some 1, d := some ds, o := some o, z := some iz,
              e := some (if 0 ≤ ds then now_sec + ds else 0) }),
            (['/'],
              { n := some ['/'], r := some ['/'], h := some false, c := some 1,
                t := none, d := none, o := none, z := none, e := none })],
          tokens := [(1, aPath)],
          expiry := if 0 ≤ ds then [(aPath, now_sec + ds)] else [] }) := by
    unfold create_token
    rw [pathChain_a]
    show (emptyStore.nextToken + 1,
      createWalk now_sec ds iz o (emptyStore.nextToken + 1)
        { nextToken := emptyStore.nextToken + 1, nodes := emptyStore.nodes,
          tokens := emptyStore.tokens, expiry := emptyStore.expiry }
        [aPath, ['/']] true) = _
    rw [createWalk_cons, createStep_true_eq, createWalk_cons, createStep_false_eq]
    rfl
  rw [hct]
  rfl

def lockA : NodeHash :=
  { n := some aPath, r := some aPath, h := some false, c := some 1, t := some 1,
    d := some 2, o := some "ow", z := some true, e := some 2 }

def slashNode : NodeHash :=
  { n := some ['/'], r := some ['/'], h := some false, c := some 1 }

/-- the store after `Create(now = 0, "/a", 2 s, zeroDepth, "ow")` on the
empty store. -/
def stA : Store :=
  { nextToken := 1, nodes := [(aPath, lockA), (['/'], slashNode)],
    tokens := [(1, aPath)], expiry := [(aPath, 2)] }

theorem create_a_run :
    facadeCreate emptyStore 0 ⟨aPath, 2000000000, "ow", true⟩ = .ok (.inr 1, stA) := by
  exact facadeCreate_empty_a 0 2000000000 2 (by decide) "ow" true

theorem reach_stA : Reachable stA := Reachable.create Reachable.empty create_a_run

theorem Inv_stA : Inv stA := reachable_inv reach_stA

theorem unlock_a_run : facadeUnlock stA 0 1 = .ok (none, ⟨1, [], [], []⟩) := by
  show unlock stA 0 1 = _
  unfold unlock
  rw [sweep_noop 0 (by decide)]
  have hrem : remove stA aPath (some aPath) (some 1) (some 2) =
      .ok ⟨1, [], [], []⟩ := by
    unfold remove
    show (pure (removeWalk
      { nextToken := 1,
        nodes := [(aPath, { lockA with t := none }), (['/'], slashNode)],
        tokens := [], expiry := [] } (pathChain aPath)) : Except String Store) = _
    rw [pathChain_a]
    rfl
  show (do
    let st2 ← remove stA aPath (some aPath) (some 1) (some 2)
    pure (none, st2) : Except String (Option LockErr × Store)) = _
  rw [hrem]
  rfl

def lockA1 : NodeHash := { lockA with d := some 1, e := some 1 }

/-- the store after refreshing the `"/a"` lock to 1 s at `now = 0`. -/
def stX : Store :=
  { nextToken := 1, nodes := [(aPath, lockA1), (['/'], slashNode)],
    tokens := [(1, aPath)], expiry := [(aPath, 1)] }

theorem refresh_a_run :
    facadeRefresh stA 0 1 1500000000 =
      .ok (.inr ⟨aPath, 1000000000, "ow", true⟩, stX) := by
  have hr : refresh stA 0 1 1 =
      .ok (.inr ⟨some aPath, 1, some "ow", some true⟩, stX) := by
    unfold refresh
    rw [sweep_noop 0 (by decide)]
    rfl
  show (do
    let res ← refresh stA 0 1 (durationToSec 1500000000)
    match res.1 with
    | Sum.inl e => pure (Sum.inl e, res.2)
    | Sum.inr rep =>
      (pure (Sum.inr ⟨rep.root.getD [], rep.duration_sec * nsPerSec,
        rep.owner_xml.getD "", rep.zero_depth = some true⟩, res.2) :
        Except String (Sum LockErr LockDetails × Store))) = _
  rw [show durationToSec 1500000000 = (1 : Int) by decide, hr]
  rfl

def heldA : NodeHash := { lockA with h := some true }

/-- the store after a Confirm of `"/a"` pinned the lock. -/
def stH : Store :=
  { nextToken := 1, nodes := [(aPath, heldA), (['/'], slashNode)],
    tokens := [(1, aPath)], expiry := [] }

theorem confirm_a_run :
    facadeConfirm stA 0 aPath [] [1] = .ok (.inr (aPath, []), stH) := by
  show confirm stA 0 (if aPath = [] then none else some (slashClean aPath))
    (if ([] : List Char) = [] then none else some (slashClean [])) [1] = _
  unfold confirm
  rw [sweep_noop 0 (by decide)]
  rfl

theorem reach_stH : Reachable stH := Reachable.confirm reach_stA confirm_a_run

theorem Inv_stH : Inv stH := reachable_inv reach_stH

def lockN : NodeHash :=
  { n := some aPath, r := some aPath, h := some false, c := some 1, t := some 1,
    d := some 0, o := some "ow", z := some true, e := some 0 }

/-- the store after `Create(now = 0, "/a", −2 ns, zeroDepth, "ow")` on the
empty store: the sub-second duration truncates to 0 s. -/
def stN : Store :=
  { nextToken := 1, nodes := [(aPath, lockN), (['/'], slashNode)],
    tokens := [(1, aPath)], expiry := [(aPath, 0)] }

theorem create_n_run :
    facadeCreate emptyStore 0 ⟨aPath, -2, "ow", true⟩ = .ok (.inr 1, stN) := by
  exact facadeCreate_empty_a 0 (-2) 0 (by decide) "ow" true

def p12 : Path := ['/', 'p', '1', '/', 'p', '2']

def p1 : Path := ['/', 'p', '1']

def p123 : Path := ['/', 'p', '1', '/', 'p', '2', '/', 'p', '3']

theorem pathChain_p1 : pathChain p1 = [p1, ['/']] := by
  rw [pathChain_ne (show p1 ≠ ['/'] by decide),
    show get_parent_path p1 = ['/'] by decide, pathChain_root]

theorem pathChain_p12 : pathChain p12 = [p12, p1, ['/']] := by
  rw [pathChain_ne (show p12 ≠ ['/'] by decide),
    show get_parent_path p12 = p1 by decide, pathChain_p1]

theorem pathChain_p123 : pathChain p123 = [p123, p12, p1, ['/']] := by
  rw [pathChain_ne (show p123 ≠ ['/'] by decide),
    show get_parent_path p123 = p12 by decide, pathChain_p12]

def lockP (iz : Bool) : NodeHash :=
  { n := some p12, r := some p12, h := some false, c := some 1, t := some 1,
    d := some 2, o := some "o2", z := some iz, e := some 2 }

def upNode (p : Path) : NodeHash :=
  { n := some p, r := some p, h := some false, c := some 1 }

/-- the store after creating a lock at `"/p1/p2"` (zero-depth as given) on
the empty store. -/
def stM (iz : Bool) : Store :=
  { nextToken := 1,
    nodes := [(p12, lockP iz), (p1, upNode p1), (['/'], upNode ['/'])],
    tokens := [(1, p12)], expiry := [(p12, 2)] }

theorem create_p12_run (iz : Bool) :
    facadeCreate emptyStore 0 ⟨p12, 2000000000, "o2", iz⟩ = .ok (.inr 1, stM iz) := by
  show create emptyStore 0 (slashClean p12) (durationToSec 2000000000) iz "o2" = _
  rw [show slashClean p12 = p12 by decide,
    show durationToSec 2000000000 = (2 : Int) by decide]
  unfold create
  rw [sweep_empty]
  have hcc : can_create emptyStore p12 iz = true := by
    unfold can_create
    rw [pathChain_p12]
    rfl
  show (if ¬ can_create emptyStore p12 iz then
      (pure (.inl .locked, emptyStore) : Except String (Sum LockErr Nat × Store))
    else
      let res := create_token emptyStore 0 p12 2 iz "o2"
      pure (.inr res.1, res.2)) = _
  rw [if_neg (by rw [hcc]; simp)]
  have hct : create_token emptyStore 0 p12 2 iz "o2" = (1, stM iz) := by
    unfold create_token
    rw [pathChain_p12]
    show (emptyStore.nextToken + 1,
      createWalk 0 2 iz "o2" (emptyStore.nextToken + 1)
        { nextToken := emptyStore.nextToken + 1, nodes := emptyStore.nodes,
          tokens := emptyStore.tokens, expiry := emptyStore.expiry }
        [p12, p1, ['/']] true) = _
    rw [createWalk_cons, createStep_true_eq, createWalk_cons, createStep_false_eq,
      createWalk_cons, createStep_false_eq]
    rfl
  rw [hct]
  rfl

theorem Inv_stM (iz : Bool) : Inv (stM iz) :=
  reachable_inv (Reachable.create Reachable.empty (create_p12_run iz))

/-- **C7 (counterexample).**  The original claim says Refresh returns
`details.Duration = d'`.  Create `"/a"` for 2 s on the empty store, then
refresh its token with `d' = 1.5 s = 1500000000 ns`: the facade returns
Duration `1000000000 ns` (1 s, the truncation of 1.5 s), not `d'` — root,
owner and zero-depth are preserved. -/
theorem C7_counterexample :
    facadeCreate emptyStore 0 ⟨aPath, 2000000000, "ow", true⟩ = .ok (.inr 1, stA) ∧
    ∃ dets stX2, facadeRefresh stA 0 1 1500000000 = .ok (.inr dets, stX2) ∧
      dets.Root = aPath ∧ dets.OwnerXML = "ow" ∧ dets.ZeroDepth = true ∧
      dets.Duration ≠ 1500000000 :=
  ⟨create_a_run, ⟨aPath, 1000000000, "ow", true⟩, stX, refresh_a_run, rfl, rfl, rfl,
    by decide⟩

/-! ## Witnesses -/

theorem C1_state_invariants_witness : Invariants stA :=
  C1_state_invariants reach_stA

theorem C2_canCreate_witness :
    can_create (stM true) p12 true = false ∧
    can_create (stM true) p12 false = false ∧
    can_create (stM true) p1 false = false ∧
    can_create (stM true) p1 true = true ∧
    can_create (stM true) p123 false = true ∧
    can_create (stM false) p123 true = false := by
  refine ⟨?_, ?_, ?_, ?_, ?_, ?_⟩
  · exact (C2_canCreate_characterisation (Inv_stM true) (by decide) true).mpr
      (Or.inl ⟨lockP true, by decide, by decide⟩)
  · exact (C2_canCreate_characterisation (Inv_stM true) (by decide) false).mpr
      (Or.inl ⟨lockP true, by decide, by decide⟩)
  · exact (C2_canCreate_characterisation (Inv_stM true) (by decide) false).mpr
      (Or.inr (Or.inl ⟨rfl, by decide⟩))
  · unfold can_create
    rw [pathChain_p1]
    decide
  · unfold can_create
    rw [pathChain_p123]
    decide
  · exact (C2_canCreate_characterisation (Inv_stM false) (by decide) true).mpr
      (Or.inr (Or.inr ⟨p12, lockP false, by rw [pathChain_p123]; decide, by decide,
        by decide, by decide, by decide⟩))

theorem C3_held_lock_protection_witness :
    ∃ st1 h2, unlock stH 0 1 = .ok (some .locked, st1) ∧
      alGet st1.nodes aPath = some h2 ∧ h2.t = some 1 ∧ h2.h = some true ∧
      h2.d = heldA.d ∧ h2.o = heldA.o ∧ h2.z = heldA.z ∧ h2.e = heldA.e :=
  (C3_held_lock_protection Inv_stH
    (show alGet stH.nodes aPath = some heldA by decide) (by decide)
    (show heldA.t = some 1 by decide) 0 0 0 5).1

theorem C4_confirm_failure_witness :
    ∃ st1, collect_expired_nodes stA 0 = .ok st1 ∧
      ∃ res st', confirm stA 0 (some aPath) none [] = .ok (res, st') ∧
      (res = .inl .confirmationFailed ↔
        ((∃ nm0, (some aPath : Option Path) = some nm0 ∧
           ∀ tk ∈ ([] : List Nat), tokenMatches st1 nm0 tk = false) ∨
         (∃ nm1, (none : Option Path) = some nm1 ∧
           ∀ tk ∈ ([] : List Nat), tokenMatches st1 nm1 tk = false))) ∧
      (res = .inl .confirmationFailed → st' = st1) ∧
      (∀ nm tk, tokenMatches st1 nm tk = true ↔
        ∃ nmr hsh, alGet st1.tokens tk = some nmr ∧
          alGet st1.nodes nmr = some hsh ∧ ¬ hsh.h = some true ∧
          (hsh.r = some nm ∨
           (¬ hsh.z = some true ∧ ∃ r, hsh.r = some r ∧
             (r = ['/'] ∨ (r ++ ['/']).isPrefixOf nm = true)))) :=
  C4_confirm_failure Inv_stA 0 (some aPath) none []

theorem C5_sweep_exact_witness :
    ∃ st', collect_expired_nodes stA 3 = .ok st' ∧
      st'.expiry = stA.expiry.filter (fun en => decide ((3 : Int) < en.2)) ∧
      (∀ q sc, alGet stA.expiry q = some sc → sc ≤ 3 →
        (∀ h2, alGet st'.nodes q = some h2 → h2.t = none) ∧
        (∀ tk, alGet stA.tokens tk = some q → alGet st'.tokens tk = none)) ∧
      (∀ q hq, alGet stA.nodes q = some hq → hq.t.isSome = true →
        (alGet stA.expiry q = none ∨
          ∃ sc, alGet stA.expiry q = some sc ∧ (3 : Int) < sc) →
        ∃ h2, alGet st'.nodes q = some h2 ∧ h2.t = hq.t ∧ h2.h = hq.h ∧
          h2.d = hq.d ∧ h2.o = hq.o ∧ h2.z = hq.z ∧ h2.e = hq.e ∧ h2.n = hq.n ∧
          h2.r = hq.r) ∧
      (∀ zset : List (Path × Int), (zrangebyscore zset 3 100).length ≤ 100) :=
  C5_sweep_exact Inv_stA 3

theorem C6_create_unlock_clean_witness :
    (⟨1, [], [], []⟩ : Store).nodes = [] ∧
    (⟨1, [], [], []⟩ : Store).tokens = [] ∧
    (⟨1, [], [], []⟩ : Store).expiry = [] :=
  C6_create_unlock_clean 0 0 ⟨aPath, 2000000000, "ow", true⟩ create_a_run
    unlock_a_run

theorem C7_refresh_details_witness :
    (⟨aPath, 1000000000, "ow", true⟩ : LockDetails) =
      ⟨slashClean aPath, durationToSec 1500000000 * nsPerSec, "ow", true⟩ :=
  C7_refresh_details Inv_empty 0 ⟨aPath, 2000000000, "ow", true⟩ create_a_run 0
    1500000000 refresh_a_run

theorem C8_refresh_expiry_index_witness :
    ∃ st4, refresh stA 0 1 5 = .ok (.inr ⟨lockA.r, 5, lockA.o, lockA.z⟩, st4) ∧
      st4.nodes = alSet stA.nodes aPath
        { lockA with
            d := some 5,
            e := some (if 0 ≤ (5 : Int) then 0 + 5 else 0) } ∧
      st4.expiry =
        (if 0 ≤ (5 : Int) then
          alSet (if 0 ≤ (2 : Int) then alDel stA.expiry aPath else stA.expiry)
            aPath (0 + 5)
         else (if 0 ≤ (2 : Int) then alDel stA.expiry aPath else stA.expiry)) :=
  C8_refresh_expiry_index Inv_stA 0 1 5 (sweep_noop 0 (by decide))
    (show alGet stA.tokens 1 = some aPath by decide)
    (show alGet stA.nodes aPath = some lockA by decide) (by decide)
    (show lockA.d = some 2 by decide)

theorem C9_dangling_expiry_aborts_witness :
    ∃ msg, collect_expired_nodes ⟨5, [], [], [(aPath, 1)]⟩ 1 = .error msg :=
  C9_dangling_expiry_aborts aPath 1 1 5 [] (by decide)

theorem C10_subsecond_duration_expires_witness :
    durationToSec (-2) = 0 ∧
    alGet stN.expiry (slashClean aPath) = some 0 ∧
    (∃ hl, alGet stN.nodes (slashClean aPath) = some hl ∧
      hl.t = some 1 ∧ hl.d = some 0 ∧ hl.e = some 0) ∧
    (∀ now2, 0 ≤ now2 → ∀ st2, collect_expired_nodes stN now2 = .ok st2 →
      ∀ h2, alGet st2.nodes (slashClean aPath) = some h2 → h2.t = none) :=
  C10_subsecond_duration_expires Inv_empty 0 ⟨aPath, -2, "ow", true⟩ (by decide)
    (by decide) (by decide) create_n_run

end WebdavRedisLS
